import Mathlib

/-!
# The interactive edge-curve editor of `demo/tileinfo.js`

A shallow embedding of the geometric helpers and of the `EditableTiling`
class of `src/demo/tileinfo.js`, followed by the properties established
about them.

Conventions of the embedding.

* The arithmetic of JavaScript numbers is a parameter of the geometric
  helpers (`cubicPoint`, `inv`, `mul`, `sampleEdgePoints`,
  `createDefaultEdge`): they are written once, over any type `K` that has the
  operations they use, and are read in two ways.  In exact arithmetic `K` is a
  linearly ordered field (`ℚ` in the examples): this is the reading in which
  the editor, its histories of calls and its invariants are stated, and in it
  the decimal literals are the decimal fractions they spell and `x / 0` is
  `0`.  In double precision `K` is `F64`, the finite IEEE 754 binary64 values
  with every operation and every literal rounded to nearest, ties to even, as
  the program computes them; `NaN`, the infinities, the sign of zero and the
  limits of the exponent are not represented, so this reading is used only
  where every value is finite and far from overflow and underflow.  A
  statement that does not name `F64` is made in exact arithmetic.
* `Math.sqrt` only occurs in `len`.  The real-valued functions `len`,
  `ptdist` and `distToSeg` are given over `ℝ`; the editor only ever compares
  such a distance with a threshold, and that comparison is embedded through
  the decidable predicate `sqrtLt` (`Math.sqrt d < r`), shown equivalent to
  the comparison of real numbers in `sqrtLt_iff_real`.
* A JavaScript array of points is a `List`; a call that throws a
  `TypeError` (reading a property of `undefined`) or that would leave a hole
  in an array has the result `none`, and the histories of calls (`runOps`,
  `Reachable`) are the ones in which every call has a result.  What a
  `moveEdit` that throws has already written when it throws is given by
  `moveEditThrown`, on arrays that may have holes.
* The tiling classifier `IsohedralTiling` and the function `mul` are
  imported by `tileinfo.js` from `lib/tactile.js`; the classifier is a
  parameter of the embedding and `mul` is modelled from the specification.
-/

namespace Tactile

/-! ## Points and affine transforms -/

/-- A point object `{ x: .., y: .. }`. -/
structure Pt (K : Type) where
  x : K
  y : K
deriving DecidableEq, Repr

/-- An affine transform, the six-element array `[T[0], .., T[5]]` standing
for the matrix with rows `T[0] T[1] T[2]` and `T[3] T[4] T[5]`. -/
structure Xform (K : Type) where
  t0 : K
  t1 : K
  t2 : K
  t3 : K
  t4 : K
  t5 : K
deriving DecidableEq, Repr

section Arithmetic

variable {K : Type}

/-- Source: `sub( V, W )`. -/
def sub [Sub K] (V W : Pt K) : Pt K :=
  { x := V.x - W.x, y := V.y - W.y }

/-- Source: `dot( V, W )`. -/
def dot [Add K] [Mul K] (V W : Pt K) : K :=
  V.x * W.x + V.y * W.y

/-- Source: `cubicPoint( P0, P1, P2, P3, t )`. -/
def cubicPoint [Add K] [Sub K] [Mul K] [OfNat K 1] [OfNat K 3]
    (P0 P1 P2 P3 : Pt K) (t : K) : Pt K :=
  let it := 1 - t
  let it2 := it * it
  let t2 := t * t
  { x := it2 * it * P0.x + 3 * it2 * t * P1.x + 3 * it * t2 * P2.x + t2 * t * P3.x,
    y := it2 * it * P0.y + 3 * it2 * t * P1.y + 3 * it * t2 * P2.y + t2 * t * P3.y }

/-- Source: `inv( T )`, the 2D affine matrix inverse.  When the determinant
is zero the source divides by zero (`NaN` and infinities); neither reading of
the arithmetic represents that, and every statement about `inv` is made for a
determinant that is not zero. -/
def inv [Sub K] [Mul K] [Div K] [Neg K] (T : Xform K) : Xform K :=
  let det := T.t0 * T.t4 - T.t1 * T.t3
  { t0 := T.t4 / det, t1 := -T.t1 / det, t2 := (T.t1 * T.t5 - T.t2 * T.t4) / det,
    t3 := -T.t3 / det, t4 := T.t0 / det, t5 := (T.t2 * T.t3 - T.t0 * T.t5) / det }

/-- Modelled from the spec: `mul` of `lib/tactile.js` applied to a transform
and a point ("`apply(T,point)` maps a point through T"), with the array layout
that `inv` and `calcEditorTransform` use. -/
def mulPt [Add K] [Mul K] (A : Xform K) (B : Pt K) : Pt K :=
  { x := A.t0 * B.x + A.t1 * B.y + A.t2,
    y := A.t3 * B.x + A.t4 * B.y + A.t5 }

/-- Modelled from the spec: `mul` of `lib/tactile.js` applied to two
transforms ("`compose(A,B)` returns the affine transform equivalent to
applying B then A"). -/
def mulMat [Add K] [Mul K] (A B : Xform K) : Xform K :=
  { t0 := A.t0 * B.t0 + A.t1 * B.t3,
    t1 := A.t0 * B.t1 + A.t1 * B.t4,
    t2 := A.t0 * B.t2 + A.t1 * B.t5 + A.t2,
    t3 := A.t3 * B.t0 + A.t4 * B.t3,
    t4 := A.t3 * B.t1 + A.t4 * B.t4,
    t5 := A.t3 * B.t2 + A.t4 * B.t5 + A.t5 }

/-- The identity transform `[1, 0, 0, 0, 1, 0]`. -/
def Xform.one [OfNat K 0] [OfNat K 1] : Xform K :=
  { t0 := 1, t1 := 0, t2 := 0, t3 := 0, t4 := 1, t5 := 0 }

/-- Source: the Bezier branch of `sampleEdgePoints`, the loop
`for( let idx = 0; idx <= steps; ++idx )` with `steps = 16`. -/
def sampleCubic [Add K] [Sub K] [Mul K] [Div K] [NatCast K] [OfNat K 1] [OfNat K 3]
    [OfNat K 16] (P0 P1 P2 P3 : Pt K) (reverse : Bool) : List (Pt K) :=
  (List.range (16 + 1)).map fun (idx : Nat) =>
    let t : K := (idx : K) / 16
    let t := if reverse then 1 - t else t
    cubicPoint P0 P1 P2 P3 t

/-- Source: `EditableTiling.sampleEdgePoints( edge, reverse )`. -/
def sampleEdgePoints [Add K] [Sub K] [Mul K] [Div K] [NatCast K] [OfNat K 1] [OfNat K 3]
    [OfNat K 16] (edge : List (Pt K)) (reverse : Bool) : List (Pt K) :=
  match edge with
  | [P0, P1, P2, P3] => sampleCubic P0 P1 P2 P3 reverse
  | _ =>
    let pts := edge.map fun pt => ({ x := pt.x, y := pt.y } : Pt K)
    if reverse then pts.reverse else pts

end Arithmetic

section Geometry

variable {K : Type} [LinearOrderedField K]

/-- The comparison `Math.sqrt( d ) < r` for a number `d`, without the square root: the
form in which the editor's comparisons `ptdist( .. ) < ..` and
`distToSeg( .. ) < ..` are embedded (see `sqrtLt_iff_real`). -/
def sqrtLt (d r : K) : Prop :=
  0 < r ∧ d < r * r

instance (d r : K) : Decidable (sqrtLt d r) := by
  unfold sqrtLt; infer_instance

/-- The comparison `Math.sqrt( d ) > r` for a number `d`, without the square root (see
`sqrtGt_iff_real`). -/
def sqrtGt (d r : K) : Prop :=
  r < 0 ∨ r * r < d

instance (d r : K) : Decidable (sqrtGt d r) := by
  unfold sqrtGt; infer_instance

/-- The square of `ptdist( V, W )`, that is `dot( sub( V, W ), sub( V, W ) )`,
the argument of `Math.sqrt` in `len`. -/
def ptdistSq (V W : Pt K) : K :=
  dot (sub V W) (sub V W)

/-- The projection parameter `t` of `distToSeg( P, A, B )`. -/
def segParam (P A B : Pt K) : K :=
  let qmp := sub B A
  dot (sub P A) qmp / dot qmp qmp

/-- The square of `distToSeg( P, A, B )`: the three branches of the source
with the argument of `len` squared in each. -/
def distToSegSq (P A B : Pt K) : K :=
  let qmp := sub B A
  let t := dot (sub P A) qmp / dot qmp qmp
  if 0 ≤ t ∧ t ≤ 1 then
    ptdistSq P { x := A.x + t * qmp.x, y := A.y + t * qmp.y }
  else if t < 0 then
    ptdistSq P A
  else
    ptdistSq P B

/-- The point `A + t (B - A)` of the segment `AB`. -/
def segPoint (A B : Pt K) (t : K) : Pt K :=
  { x := A.x + t * (B.x - A.x), y := A.y + t * (B.y - A.y) }

end Geometry

section Real

/-- Source: `len( V )`, over the real numbers. -/
noncomputable def len (V : Pt ℝ) : ℝ :=
  Real.sqrt (dot V V)

/-- Source: `ptdist( V, W )`, over the real numbers. -/
noncomputable def ptdist (V W : Pt ℝ) : ℝ :=
  len (sub V W)

/-- Source: `distToSeg( P, A, B )`, the shortest distance from point `P` to
the line segment `AB`, over the real numbers. -/
noncomputable def distToSeg (P A B : Pt ℝ) : ℝ :=
  let qmp := sub B A
  let t := dot (sub P A) qmp / dot qmp qmp
  if 0 ≤ t ∧ t ≤ 1 then
    len (sub P { x := A.x + t * qmp.x, y := A.y + t * qmp.y })
  else if t < 0 then
    len (sub P A)
  else
    len (sub P B)

end Real

/-! ## Double precision -/

/-- A finite IEEE 754 binary64 number `m * 2^e`.  Zero is `m = 0`, `e = 0`;
every other value is kept with `2^52 ≤ |m| < 2^53`, so that equal numbers are
equal records.  The exponent is not bounded. -/
structure F64 where
  m : ℤ
  e : ℤ
deriving DecidableEq, Repr

namespace F64

/-- The number of binary digits of `n`, by halving at most `fuel` times. -/
def bitLen : ℕ → ℕ → ℕ
  | 0, _ => 0
  | fuel + 1, n => if n = 0 then 0 else bitLen fuel (n / 2) + 1

/-- The position of the leading binary digit of `n`. -/
def log2 (n : ℕ) : ℕ :=
  bitLen n n - 1

/-- The double nearest to the integer multiple `n * 2^e` of a power of two:
the 53 leading binary digits of `n`, rounded to nearest on the digits that
are dropped, ties to the even mantissa. -/
def round (n : ℤ) (e : ℤ) : F64 :=
  if n = 0 then ⟨0, 0⟩
  else
    let a := n.natAbs
    let L := log2 a
    if L ≤ 52 then ⟨n * 2 ^ (52 - L), e - ((52 - L : ℕ) : ℤ)⟩
    else
      let s := L - 52
      let q := a / 2 ^ s
      let r := a % 2 ^ s
      let q1 := if 2 ^ (s - 1) < r ∨ (r = 2 ^ (s - 1) ∧ q % 2 = 1) then q + 1 else q
      let sgn : ℤ := if n < 0 then -1 else 1
      if q1 = 2 ^ 53 then ⟨sgn * 2 ^ 52, e + (s : ℤ) + 1⟩ else ⟨sgn * (q1 : ℤ), e + (s : ℤ)⟩

/-- The double nearest to `(n / d) * 2^e`: the quotient is taken to at least
56 binary digits and a last digit records whether the division left a
remainder, which decides the rounding as the exact quotient would. -/
def roundDiv (n : ℤ) (d : ℕ) (e : ℤ) : F64 :=
  if d = 0 then ⟨0, 0⟩
  else
    let a := n.natAbs
    let k := 56 + log2 d - log2 a
    let N := a * 2 ^ k / d
    let sticky : ℕ := if a * 2 ^ k % d = 0 then 0 else 1
    let sgn : ℤ := if n < 0 then -1 else 1
    round (sgn * ((2 * N + sticky : ℕ) : ℤ)) (e - (k : ℤ) - 1)

/-- The sign change, which is exact. -/
instance : Neg F64 := ⟨fun a => ⟨-a.m, a.e⟩⟩

/-- The sum, rounded. -/
instance : Add F64 := ⟨fun a b =>
  round (a.m * 2 ^ (a.e - min a.e b.e).toNat + b.m * 2 ^ (b.e - min a.e b.e).toNat)
    (min a.e b.e)⟩

/-- The difference, rounded. -/
instance : Sub F64 := ⟨fun a b => a + -b⟩

/-- The product, rounded. -/
instance : Mul F64 := ⟨fun a b => round (a.m * b.m) (a.e + b.e)⟩

/-- The quotient, rounded. -/
instance : Div F64 := ⟨fun a b =>
  roundDiv (if b.m < 0 then -a.m else a.m) b.m.natAbs (a.e - b.e)⟩

/-- A decimal literal such as `0.33` is the double nearest to the decimal
fraction it spells. -/
instance : OfScientific F64 := ⟨fun mantissa exponentSign decimalExponent =>
  if exponentSign then roundDiv (mantissa : ℤ) (10 ^ decimalExponent) 0
  else round ((mantissa * 10 ^ decimalExponent : ℕ) : ℤ) 0⟩

/-- An integer literal. -/
instance (n : ℕ) : OfNat F64 n := ⟨round (n : ℤ) 0⟩

/-- The loop index `idx` as a number. -/
instance : NatCast F64 := ⟨fun n => round (n : ℤ) 0⟩

/-- The comparison `a <= b`, on the exact values. -/
def le (a b : F64) : Prop :=
  a.m * 2 ^ (a.e - min a.e b.e).toNat ≤ b.m * 2 ^ (b.e - min a.e b.e).toNat

instance : LE F64 := ⟨le⟩

instance (a b : F64) : Decidable (a ≤ b) := by
  show Decidable (le a b)
  unfold le
  infer_instance

/-- Source: `Math.abs`, which is exact. -/
def abs (a : F64) : F64 :=
  ⟨|a.m|, a.e⟩

end F64

/-! ## The classifier, a parameter of the embedding -/

/-- The constants `EdgeShape.J`, `EdgeShape.U`, `EdgeShape.S` and
`EdgeShape.I` of `lib/tactile.js`. -/
inductive EdgeShape where
  | J
  | U
  | S
  | I
deriving DecidableEq, Repr

/-- An item yielded by `tiling.shape()`: the fields `T`, `id`, `shape` and
`rev` that `cacheTileShape` reads. -/
structure Seg (K : Type) where
  T : Xform K
  id : Nat
  shape : EdgeShape
  rev : Bool

/-- An item yielded by `tiling.parts()`: the fields `T`, `id`, `shape`, `rev`
and `second` that `startEdit` reads. -/
structure Part (K : Type) where
  T : Xform K
  id : Nat
  shape : EdgeShape
  rev : Bool
  second : Bool

/-- Modelled from the spec: the `IsohedralTiling` object of `lib/tactile.js`,
a black box of which the editor uses `numEdgeShapes()`, `getEdgeShape( idx )`,
`getParameters()`, `setParameters( vs )`, `shape()` and `parts()`.  The
occurrence lists may depend on the current parameters in any way. -/
structure IsohedralTiling (K : Type) where
  edgeShapes : List EdgeShape
  parameters : List K
  shapeOf : List K → List (Seg K)
  partsOf : List K → List (Part K)

namespace IsohedralTiling

variable {K : Type}

/-- The method `numEdgeShapes()`. -/
def numEdgeShapes (t : IsohedralTiling K) : Nat :=
  t.edgeShapes.length

/-- The method `getEdgeShape( idx )`, `none` standing for `undefined`. -/
def getEdgeShape (t : IsohedralTiling K) (idx : Nat) : Option EdgeShape :=
  t.edgeShapes[idx]?

/-- The method `shape()` for the current parameters. -/
def shape (t : IsohedralTiling K) : List (Seg K) :=
  t.shapeOf t.parameters

/-- The method `parts()` for the current parameters. -/
def parts (t : IsohedralTiling K) : List (Part K) :=
  t.partsOf t.parameters

/-- The method `setParameters( vs )`. -/
def setParameters (t : IsohedralTiling K) (vs : List K) : IsohedralTiling K :=
  { t with parameters := vs }

/-- The occurrence lists only name edges that exist: every `id` yielded by
`shape()` and `parts()` is below `numEdgeShapes()`, and the `shape` of a part
is the shape of its edge. -/
def WellFormed (t : IsohedralTiling K) : Prop :=
  (∀ vs, ∀ seg ∈ t.shapeOf vs, seg.id < t.numEdgeShapes) ∧
  (∀ vs, ∀ i ∈ t.partsOf vs, t.getEdgeShape i.id = some i.shape)

end IsohedralTiling

/-! ## The editor state -/

/-- The four fields `drag_edge_shape`, `drag_vertex`, `drag_T` and
`down_motion`, which `startEdit` always assigns together. -/
structure Drag (K : Type) where
  drag_edge_shape : Nat
  drag_vertex : Nat
  drag_T : Xform K
  down_motion : Pt K

/-- The fields of an `EditableTiling` object.  `tiling` is `none` for `null`;
`drag` is `none` while the four drag fields are `undefined`; `delete_timer` is
`true` while the field holds a timer handle.  The fields `edges`, `tile_shape`
and `editor_T` are `undefined` until `setType` assigns them, and no method
embedded here reads them before that (each fails first on the `null` tiling);
they hold `[]` and the identity until then. -/
structure EditableTiling (K : Type) where
  edit_w : K
  edit_h : K
  phys_unit : K
  tiling : Option (IsohedralTiling K)
  curveAmount : K
  u_constrain : Bool
  params : List K
  edges : List (List (Pt K))
  tile_shape : List (Pt K)
  editor_T : Xform K
  drag : Option (Drag K)
  delete_timer : Bool

section Editor

variable {K : Type} [LinearOrderedField K]

/-- Source: `constructor( ew, eh, phys_unit )`. -/
def EditableTiling.new (ew eh phys_unit : K) : EditableTiling K :=
  { edit_w := ew, edit_h := eh, phys_unit := phys_unit, tiling := none,
    curveAmount := 0, u_constrain := false, params := [], edges := [],
    tile_shape := [], editor_T := Xform.one, drag := none, delete_timer := false }

/-- The arrow function `makePoint` of `createDefaultEdge`. -/
def makePoint {K : Type} (x y : K) : Pt K :=
  { x := x, y := y }

/-- Source: `EditableTiling.createDefaultEdge( idx )`, reading `this.tiling`
and `this.curveAmount`. -/
def createDefaultEdge {K : Type} [Mul K] [Neg K] [OfScientific K] [OfNat K 0] [OfNat K 1]
    (t : IsohedralTiling K) (curveAmount : K) (idx : Nat) : List (Pt K) :=
  let shape := t.getEdgeShape idx
  let amp := 0.35 * curveAmount
  if shape = some EdgeShape.I then
    [makePoint 0 0, makePoint 1 0]
  else if shape = some EdgeShape.J then
    [makePoint 0 0, makePoint 0.35 amp, makePoint 0.65 (0.5 * amp), makePoint 1 0]
  else if shape = some EdgeShape.S then
    [makePoint 0 0, makePoint 0.33 amp, makePoint 0.67 (-amp), makePoint 1 0]
  else if shape = some EdgeShape.U then
    [makePoint 0 0, makePoint 0.33 amp, makePoint 0.67 amp, makePoint 1 0]
  else
    [makePoint 0 0, makePoint 1 0]

/-- Source: `EditableTiling.buildDefaultEdges()`. -/
def buildDefaultEdges (s : EditableTiling K) : EditableTiling K :=
  match s.tiling with
  | none => { s with edges := [] }
  | some t =>
    { s with edges := (List.range t.numEdgeShapes).map (createDefaultEdge t s.curveAmount) }

/-- Source: the loop of `cacheTileShape` over `this.tiling.shape()`, with the
outline built so far in `acc`.  Reading `this.edges[ seg.id ].length` throws
when the edge does not exist.  The inner loop pushes `mul( seg.T, samples[idx] )`
for every index except index 0 of the occurrences after the first. -/
def tileShapeLoop (edges : List (List (Pt K))) :
    List (Seg K) → Bool → List (Pt K) → Option (List (Pt K))
  | [], _, acc => some acc
  | seg :: rest, firstEdge, acc =>
    match edges[seg.id]? with
    | none => none
    | some edge =>
      let samples := sampleEdgePoints edge seg.rev
      let kept := if firstEdge then samples else samples.drop 1
      tileShapeLoop edges rest false (acc ++ kept.map (mulPt seg.T))

/-- The outline that `cacheTileShape` computes from a tiling and the
edges. -/
def tileShape (t : IsohedralTiling K) (edges : List (List (Pt K))) : Option (List (Pt K)) :=
  tileShapeLoop edges t.shape true []

/-- Source: `EditableTiling.cacheTileShape()`. -/
def cacheTileShape (s : EditableTiling K) : Option (EditableTiling K) :=
  match s.tiling with
  | none => some { s with tile_shape := [] }
  | some t =>
    match tileShape t s.edges with
    | none => none
    | some shp => some { s with tile_shape := shp }

/-- Source: `EditableTiling.getTileShape()`. -/
def getTileShape (s : EditableTiling K) : List (Pt K) :=
  s.tile_shape

/-- Source: `EditableTiling.getCurveAmount()`. -/
def getCurveAmount (s : EditableTiling K) : K :=
  s.curveAmount

/-- The bounding box `(xmin, xmax, ymin, ymax)` that the loop of
`calcEditorTransform` accumulates over the outline, from `1e7` and `-1e7`. -/
def boundingBox (shp : List (Pt K)) : K × K × K × K :=
  shp.foldl
    (fun b v => (min b.1 v.x, max b.2.1 v.x, min b.2.2.1 v.y, max b.2.2.2 v.y))
    (10000000, -10000000, 10000000, -10000000)

/-- Source: `EditableTiling.calcEditorTransform()`. -/
def calcEditorTransform (s : EditableTiling K) : EditableTiling K :=
  let b := boundingBox s.tile_shape
  let xmin := b.1
  let xmax := b.2.1
  let ymin := b.2.2.1
  let ymax := b.2.2.2
  let sc := min ((s.edit_w - 50) / (xmax - xmin)) ((s.edit_h - 50) / (ymax - ymin))
  { s with
    editor_T := mulMat
      { t0 := sc, t1 := 0, t2 := 0.5 * s.edit_w, t3 := 0, t4 := -sc, t5 := 0.5 * s.edit_h }
      { t0 := 1, t1 := 0, t2 := -0.5 * (xmin + xmax),
        t3 := 0, t4 := 1, t5 := -0.5 * (ymin + ymax) } }

/-- Source: `EditableTiling.setType( tp )`, with `t` the object
`new IsohedralTiling( tp )`. -/
def setType (s : EditableTiling K) (t : IsohedralTiling K) : Option (EditableTiling K) :=
  let s1 := { s with tiling := some t, params := t.parameters }
  (cacheTileShape (buildDefaultEdges s1)).map calcEditorTransform

/-- Source: `EditableTiling.setCurveAmount( amount )`. -/
def setCurveAmount (s : EditableTiling K) (amount : K) : Option (EditableTiling K) :=
  let s1 := { s with curveAmount := max 0 amount }
  match s1.tiling with
  | none => some s1
  | some _ => (cacheTileShape (buildDefaultEdges s1)).map calcEditorTransform

/-- Source: `EditableTiling.setParams( vs )`. -/
def setParams (s : EditableTiling K) (vs : List K) : Option (EditableTiling K) :=
  match s.tiling with
  | none => none
  | some t => cacheTileShape { s with tiling := some (t.setParameters vs) }

/-! ## The edit session -/

/-- How the inner loop of `startEdit` over the points of one occurrence
ends. -/
inductive Scan where
  /-- A vertex hit that starts a drag, `uc` being the value left in
  `u_constrain`. -/
  | pick (idx : Nat) (uc : Bool)
  /-- A vertex hit with `do_del`, which removes the point. -/
  | del (idx : Nat)
  /-- A segment hit, which inserts a point. -/
  | ins (idx : Nat)
  /-- The `break` at a terminal vertex that is not dragged. -/
  | brk
  /-- The loop ran through every index without a hit. -/
  | done
deriving DecidableEq, Repr

/-- Source: the loop `for( let idx = 1; idx < ej.length; ++idx )` of
`startEdit`, from index `idx` on: `P` is the image of point `idx - 1`, the
list holds the points `ej[idx], ej[idx+1], ..`, and `n` is `ej.length`. -/
def scanEdge (phys_unit : K) (T : Xform K) (pt : Pt K) (do_del : Bool)
    (shp : EdgeShape) (second : Bool) (n : Nat) : Nat → Pt K → List (Pt K) → Scan
  | _, _, [] => Scan.done
  | idx, P, q :: rest =>
    let Q := mulPt T q
    if sqrtLt (ptdistSq Q pt) (0.5 * phys_unit) then
      if idx = n - 1 then
        if shp = EdgeShape.U ∧ second = false then Scan.pick idx true else Scan.brk
      else if do_del then Scan.del idx
      else Scan.pick idx false
    else if sqrtLt (distToSegSq pt P Q) 20 then Scan.ins idx
    else scanEdge phys_unit T pt do_del shp second n (idx + 1) Q rest

/-- Source: the loop `for( let i of this.tiling.parts() )` of `startEdit`
over the remaining occurrences, with the value the call returns.  Reading
`ej[0]` of a missing edge throws, and so does `mul( T, ej[0] )` for an edge
without points. -/
def startEditLoop (s : EditableTiling K) (pt : Pt K) (do_del : Bool) :
    List (Part K) → Option (EditableTiling K × Bool)
  | [] => some (s, false)
  | i :: rest =>
    if i.shape = EdgeShape.I then startEditLoop s pt do_del rest
    else
      match s.edges[i.id]? with
      | none => none
      | some [] => none
      | some (p0 :: tl) =>
        let ej := p0 :: tl
        let T := mulMat s.editor_T i.T
        match scanEdge s.phys_unit T pt do_del i.shape i.second ej.length 1 (mulPt T p0) tl with
        | Scan.done => startEditLoop s pt do_del rest
        | Scan.brk => startEditLoop { s with u_constrain := false } pt do_del rest
        | Scan.del idx =>
          (cacheTileShape
            { s with u_constrain := false, edges := s.edges.set i.id (ej.eraseIdx idx) }).map
            fun s1 => (s1, false)
        | Scan.pick idx uc =>
          some ({ s with
            u_constrain := uc,
            drag := some { drag_edge_shape := i.id, drag_vertex := idx,
                           drag_T := inv T, down_motion := pt },
            delete_timer := if uc then s.delete_timer else true }, true)
        | Scan.ins idx =>
          (cacheTileShape
            { s with
              drag := some { drag_edge_shape := i.id, drag_vertex := idx,
                             drag_T := inv T, down_motion := pt },
              edges := s.edges.set i.id (ej.insertIdx idx (mulPt (inv T) pt)) }).map
            fun s1 => (s1, true)

/-- Source: `EditableTiling.startEdit( pt, do_del )`. -/
def startEdit (s : EditableTiling K) (pt : Pt K) (do_del : Bool) :
    Option (EditableTiling K × Bool) :=
  match s.tiling with
  | none => none
  | some t => startEditLoop s pt do_del t.parts

/-- Source: the body of the loop of `startEdit` for one occurrence, up to the
end of its inner loop: how the scan of the occurrence ends (`Scan.done` for an
`I` edge, which is skipped), `none` when it throws. -/
def partScan (s : EditableTiling K) (pt : Pt K) (do_del : Bool) (i : Part K) : Option Scan :=
  if i.shape = EdgeShape.I then some Scan.done
  else
    match s.edges[i.id]? with
    | none => none
    | some [] => none
    | some (p0 :: tl) =>
      some (scanEdge s.phys_unit (mulMat s.editor_T i.T) pt do_del i.shape i.second
        (p0 :: tl).length 1 (mulPt (mulMat s.editor_T i.T) p0) tl)

/-- The loop of `startEdit` goes past the occurrence `i` without returning:
its scan finds no hit, or ends with the `break` at its terminal vertex. -/
def passes (s : EditableTiling K) (pt : Pt K) (do_del : Bool) (i : Part K) : Prop :=
  partScan s pt do_del i = some Scan.done ∨ partScan s pt do_del i = some Scan.brk

instance (s : EditableTiling K) (pt : Pt K) (do_del : Bool) (i : Part K) :
    Decidable (passes s pt do_del i) := by
  unfold passes; infer_instance

/-- The determinant `T[0]*T[4] - T[1]*T[3]` that `inv( T )` divides by. -/
def det (T : Xform K) : K :=
  T.t0 * T.t4 - T.t1 * T.t3

/-- Source: `EditableTiling.moveEdit( pt )`.  `mul( this.drag_T, pt )` throws
while the drag fields are `undefined`; assigning into a missing edge throws;
an assignment at `drag_vertex = length` appends; one beyond the length leaves
a hole, on which the `cacheTileShape` that follows throws. -/
def moveEdit (s : EditableTiling K) (pt : Pt K) : Option (EditableTiling K) :=
  match s.drag with
  | none => none
  | some d =>
    let npt0 := mulPt d.drag_T pt
    let npt : Pt K := if s.u_constrain then { x := 1, y := npt0.y } else npt0
    let timer := if sqrtGt (ptdistSq pt d.down_motion) 10 then false else s.delete_timer
    match s.edges[d.drag_edge_shape]? with
    | none => none
    | some ej =>
      if d.drag_vertex < ej.length then
        cacheTileShape
          { s with delete_timer := timer,
                   edges := s.edges.set d.drag_edge_shape (ej.set d.drag_vertex npt) }
      else if d.drag_vertex = ej.length then
        cacheTileShape
          { s with delete_timer := timer,
                   edges := s.edges.set d.drag_edge_shape (ej ++ [npt]) }
      else none

/-- What a `moveEdit` that throws has left in the fields it assigns: the
edges, in which an array may have holes (`none`), the outline built so far,
and the timer field. -/
structure Thrown (K : Type) where
  edges : List (List (Option (Pt K)))
  tile_shape : List (Pt K)
  delete_timer : Bool

/-- Source: `EditableTiling.sampleEdgePoints( edge, reverse )` on an array
that may have holes.  With four elements `cubicPoint` reads `.x` of each of
them and throws on a hole (`none` as a result); otherwise `map` and `reverse`
leave the holes where they are. -/
def sampleEdgePointsHoles (edge : List (Option (Pt K))) (reverse : Bool) :
    Option (List (Option (Pt K))) :=
  match edge with
  | [some P0, some P1, some P2, some P3] => some ((sampleCubic P0 P1 P2 P3 reverse).map some)
  | [_, _, _, _] => none
  | _ =>
    let pts := edge.map fun pt => pt.map fun p => ({ x := p.x, y := p.y } : Pt K)
    some (if reverse then pts.reverse else pts)

/-- Source: the loop of `cacheTileShape` on edges that may have holes, with
the outline built so far in `acc`: the outline it has built when it ends, and
whether it ended by throwing.  It throws on a missing edge, when
`sampleEdgePoints` throws, and in `mul( seg.T, samples[idx] )` at a hole,
after pushing the samples before the hole. -/
def tileShapeLoopHoles (edges : List (List (Option (Pt K)))) :
    List (Seg K) → Bool → List (Pt K) → List (Pt K) × Bool
  | [], _, acc => (acc, false)
  | seg :: rest, firstEdge, acc =>
    match edges[seg.id]? with
    | none => (acc, true)
    | some edge =>
      match sampleEdgePointsHoles edge seg.rev with
      | none => (acc, true)
      | some samples =>
        let kept := if firstEdge then samples else samples.drop 1
        let pushed := (kept.takeWhile Option.isSome).filterMap
          fun p => p.map (mulPt seg.T)
        if kept.all Option.isSome then tileShapeLoopHoles edges rest false (acc ++ pushed)
        else (acc ++ pushed, true)

/-- Source: `EditableTiling.moveEdit( pt )`, followed to the point where it
throws: `none` when the call returns, otherwise the fields as the throw
leaves them.  Nothing is written yet when `mul( this.drag_T, pt )` throws;
the timer may be cleared when the assignment into a missing edge throws; an
assignment beyond the length of the edge stores the point and leaves holes
before it, and `cacheTileShape` then empties `tile_shape` and throws while it
rebuilds it. -/
def moveEditThrown (s : EditableTiling K) (pt : Pt K) : Option (Thrown K) :=
  let held := s.edges.map fun e => e.map some
  match s.drag with
  | none => some { edges := held, tile_shape := s.tile_shape, delete_timer := s.delete_timer }
  | some d =>
    let npt0 := mulPt d.drag_T pt
    let npt : Pt K := if s.u_constrain then { x := 1, y := npt0.y } else npt0
    let timer := if sqrtGt (ptdistSq pt d.down_motion) 10 then false else s.delete_timer
    match held[d.drag_edge_shape]? with
    | none => some { edges := held, tile_shape := s.tile_shape, delete_timer := timer }
    | some ej =>
      let ej1 :=
        if d.drag_vertex < ej.length then ej.set d.drag_vertex (some npt)
        else ej ++ List.replicate (d.drag_vertex - ej.length) none ++ [some npt]
      let edges1 := held.set d.drag_edge_shape ej1
      match s.tiling with
      | none => none
      | some t =>
        match tileShapeLoopHoles edges1 t.shape true [] with
        | (shp, true) => some { edges := edges1, tile_shape := shp, delete_timer := timer }
        | (_, false) => none

/-- Source: `EditableTiling.finishEdit()`. -/
def finishEdit (s : EditableTiling K) : EditableTiling K :=
  { s with u_constrain := false, delete_timer := false }

/-- The effects of a call `startEdit( pt, do_del )` that returns, on
the state `s` and over the occurrences `parts`: the new state and the value
returned (see `startEditLoop_effect`).  A `break` at an earlier occurrence may
have cleared `u_constrain` before the occurrence that is hit. -/
inductive StartEffect (s : EditableTiling K) (pt : Pt K) (do_del : Bool)
    (parts : List (Part K)) : EditableTiling K → Bool → Prop
  /-- No hit: nothing changes except that `u_constrain` may be cleared. -/
  | miss (u : Bool) (hu : u = s.u_constrain ∨ u = false) :
      StartEffect s pt do_del parts { s with u_constrain := u } false
  /-- A vertex hit with `do_del` below the last index: the point is removed. -/
  | del (i : Part K) (ej : List (Pt K)) (idx : Nat) (s1 : EditableTiling K)
      (hi : i ∈ parts) (hI : i.shape ≠ EdgeShape.I) (hej : s.edges[i.id]? = some ej)
      (h1 : 1 ≤ idx) (h2 : idx + 1 < ej.length) (hdel : do_del = true)
      (hs : cacheTileShape
        { s with u_constrain := false, edges := s.edges.set i.id (ej.eraseIdx idx) } = some s1) :
      StartEffect s pt do_del parts s1 false
  /-- A vertex hit that starts a drag; `uc` is set exactly at the last index,
  and only on a first occurrence of a `U` edge. -/
  | pick (i : Part K) (ej : List (Pt K)) (idx : Nat) (uc : Bool)
      (hi : i ∈ parts) (hI : i.shape ≠ EdgeShape.I) (hej : s.edges[i.id]? = some ej)
      (h1 : 1 ≤ idx) (h2 : idx < ej.length) (huc : uc = true ↔ idx + 1 = ej.length)
      (hU : uc = true → i.shape = EdgeShape.U ∧ i.second = false)
      (hdel : uc = false → do_del = false) :
      StartEffect s pt do_del parts
        { s with
          u_constrain := uc,
          drag := some { drag_edge_shape := i.id, drag_vertex := idx,
                         drag_T := inv (mulMat s.editor_T i.T), down_motion := pt },
          delete_timer := if uc then s.delete_timer else true } true
  /-- A segment hit: a point is inserted at `idx` and becomes the drag
  target. -/
  | ins (i : Part K) (ej : List (Pt K)) (idx : Nat) (u : Bool) (s1 : EditableTiling K)
      (hi : i ∈ parts) (hI : i.shape ≠ EdgeShape.I) (hej : s.edges[i.id]? = some ej)
      (h1 : 1 ≤ idx) (h2 : idx < ej.length) (hu : u = s.u_constrain ∨ u = false)
      (hs : cacheTileShape
        { s with
          u_constrain := u,
          drag := some { drag_edge_shape := i.id, drag_vertex := idx,
                         drag_T := inv (mulMat s.editor_T i.T), down_motion := pt },
          edges := s.edges.set i.id
            (ej.insertIdx idx (mulPt (inv (mulMat s.editor_T i.T)) pt)) } = some s1) :
      StartEffect s pt do_del parts s1 true

/-! ## Histories of calls -/

/-- A call made on the editor after `setType`. -/
inductive Op (K : Type) where
  | startEdit (pt : Pt K) (do_del : Bool)
  | moveEdit (pt : Pt K)
  | finishEdit
  | setCurveAmount (amount : K)
  | setParams (vs : List K)

/-- The calls of an edit session: `startEdit`, `moveEdit`, `finishEdit`. -/
def isEditOp : Op K → Bool
  | Op.startEdit _ _ => true
  | Op.moveEdit _ => true
  | Op.finishEdit => true
  | _ => false

/-- The state after one call, `none` when the call throws. -/
def runOp (s : EditableTiling K) : Op K → Option (EditableTiling K)
  | Op.startEdit pt do_del => (startEdit s pt do_del).map Prod.fst
  | Op.moveEdit pt => moveEdit s pt
  | Op.finishEdit => some (finishEdit s)
  | Op.setCurveAmount a => setCurveAmount s a
  | Op.setParams vs => setParams s vs

/-- The state after a sequence of calls, `none` when one of them throws. -/
def runOps (s : EditableTiling K) : List (Op K) → Option (EditableTiling K)
  | [] => some s
  | op :: rest => (runOp s op).bind fun s1 => runOps s1 rest

/-- The states reachable from `setType` by calls each of which returns, on an
editor that was constructed and given a curve amount (`setCurveAmount( 0 )`
leaves the constructed editor as it is): `edits` restricts the calls after
`setType` to `startEdit`, `moveEdit` and `finishEdit`.  A call that throws
ends the history; what a throwing `moveEdit` leaves behind, which is not a
state of this kind, is `moveEditThrown`. -/
def Reachable (edits : Bool) (s : EditableTiling K) : Prop :=
  ∃ (ew eh phys_unit amount : K) (t : IsohedralTiling K) (s_pre s0 : EditableTiling K)
    (ops : List (Op K)),
    setCurveAmount (EditableTiling.new ew eh phys_unit) amount = some s_pre ∧
    setType s_pre t = some s0 ∧
    (edits = true → ∀ op ∈ ops, isEditOp op = true) ∧
    runOps s0 ops = some s

end Editor

/-! ## Invariants -/

section InvariantDefs

variable {K : Type} [LinearOrderedField K]

/-- Every stored edge starts at `(0,0)` and has at least two points, and a
recorded drag target is never index 0. -/
def EdgesOk (s : EditableTiling K) : Prop :=
  (∀ e ∈ s.edges, e.head? = some ⟨0, 0⟩ ∧ 2 ≤ e.length) ∧
  ∀ d, s.drag = some d → 1 ≤ d.drag_vertex

/-- The cached outline is the one `cacheTileShape` computes from the current
tiling and edges. -/
def CacheOk (s : EditableTiling K) : Prop :=
  ∃ t, s.tiling = some t ∧ tileShape t s.edges = some (getTileShape s)

/-- The call is a `moveEdit` whose recorded target is the last index of its
edge, or the index right after it. -/
def movesLast (s : EditableTiling K) : Op K → Prop
  | Op.moveEdit _ =>
    ∃ d ej, s.drag = some d ∧ s.edges[d.drag_edge_shape]? = some ej ∧
      ej.length ≤ d.drag_vertex + 1
  | _ => False

/-- The last sample of every edge, sampled forwards. -/
def lastSamples (s : EditableTiling K) : List (Option (Pt K)) :=
  s.edges.map fun e => (sampleEdgePoints e false).getLast?

/-- The half turn about `(1/2, 0)`, `(x,y) ↦ (1-x, -y)`. -/
def halfTurn {K : Type} [Sub K] [Neg K] [OfNat K 1] (p : Pt K) : Pt K :=
  { x := 1 - p.x, y := -p.y }

/-- The mirror `(x,y) ↦ (1-x, y)`. -/
def mirror {K : Type} [Sub K] [OfNat K 1] (p : Pt K) : Pt K :=
  { x := 1 - p.x, y := p.y }

/-- A point sequence unchanged by reversing it and mapping each point
through the half turn. -/
def PointSymmetric (e : List (Pt K)) : Prop :=
  e.reverse.map halfTurn = e

/-- A point sequence unchanged by reversing it and mapping each point
through the mirror. -/
def MirrorSymmetric (e : List (Pt K)) : Prop :=
  e.reverse.map mirror = e

/-- The samples of one occurrence mapped through its placement transform;
`none` when the edge it names does not exist. -/
def occurrenceOutline (edges : List (List (Pt K))) (seg : Seg K) : Option (List (Pt K)) :=
  edges[seg.id]?.map fun e => (sampleEdgePoints e seg.rev).map (mulPt seg.T)

/-- The outline of the occurrences after the first, in order: the mapped
samples of each without its first sample. -/
def laterOccurrences (edges : List (List (Pt K))) : List (Seg K) → Option (List (Pt K))
  | [] => some []
  | seg :: rest =>
    (occurrenceOutline edges seg).bind fun o =>
      (laterOccurrences edges rest).map fun l => o.drop 1 ++ l

/-- The outline as the specification words it: for each occurrence in order,
sample its edge with the occurrence's reversal flag, map every sample through
the occurrence's transform and append, skipping the first sample of every
occurrence after the first. -/
def outlineSpec (edges : List (List (Pt K))) : List (Seg K) → Option (List (Pt K))
  | [] => some []
  | seg :: rest =>
    (occurrenceOutline edges seg).bind fun o =>
      (laterOccurrences edges rest).map fun l => o ++ l

end InvariantDefs

/-! ## An example configuration

A square tile with corners `(0,0)`, `(1,0)`, `(1,1)`, `(0,1)` whose four sides
carry one edge of each shape, in an editor of 250 by 250 units. -/

section Example

/-- The placement of the unit edge on side `k` of the square. -/
def exSide : Nat → Xform ℚ
  | 0 => ⟨1, 0, 0, 0, 1, 0⟩
  | 1 => ⟨0, -1, 1, 1, 0, 0⟩
  | 2 => ⟨-1, 0, 1, 0, -1, 1⟩
  | _ => ⟨0, 1, 0, -1, 0, 1⟩

/-- A classifier for the square: side 0 is edge 0 of shape `U`, side 1 is
edge 1 of shape `S`, side 2 is edge 2 of shape `J`, side 3 is edge 3 of shape
`I`; there are no parameters. -/
def exTiling : IsohedralTiling ℚ :=
  { edgeShapes := [EdgeShape.U, EdgeShape.S, EdgeShape.J, EdgeShape.I],
    parameters := [],
    shapeOf := fun _ =>
      [⟨exSide 0, 0, EdgeShape.U, false⟩, ⟨exSide 1, 1, EdgeShape.S, false⟩,
       ⟨exSide 2, 2, EdgeShape.J, false⟩, ⟨exSide 3, 3, EdgeShape.I, false⟩],
    partsOf := fun _ =>
      [⟨exSide 0, 0, EdgeShape.U, false, false⟩, ⟨exSide 1, 1, EdgeShape.S, false, false⟩,
       ⟨exSide 2, 2, EdgeShape.J, false, false⟩, ⟨exSide 3, 3, EdgeShape.I, false, false⟩] }

/-- The example editor after `new EditableTiling( 250, 250, 20 )`,
`setType` and the given calls. -/
def exRun (ops : List (Op ℚ)) : Option (EditableTiling ℚ) :=
  (setType (EditableTiling.new 250 250 20) exTiling).bind fun s0 => runOps s0 ops

/-- An editor on the example classifier holding hand-made edges. -/
def exEdited : EditableTiling ℚ :=
  { (EditableTiling.new 250 250 20 : EditableTiling ℚ) with
    tiling := some exTiling,
    edges := [[⟨0, 0⟩, ⟨1 / 2, 3⟩, ⟨1, 0⟩], [⟨0, 0⟩, ⟨1, 0⟩]] }

/-- The example editor after `setType` and the given calls (the new editor
if one of them throws). -/
def exAfter (ops : List (Op ℚ)) : EditableTiling ℚ :=
  (exRun ops).getD (EditableTiling.new 250 250 20)

/-- The classifier of the example square for the double-precision reading:
the same edge shapes (no default edge depends on anything else). -/
def exTiling64 : IsohedralTiling F64 :=
  { edgeShapes := [EdgeShape.U, EdgeShape.S, EdgeShape.J, EdgeShape.I],
    parameters := [],
    shapeOf := fun _ => [],
    partsOf := fun _ => [] }

/-- The occurrence of the `U` edge on side 0 of the example square. -/
def exU : Part ℚ :=
  ⟨exSide 0, 0, EdgeShape.U, false, false⟩

/-- The occurrence of the `S` edge on side 1 of the example square. -/
def exS : Part ℚ :=
  ⟨exSide 1, 1, EdgeShape.S, false, false⟩

/-- The occurrence of the `J` edge on side 2 of the example square. -/
def exJ : Part ℚ :=
  ⟨exSide 2, 2, EdgeShape.J, false, false⟩

/-- The occurrence of the `I` edge on side 3 of the example square. -/
def exI : Part ℚ :=
  ⟨exSide 3, 3, EdgeShape.I, false, false⟩

end Example

/-! ## The doubles of some literals -/

section LiteralTheorems

/-- The doubles that literals of the source denote, as mantissa and
exponent: `0.33` is `5944751508129055 * 2^-54`, `0.67` is
`6034823500676465 * 2^-53`, `0.005` is `5764607523034235 * 2^-60` and `1` is
`2^52 * 2^-52`; the difference `1 - 0.33` is `6034823500676464 * 2^-53`, the
double before `0.67`. -/
theorem literal_doubles :
    (0.33 : F64) = ⟨5944751508129055, -54⟩ ∧ (0.67 : F64) = ⟨6034823500676465, -53⟩ ∧
    (0.005 : F64) = ⟨5764607523034235, -60⟩ ∧ (1 : F64) = ⟨4503599627370496, -52⟩ ∧
    (1 : F64) - 0.33 = ⟨6034823500676464, -53⟩ := by
  decide!

end LiteralTheorems

/-! ## Sampling an edge -/

section SamplingTheorems

variable {K : Type} [LinearOrderedField K]

theorem range_seventeen :
    List.range (16 + 1) = [0, 1, 2, 3, 4, 5, 6, 7, 8, 9, 10, 11, 12, 13, 14, 15, 16] := by
  decide

theorem sampleCubic_true (P0 P1 P2 P3 : Pt K) :
    sampleCubic P0 P1 P2 P3 true = (sampleCubic P0 P1 P2 P3 false).reverse := by
  unfold sampleCubic
  rw [range_seventeen]
  simp only [List.map_cons, List.map_nil, List.reverse_cons, List.reverse_nil, List.nil_append,
    List.cons_append, if_true, Bool.false_eq_true, if_false]
  norm_num

theorem sampleEdgePoints_true (edge : List (Pt K)) :
    sampleEdgePoints edge true = (sampleEdgePoints edge false).reverse := by
  unfold sampleEdgePoints
  split
  · exact sampleCubic_true _ _ _ _
  · simp

/-- C1. `sampleEdgePoints( edge, true )` is the reverse of
`sampleEdgePoints( edge, false )` for every edge, the four-point Bezier case
included: the two lists have the same length `n`, and the point at index `i`
of the one is the point at index `n - 1 - i` of the other. -/
theorem sampleEdgePoints_reverse (edge : List (Pt K)) :
    sampleEdgePoints edge true = (sampleEdgePoints edge false).reverse ∧
    (sampleEdgePoints edge true).length = (sampleEdgePoints edge false).length ∧
    ∀ i, i < (sampleEdgePoints edge false).length →
      (sampleEdgePoints edge true)[i]? =
        (sampleEdgePoints edge false)[(sampleEdgePoints edge false).length - 1 - i]? := by
  refine ⟨sampleEdgePoints_true edge, ?_, ?_⟩
  · rw [sampleEdgePoints_true, List.length_reverse]
  · intro i hi
    rw [sampleEdgePoints_true, List.getElem?_reverse hi]

end SamplingTheorems

/-! ## The inverse of an affine transform -/

section TransformTheorems

variable {K : Type} [LinearOrderedField K]

theorem mulPt_inv_left (T : Xform K) (h : T.t0 * T.t4 - T.t1 * T.t3 ≠ 0) (p : Pt K) :
    mulPt (inv T) (mulPt T p) = p := by
  cases p
  simp only [mulPt, inv, Pt.mk.injEq]
  constructor <;> field_simp <;> ring

theorem mulPt_inv_right (T : Xform K) (h : T.t0 * T.t4 - T.t1 * T.t3 ≠ 0) (p : Pt K) :
    mulPt T (mulPt (inv T) p) = p := by
  cases p
  simp only [mulPt, inv, Pt.mk.injEq]
  constructor <;> field_simp <;> ring

theorem mulPt_mulMat (A B : Xform K) (p : Pt K) :
    mulPt (mulMat A B) p = mulPt A (mulPt B p) := by
  simp only [mulPt, mulMat, Pt.mk.injEq]
  constructor <;> ring

set_option maxRecDepth 100000 in
/-- C6, as amended. In exact arithmetic `inv` returns the inverse affine
transform: when `T[0]*T[4] - T[1]*T[3]` is not zero, applying `inv( T )` after
`T`, or `T` after `inv( T )`, gives every point back, and composing `T` with
`inv( T )` in either order is the identity transform `[1, 0, 0, 0, 1, 0]`.
In double precision the same equalities hold where no operation rounds, as
for `T = [2, 1, 5, 1, 1, 7]` (determinant 1, inverse `[1, -1, 2, -1, 2, -9]`)
and the point `(4,9)`. -/
theorem inv_is_inverse (T : Xform K) (h : T.t0 * T.t4 - T.t1 * T.t3 ≠ 0) (p : Pt K) :
    (mulPt (inv T) (mulPt T p) = p ∧ mulPt T (mulPt (inv T) p) = p ∧
      mulMat T (inv T) = Xform.one ∧ mulMat (inv T) T = Xform.one) ∧
    (inv (⟨2, 1, 5, 1, 1, 7⟩ : Xform F64) = ⟨1, -1, 2, -1, 2, -9⟩ ∧
      mulPt (inv (⟨2, 1, 5, 1, 1, 7⟩ : Xform F64)) (mulPt ⟨2, 1, 5, 1, 1, 7⟩ ⟨4, 9⟩) = ⟨4, 9⟩ ∧
      mulPt (⟨2, 1, 5, 1, 1, 7⟩ : Xform F64) (mulPt (inv ⟨2, 1, 5, 1, 1, 7⟩) ⟨4, 9⟩) = ⟨4, 9⟩ ∧
      mulMat (⟨2, 1, 5, 1, 1, 7⟩ : Xform F64) (inv ⟨2, 1, 5, 1, 1, 7⟩) = Xform.one ∧
      mulMat (inv (⟨2, 1, 5, 1, 1, 7⟩ : Xform F64)) ⟨2, 1, 5, 1, 1, 7⟩ = Xform.one) := by
  refine ⟨⟨mulPt_inv_left T h p, mulPt_inv_right T h p, ?_, ?_⟩, by decide!⟩
  · simp only [mulMat, inv, Xform.one, Xform.mk.injEq]
    refine ⟨?_, ?_, ?_, ?_, ?_, ?_⟩ <;> field_simp <;> ring
  · simp only [mulMat, inv, Xform.one, Xform.mk.injEq]
    refine ⟨?_, ?_, ?_, ?_, ?_, ?_⟩ <;> field_simp <;> ring

/-- The transform `[2, 1, 5, 1, 1, 7]`, of determinant 1, and the point
`(4,9)`, in exact arithmetic. -/
theorem inv_is_inverse_witness :
    ((2 : ℚ) * 1 - 1 * 1 ≠ 0) ∧
    ((mulPt (inv (⟨2, 1, 5, 1, 1, 7⟩ : Xform ℚ)) (mulPt ⟨2, 1, 5, 1, 1, 7⟩ ⟨4, 9⟩) = ⟨4, 9⟩ ∧
      mulPt (⟨2, 1, 5, 1, 1, 7⟩ : Xform ℚ) (mulPt (inv ⟨2, 1, 5, 1, 1, 7⟩) ⟨4, 9⟩) = ⟨4, 9⟩ ∧
      mulMat (⟨2, 1, 5, 1, 1, 7⟩ : Xform ℚ) (inv ⟨2, 1, 5, 1, 1, 7⟩) = Xform.one ∧
      mulMat (inv (⟨2, 1, 5, 1, 1, 7⟩ : Xform ℚ)) ⟨2, 1, 5, 1, 1, 7⟩ = Xform.one) ∧
    (inv (⟨2, 1, 5, 1, 1, 7⟩ : Xform F64) = ⟨1, -1, 2, -1, 2, -9⟩ ∧
      mulPt (inv (⟨2, 1, 5, 1, 1, 7⟩ : Xform F64)) (mulPt ⟨2, 1, 5, 1, 1, 7⟩ ⟨4, 9⟩) = ⟨4, 9⟩ ∧
      mulPt (⟨2, 1, 5, 1, 1, 7⟩ : Xform F64) (mulPt (inv ⟨2, 1, 5, 1, 1, 7⟩) ⟨4, 9⟩) = ⟨4, 9⟩ ∧
      mulMat (⟨2, 1, 5, 1, 1, 7⟩ : Xform F64) (inv ⟨2, 1, 5, 1, 1, 7⟩) = Xform.one ∧
      mulMat (inv (⟨2, 1, 5, 1, 1, 7⟩ : Xform F64)) ⟨2, 1, 5, 1, 1, 7⟩ = Xform.one)) :=
  ⟨by norm_num, inv_is_inverse (⟨2, 1, 5, 1, 1, 7⟩ : Xform ℚ) (by norm_num) ⟨4, 9⟩⟩

set_option maxRecDepth 100000 in
/-- C6 fails as stated for the numbers the program computes with. In double
precision, at `T = [2, 1, 5, 1, 3, 7]` (determinant 5) and the point `(4,9)`:
`inv( T )` is `[0.6, -0.2, -1.6, -0.2, 0.4, -1.8]`, each entry a rounded
quotient; `mul( inv( T ), mul( T, p ) )` is `(3.9999999999999987, 9)` and
`mul( T, mul( inv( T ), p ) )` is `(3.999999999999999, 8.999999999999998)`,
not `p`; and `mul( T, inv( T ) )` is
`[1, 0, 0, -1.1102230246251565e-16, 1.0000000000000002, 0]`, not the identity
transform. -/
theorem inv_roundtrip_counterexample :
    inv (⟨2, 1, 5, 1, 3, 7⟩ : Xform F64) = ⟨0.6, -0.2, -1.6, -0.2, 0.4, -1.8⟩ ∧
    mulPt (inv (⟨2, 1, 5, 1, 3, 7⟩ : Xform F64)) (mulPt ⟨2, 1, 5, 1, 3, 7⟩ ⟨4, 9⟩) =
      ⟨3.9999999999999987, 9⟩ ∧
    mulPt (inv (⟨2, 1, 5, 1, 3, 7⟩ : Xform F64)) (mulPt ⟨2, 1, 5, 1, 3, 7⟩ ⟨4, 9⟩) ≠ ⟨4, 9⟩ ∧
    mulPt (⟨2, 1, 5, 1, 3, 7⟩ : Xform F64) (mulPt (inv ⟨2, 1, 5, 1, 3, 7⟩) ⟨4, 9⟩) =
      ⟨3.999999999999999, 8.999999999999998⟩ ∧
    mulPt (⟨2, 1, 5, 1, 3, 7⟩ : Xform F64) (mulPt (inv ⟨2, 1, 5, 1, 3, 7⟩) ⟨4, 9⟩) ≠ ⟨4, 9⟩ ∧
    mulMat (⟨2, 1, 5, 1, 3, 7⟩ : Xform F64) (inv ⟨2, 1, 5, 1, 3, 7⟩) =
      ⟨1, 0, 0, -1.1102230246251565e-16, 1.0000000000000002, 0⟩ ∧
    mulMat (⟨2, 1, 5, 1, 3, 7⟩ : Xform F64) (inv ⟨2, 1, 5, 1, 3, 7⟩) ≠ Xform.one := by
  decide!

end TransformTheorems

/-! ## The distance to a segment -/

section DistanceTheorems

theorem dot_self_nonneg {K : Type} [LinearOrderedField K] (V : Pt K) : 0 ≤ dot V V := by
  unfold dot
  nlinarith [mul_self_nonneg V.x, mul_self_nonneg V.y]

/-- On the real numbers `sqrtLt d r` is the comparison `Math.sqrt( d ) < r`. -/
theorem sqrtLt_iff_real (d r : ℝ) : sqrtLt d r ↔ Real.sqrt d < r := by
  unfold sqrtLt
  constructor
  · rintro ⟨hr, h⟩
    rw [Real.sqrt_lt' hr]
    nlinarith
  · intro h
    have hr : 0 < r := lt_of_le_of_lt (Real.sqrt_nonneg d) h
    refine ⟨hr, ?_⟩
    rw [Real.sqrt_lt' hr] at h
    nlinarith

/-- On the real numbers `sqrtGt d r` is the comparison `Math.sqrt( d ) > r`. -/
theorem sqrtGt_iff_real (d r : ℝ) : sqrtGt d r ↔ r < Real.sqrt d := by
  unfold sqrtGt
  constructor
  · rintro (hr | h)
    · exact lt_of_lt_of_le hr (Real.sqrt_nonneg d)
    · by_cases hr : 0 ≤ r
      · rw [Real.lt_sqrt hr]
        nlinarith
      · exact lt_of_lt_of_le (not_le.mp hr) (Real.sqrt_nonneg d)
  · intro h
    by_cases hr : 0 ≤ r
    · right
      rw [Real.lt_sqrt hr] at h
      nlinarith
    · left
      exact not_le.mp hr

/-- The real `ptdist` is the square root of `ptdistSq`. -/
theorem ptdist_eq_sqrt (V W : Pt ℝ) : ptdist V W = Real.sqrt (ptdistSq V W) := rfl

/-- The real `distToSeg` is the square root of `distToSegSq`. -/
theorem distToSeg_eq_sqrt (P A B : Pt ℝ) : distToSeg P A B = Real.sqrt (distToSegSq P A B) := by
  unfold distToSeg distToSegSq
  simp only []
  split_ifs <;> rfl

theorem ptdistSq_nonneg {K : Type} [LinearOrderedField K] (V W : Pt K) : 0 ≤ ptdistSq V W :=
  dot_self_nonneg _

theorem distToSegSq_nonneg {K : Type} [LinearOrderedField K] (P A B : Pt K) :
    0 ≤ distToSegSq P A B := by
  unfold distToSegSq
  simp only []
  split_ifs <;> exact ptdistSq_nonneg _ _

/-- The test `ptdist( Q, pt ) < r` of `startEdit`, over the real numbers. -/
theorem ptdist_lt_iff (V W : Pt ℝ) (r : ℝ) : ptdist V W < r ↔ sqrtLt (ptdistSq V W) r := by
  rw [ptdist_eq_sqrt, sqrtLt_iff_real]

/-- The test `distToSeg( pt, P, Q ) < r` of `startEdit`, over the real
numbers. -/
theorem distToSeg_lt_iff (P A B : Pt ℝ) (r : ℝ) :
    distToSeg P A B < r ↔ sqrtLt (distToSegSq P A B) r := by
  rw [distToSeg_eq_sqrt, sqrtLt_iff_real]

/-- The test `ptdist( pt, down_motion ) > r` of `moveEdit`, over the real
numbers. -/
theorem ptdist_gt_iff (V W : Pt ℝ) (r : ℝ) : r < ptdist V W ↔ sqrtGt (ptdistSq V W) r := by
  rw [ptdist_eq_sqrt, sqrtGt_iff_real]

theorem sq_dist_segPoint (P A B : Pt ℝ) (t t0 : ℝ)
    (h : t0 * dot (sub B A) (sub B A) = dot (sub P A) (sub B A)) :
    ptdistSq P (segPoint A B t) =
      ptdistSq P A + dot (sub B A) (sub B A) * (t * t - 2 * t * t0) := by
  simp only [ptdistSq, segPoint, dot, sub] at h ⊢
  linear_combination (2 * t) * h

theorem segPoint_zero (A B : Pt ℝ) : segPoint A B 0 = A := by
  cases A
  simp [segPoint]

theorem segPoint_one (A B : Pt ℝ) : segPoint A B 1 = B := by
  cases A
  cases B
  simp [segPoint]

theorem dot_sub_pos (A B : Pt ℝ) (hAB : A ≠ B) : 0 < dot (sub B A) (sub B A) := by
  rcases lt_or_eq_of_le (dot_self_nonneg (sub B A)) with h | h
  · exact h
  · exfalso
    apply hAB
    simp only [dot, sub] at h
    have hx : B.x - A.x = 0 := by nlinarith [mul_self_nonneg (B.x - A.x), mul_self_nonneg (B.y - A.y)]
    have hy : B.y - A.y = 0 := by nlinarith [mul_self_nonneg (B.x - A.x), mul_self_nonneg (B.y - A.y)]
    cases A
    cases B
    simp only [Pt.mk.injEq]
    constructor <;> linarith

theorem distToSegSq_cases (P A B : Pt ℝ) :
    (0 ≤ segParam P A B ∧ segParam P A B ≤ 1 ∧
      distToSegSq P A B = ptdistSq P (segPoint A B (segParam P A B))) ∨
    (segParam P A B < 0 ∧ distToSegSq P A B = ptdistSq P A) ∨
    (1 < segParam P A B ∧ distToSegSq P A B = ptdistSq P B) := by
  unfold distToSegSq segParam
  simp only []
  split_ifs with h1 h2
  · left
    exact ⟨h1.1, h1.2, rfl⟩
  · right; left
    exact ⟨h2, rfl⟩
  · right; right
    refine ⟨?_, rfl⟩
    by_contra h3
    exact h1 ⟨not_lt.mp h2, not_lt.mp h3⟩

/-- C7. `distToSeg( P, A, B )` is the Euclidean distance from `P` to the
closest point of the segment `AB`, for `A` different from `B`: it is at most
the distance from `P` to `A + t (B - A)` for every `t` in `[0,1]`, it is that
distance for some `t` in `[0,1]`, it is the distance to `A` when the
projection parameter is below 0 and the distance to `B` when it is above 1. -/
theorem distToSeg_closest (P A B : Pt ℝ) (hAB : A ≠ B) :
    (∀ t : ℝ, 0 ≤ t → t ≤ 1 → distToSeg P A B ≤ len (sub P (segPoint A B t))) ∧
    (∃ t : ℝ, 0 ≤ t ∧ t ≤ 1 ∧ distToSeg P A B = len (sub P (segPoint A B t))) ∧
    (segParam P A B < 0 → distToSeg P A B = len (sub P A)) ∧
    (1 < segParam P A B → distToSeg P A B = len (sub P B)) := by
  have hdd := dot_sub_pos A B hAB
  have h0 : segParam P A B * dot (sub B A) (sub B A) = dot (sub P A) (sub B A) := by
    unfold segParam
    simp only []
    field_simp
  have key := fun t => sq_dist_segPoint P A B t (segParam P A B) h0
  have hcases := distToSegSq_cases P A B
  refine ⟨?_, ?_, ?_, ?_⟩
  · intro t ht0 ht1
    rw [distToSeg_eq_sqrt]
    apply Real.sqrt_le_sqrt
    show distToSegSq P A B ≤ ptdistSq P (segPoint A B t)
    rcases hcases with ⟨_, _, h⟩ | ⟨hlt, h⟩ | ⟨hgt, h⟩
    · rw [h, key t, key (segParam P A B)]
      nlinarith [mul_nonneg hdd.le (mul_self_nonneg (t - segParam P A B))]
    · rw [h, key t]
      nlinarith [mul_nonneg hdd.le (mul_nonneg ht0 (by linarith : 0 ≤ t - 2 * segParam P A B))]
    · have hB : ptdistSq P B = ptdistSq P (segPoint A B 1) := by rw [segPoint_one]
      rw [h, hB, key 1, key t]
      nlinarith [mul_nonneg hdd.le (mul_nonneg (by linarith : 0 ≤ 1 - t)
        (by linarith : 0 ≤ 2 * segParam P A B - 1 - t))]
  · rcases hcases with ⟨h1, h2, h⟩ | ⟨_, h⟩ | ⟨_, h⟩
    · exact ⟨segParam P A B, h1, h2, by rw [distToSeg_eq_sqrt, h]; rfl⟩
    · exact ⟨0, le_refl 0, zero_le_one, by rw [distToSeg_eq_sqrt, h, segPoint_zero]; rfl⟩
    · exact ⟨1, zero_le_one, le_refl 1, by rw [distToSeg_eq_sqrt, h, segPoint_one]; rfl⟩
  · intro hlt
    rcases hcases with ⟨h1, _, _⟩ | ⟨_, h⟩ | ⟨h1, _⟩
    · exact absurd hlt (not_lt.mpr h1)
    · rw [distToSeg_eq_sqrt, h]; rfl
    · exact absurd (lt_trans hlt zero_lt_one) (not_lt.mpr h1.le)
  · intro hgt
    rcases hcases with ⟨_, h1, _⟩ | ⟨h1, _⟩ | ⟨_, h⟩
    · exact absurd hgt (not_lt.mpr h1)
    · exact absurd (lt_trans h1 zero_lt_one) (not_lt.mpr hgt.le)
    · rw [distToSeg_eq_sqrt, h]; rfl

/-- The point `(0,1)` and the segment from `(0,0)` to `(1,0)`. -/
theorem distToSeg_closest_witness :
    (⟨0, 0⟩ : Pt ℝ) ≠ ⟨1, 0⟩ ∧
    ((∀ t : ℝ, 0 ≤ t → t ≤ 1 →
        distToSeg ⟨0, 1⟩ ⟨0, 0⟩ ⟨1, 0⟩ ≤ len (sub ⟨0, 1⟩ (segPoint ⟨0, 0⟩ ⟨1, 0⟩ t))) ∧
     (∃ t : ℝ, 0 ≤ t ∧ t ≤ 1 ∧
        distToSeg ⟨0, 1⟩ ⟨0, 0⟩ ⟨1, 0⟩ = len (sub ⟨0, 1⟩ (segPoint ⟨0, 0⟩ ⟨1, 0⟩ t))) ∧
     (segParam (⟨0, 1⟩ : Pt ℝ) ⟨0, 0⟩ ⟨1, 0⟩ < 0 →
        distToSeg ⟨0, 1⟩ ⟨0, 0⟩ ⟨1, 0⟩ = len (sub ⟨0, 1⟩ ⟨0, 0⟩)) ∧
     (1 < segParam (⟨0, 1⟩ : Pt ℝ) ⟨0, 0⟩ ⟨1, 0⟩ →
        distToSeg ⟨0, 1⟩ ⟨0, 0⟩ ⟨1, 0⟩ = len (sub ⟨0, 1⟩ ⟨1, 0⟩))) :=
  ⟨by simp, distToSeg_closest ⟨0, 1⟩ ⟨0, 0⟩ ⟨1, 0⟩ (by simp)⟩

end DistanceTheorems

/-! ## Default edges -/

section DefaultEdgeTheorems

variable {K : Type} [LinearOrderedField K]

theorem createDefaultEdge_J (t : IsohedralTiling K) (a : K) (idx : Nat)
    (h : t.getEdgeShape idx = some EdgeShape.J) :
    createDefaultEdge t a idx =
      [⟨0, 0⟩, ⟨0.35, 0.35 * a⟩, ⟨0.65, 0.5 * (0.35 * a)⟩, ⟨1, 0⟩] := by
  simp [createDefaultEdge, h, makePoint]

theorem createDefaultEdge_S (t : IsohedralTiling K) (a : K) (idx : Nat)
    (h : t.getEdgeShape idx = some EdgeShape.S) :
    createDefaultEdge t a idx =
      [⟨0, 0⟩, ⟨0.33, 0.35 * a⟩, ⟨0.67, -(0.35 * a)⟩, ⟨1, 0⟩] := by
  simp [createDefaultEdge, h, makePoint]

theorem createDefaultEdge_U (t : IsohedralTiling K) (a : K) (idx : Nat)
    (h : t.getEdgeShape idx = some EdgeShape.U) :
    createDefaultEdge t a idx =
      [⟨0, 0⟩, ⟨0.33, 0.35 * a⟩, ⟨0.67, 0.35 * a⟩, ⟨1, 0⟩] := by
  simp [createDefaultEdge, h, makePoint]

theorem createDefaultEdge_I (t : IsohedralTiling K) (a : K) (idx : Nat)
    (h : t.getEdgeShape idx = some EdgeShape.I) :
    createDefaultEdge t a idx = [⟨0, 0⟩, ⟨1, 0⟩] := by
  simp [createDefaultEdge, h, makePoint]

theorem cubicPoint_J_zero (t : K) (h0 : 0 ≤ t) (h1 : t ≤ 1) :
    (cubicPoint (⟨0, 0⟩ : Pt K) ⟨0.35, 0.35 * 0⟩ ⟨0.65, 0.5 * (0.35 * 0)⟩ ⟨1, 0⟩ t).y = 0 ∧
    0 ≤ (cubicPoint (⟨0, 0⟩ : Pt K) ⟨0.35, 0.35 * 0⟩ ⟨0.65, 0.5 * (0.35 * 0)⟩ ⟨1, 0⟩ t).x ∧
    (cubicPoint (⟨0, 0⟩ : Pt K) ⟨0.35, 0.35 * 0⟩ ⟨0.65, 0.5 * (0.35 * 0)⟩ ⟨1, 0⟩ t).x ≤ 1 := by
  have hu : 0 ≤ 1 - t := by linarith
  have ha : 0 ≤ (1 - t) * (1 - t) * t := mul_nonneg (mul_nonneg hu hu) h0
  have hb : 0 ≤ (1 - t) * (t * t) := mul_nonneg hu (mul_nonneg h0 h0)
  have hc : 0 ≤ t * t * t := mul_nonneg (mul_nonneg h0 h0) h0
  have hd : 0 ≤ (1 - t) * (1 - t) * (1 - t) := mul_nonneg (mul_nonneg hu hu) hu
  simp only [cubicPoint]
  refine ⟨by ring, ?_, ?_⟩
  · norm_num
    linarith
  · norm_num
    nlinarith

theorem sample_param_bounds (idx : Nat) (h : idx < 16 + 1) :
    (0 : K) ≤ (idx : K) / 16 ∧ (idx : K) / 16 ≤ 1 := by
  constructor
  · positivity
  · rw [div_le_one (by norm_num)]
    exact_mod_cast Nat.lt_succ_iff.mp h

/-- C10. With curve amount 0 the default edge of a `J` shape samples to a
straight segment: `sampleEdgePoints` gives 17 points, the first is `(0,0)`,
the last is `(1,0)`, every sample has `y = 0` and `0 <= x <= 1`, and the
reversed sampling is the same list reversed. -/
theorem default_J_edge_straight (t : IsohedralTiling K) (idx : Nat)
    (h : t.getEdgeShape idx = some EdgeShape.J) :
    (sampleEdgePoints (createDefaultEdge t 0 idx) false).length = 17 ∧
    (sampleEdgePoints (createDefaultEdge t 0 idx) false).head? = some ⟨0, 0⟩ ∧
    (sampleEdgePoints (createDefaultEdge t 0 idx) false).getLast? = some ⟨1, 0⟩ ∧
    (∀ p ∈ sampleEdgePoints (createDefaultEdge t 0 idx) false, p.y = 0 ∧ 0 ≤ p.x ∧ p.x ≤ 1) ∧
    sampleEdgePoints (createDefaultEdge t 0 idx) true =
      (sampleEdgePoints (createDefaultEdge t 0 idx) false).reverse := by
  refine ⟨?_, ?_, ?_, ?_, sampleEdgePoints_true _⟩
  all_goals rw [createDefaultEdge_J t 0 idx h]
  all_goals simp only [sampleEdgePoints, sampleCubic]
  · simp
  · simp [List.range_succ_eq_map, cubicPoint]
  · simp [List.range_succ, cubicPoint]
  · intro p hp
    rw [List.mem_map] at hp
    obtain ⟨i, hi, rfl⟩ := hp
    rw [List.mem_range] at hi
    simp only [Bool.false_eq_true, if_false]
    exact cubicPoint_J_zero _ (sample_param_bounds i hi).1 (sample_param_bounds i hi).2

/-- A classifier with the single edge shape `J`, edge 0. -/
theorem default_J_edge_straight_witness :
    (IsohedralTiling.getEdgeShape
      (⟨[EdgeShape.J], [], fun _ => [], fun _ => []⟩ : IsohedralTiling ℚ) 0 = some EdgeShape.J) ∧
    ((sampleEdgePoints (createDefaultEdge
        (⟨[EdgeShape.J], [], fun _ => [], fun _ => []⟩ : IsohedralTiling ℚ) 0 0) false).length = 17 ∧
     (sampleEdgePoints (createDefaultEdge
        (⟨[EdgeShape.J], [], fun _ => [], fun _ => []⟩ : IsohedralTiling ℚ) 0 0) false).head?
        = some ⟨0, 0⟩ ∧
     (sampleEdgePoints (createDefaultEdge
        (⟨[EdgeShape.J], [], fun _ => [], fun _ => []⟩ : IsohedralTiling ℚ) 0 0) false).getLast?
        = some ⟨1, 0⟩ ∧
     (∀ p ∈ sampleEdgePoints (createDefaultEdge
        (⟨[EdgeShape.J], [], fun _ => [], fun _ => []⟩ : IsohedralTiling ℚ) 0 0) false,
        p.y = 0 ∧ 0 ≤ p.x ∧ p.x ≤ 1) ∧
     sampleEdgePoints (createDefaultEdge
        (⟨[EdgeShape.J], [], fun _ => [], fun _ => []⟩ : IsohedralTiling ℚ) 0 0) true =
      (sampleEdgePoints (createDefaultEdge
        (⟨[EdgeShape.J], [], fun _ => [], fun _ => []⟩ : IsohedralTiling ℚ) 0 0) false).reverse) :=
  ⟨rfl, default_J_edge_straight _ 0 rfl⟩

end DefaultEdgeTheorems

/-! ## The cached outline -/

section CacheTheorems

variable {K : Type} [LinearOrderedField K]

theorem tileShapeLoop_isSome (edges : List (List (Pt K))) (segs : List (Seg K))
    (h : ∀ seg ∈ segs, seg.id < edges.length) (firstEdge : Bool) (acc : List (Pt K)) :
    ∃ shp, tileShapeLoop edges segs firstEdge acc = some shp := by
  induction segs generalizing firstEdge acc with
  | nil => exact ⟨acc, rfl⟩
  | cons seg rest ih =>
    have hlt : seg.id < edges.length := h seg (List.mem_cons_self _ _)
    have hrest : ∀ seg ∈ rest, seg.id < edges.length :=
      fun sg hsg => h sg (List.mem_cons_of_mem _ hsg)
    simp only [tileShapeLoop, List.getElem?_eq_getElem hlt]
    exact ih hrest _ _

theorem cacheTileShape_fields (s s1 : EditableTiling K) (h : cacheTileShape s = some s1) :
    s1.edges = s.edges ∧ s1.tiling = s.tiling ∧ s1.curveAmount = s.curveAmount ∧
    s1.u_constrain = s.u_constrain ∧ s1.drag = s.drag ∧ s1.delete_timer = s.delete_timer ∧
    s1.phys_unit = s.phys_unit ∧ s1.editor_T = s.editor_T ∧ s1.edit_w = s.edit_w ∧
    s1.edit_h = s.edit_h ∧ s1.params = s.params := by
  unfold cacheTileShape at h
  split at h
  · cases h
    simp
  · split at h
    · cases h
    · cases h
      simp

theorem cacheTileShape_outline (s s1 : EditableTiling K) (t : IsohedralTiling K)
    (ht : s.tiling = some t) (h : cacheTileShape s = some s1) :
    tileShape t s.edges = some s1.tile_shape := by
  unfold cacheTileShape at h
  rw [ht] at h
  simp only [] at h
  split at h
  · cases h
  · cases h
    assumption

theorem cacheTileShape_isSome (s : EditableTiling K) (t : IsohedralTiling K)
    (ht : s.tiling = some t) (h : ∀ seg ∈ t.shape, seg.id < s.edges.length) :
    ∃ s1, cacheTileShape s = some s1 := by
  obtain ⟨shp, hshp⟩ := tileShapeLoop_isSome s.edges t.shape h true []
  refine ⟨{ s with tile_shape := shp }, ?_⟩
  unfold cacheTileShape
  rw [ht]
  simp only [tileShape, hshp]

theorem calcEditorTransform_fields (s : EditableTiling K) :
    (calcEditorTransform s).edges = s.edges ∧ (calcEditorTransform s).tiling = s.tiling ∧
    (calcEditorTransform s).curveAmount = s.curveAmount ∧
    (calcEditorTransform s).u_constrain = s.u_constrain ∧
    (calcEditorTransform s).drag = s.drag ∧
    (calcEditorTransform s).delete_timer = s.delete_timer ∧
    (calcEditorTransform s).phys_unit = s.phys_unit ∧
    (calcEditorTransform s).tile_shape = s.tile_shape := by
  simp [calcEditorTransform]

end CacheTheorems

/-! ## Resetting the curve amount -/

section CurveAmountTheorems

variable {K : Type} [LinearOrderedField K]

theorem createDefaultEdge_scale (t : IsohedralTiling K) (c : K) (idx : Nat) :
    createDefaultEdge t c idx =
      (createDefaultEdge t 1 idx).map fun p => ({ x := p.x, y := c * p.y } : Pt K) := by
  unfold createDefaultEdge
  simp only [makePoint]
  split_ifs <;> simp [mul_comm, mul_left_comm]

/-- C9. `setCurveAmount` is a clamping, destructive reset: on an editor with a
tiling (whose outline names existing edges) the call returns, after it
`getCurveAmount()` is `max(0, a)`, there is one edge per edge shape and edge
`i` is `createDefaultEdge( i )` at amplitude `amp = 0.35 * max(0, a)`, which
is `(0,0), (1,0)` for an `I` edge, `(0,0), (0.35, amp), (0.65, 0.5 * amp),
(1,0)` for a `J` edge, `(0,0), (0.33, amp), (0.67, -amp), (1,0)` for an `S`
edge and `(0,0), (0.33, amp), (0.67, amp), (1,0)` for a `U` edge, that is the
default edge of amount 1 with every y-coordinate multiplied by `max(0, a)`;
the edges held before the call have no influence on the result. -/
theorem setCurveAmount_resets (s : EditableTiling K) (t : IsohedralTiling K) (a : K)
    (ht : s.tiling = some t) (hwf : ∀ seg ∈ t.shape, seg.id < t.numEdgeShapes) :
    ∃ s1, setCurveAmount s a = some s1 ∧
      getCurveAmount s1 = max 0 a ∧
      s1.edges.length = t.numEdgeShapes ∧
      (∀ i, i < t.numEdgeShapes →
        ∃ sh, t.getEdgeShape i = some sh ∧
          s1.edges[i]? = some (createDefaultEdge t (max 0 a) i) ∧
          (sh = EdgeShape.I → createDefaultEdge t (max 0 a) i = [⟨0, 0⟩, ⟨1, 0⟩]) ∧
          (sh = EdgeShape.J → createDefaultEdge t (max 0 a) i =
            [⟨0, 0⟩, ⟨0.35, 0.35 * max 0 a⟩, ⟨0.65, 0.5 * (0.35 * max 0 a)⟩, ⟨1, 0⟩]) ∧
          (sh = EdgeShape.S → createDefaultEdge t (max 0 a) i =
            [⟨0, 0⟩, ⟨0.33, 0.35 * max 0 a⟩, ⟨0.67, -(0.35 * max 0 a)⟩, ⟨1, 0⟩]) ∧
          (sh = EdgeShape.U → createDefaultEdge t (max 0 a) i =
            [⟨0, 0⟩, ⟨0.33, 0.35 * max 0 a⟩, ⟨0.67, 0.35 * max 0 a⟩, ⟨1, 0⟩]) ∧
          createDefaultEdge t (max 0 a) i =
            (createDefaultEdge t 1 i).map
              fun p => ({ x := p.x, y := max 0 a * p.y } : Pt K)) ∧
      (∀ es, (setCurveAmount { s with edges := es } a).map (fun s2 => s2.edges) =
        some s1.edges) := by
  have hbuild : ∀ es, (buildDefaultEdges { s with edges := es, curveAmount := max 0 a }).edges =
      (List.range t.numEdgeShapes).map (createDefaultEdge t (max 0 a)) := by
    intro es
    simp [buildDefaultEdges, ht]
  have hsome : ∀ es, ∃ s2,
      cacheTileShape (buildDefaultEdges { s with edges := es, curveAmount := max 0 a }) =
        some s2 := by
    intro es
    apply cacheTileShape_isSome _ t
    · simp [buildDefaultEdges, ht]
    · rw [hbuild]
      simpa using hwf
  have hrun : ∀ es s2,
      cacheTileShape (buildDefaultEdges { s with edges := es, curveAmount := max 0 a }) =
        some s2 →
      setCurveAmount { s with edges := es } a = some (calcEditorTransform s2) := by
    intro es s2 h2
    unfold setCurveAmount
    simp only []
    split
    · next h => rw [ht] at h; cases h
    · rw [h2]
      rfl
  obtain ⟨s2, h2⟩ := hsome s.edges
  have hedges : (calcEditorTransform s2).edges =
      (List.range t.numEdgeShapes).map (createDefaultEdge t (max 0 a)) := by
    rw [(calcEditorTransform_fields s2).1, (cacheTileShape_fields _ _ h2).1, hbuild]
  refine ⟨calcEditorTransform s2, hrun s.edges s2 h2, ?_, ?_, ?_, ?_⟩
  · show (calcEditorTransform s2).curveAmount = max 0 a
    rw [(calcEditorTransform_fields s2).2.2.1, (cacheTileShape_fields _ _ h2).2.2.1]
    simp [buildDefaultEdges, ht]
  · rw [hedges]
    simp
  · intro i hi
    have hsh : t.getEdgeShape i = some (t.edgeShapes[i]) := by
      unfold IsohedralTiling.getEdgeShape
      exact List.getElem?_eq_getElem hi
    refine ⟨_, hsh, ?_, fun h => createDefaultEdge_I t _ i (by rw [hsh, h]),
      fun h => createDefaultEdge_J t _ i (by rw [hsh, h]),
      fun h => createDefaultEdge_S t _ i (by rw [hsh, h]),
      fun h => createDefaultEdge_U t _ i (by rw [hsh, h]), createDefaultEdge_scale t _ i⟩
    rw [hedges]
    simp [List.getElem?_map, List.getElem?_range hi]
  · intro es
    obtain ⟨s3, h3⟩ := hsome es
    rw [hrun es s3 h3, hedges]
    simp only [Option.map_some']
    rw [(calcEditorTransform_fields s3).1, (cacheTileShape_fields _ _ h3).1, hbuild]

set_option maxRecDepth 100000 in
/-- The example classifier, an editor holding hand-made edges, and the
amount 2, for which the amplitude is `0.7`: the four edges after the call, in
exact arithmetic, and the same default edges in double precision. -/
theorem setCurveAmount_resets_witness :
    (exEdited.tiling = some exTiling) ∧
    (∀ seg ∈ exTiling.shape, seg.id < exTiling.numEdgeShapes) ∧
    (∃ s1, setCurveAmount exEdited 2 = some s1 ∧
      s1.edges =
        [[⟨0, 0⟩, ⟨0.33, 0.7⟩, ⟨0.67, 0.7⟩, ⟨1, 0⟩], [⟨0, 0⟩, ⟨0.33, 0.7⟩, ⟨0.67, -0.7⟩, ⟨1, 0⟩],
          [⟨0, 0⟩, ⟨0.35, 0.7⟩, ⟨0.65, 0.35⟩, ⟨1, 0⟩], [⟨0, 0⟩, ⟨1, 0⟩]] ∧
      getCurveAmount s1 = max 0 2 ∧
      s1.edges.length = exTiling.numEdgeShapes ∧
      (∀ i, i < exTiling.numEdgeShapes →
        ∃ sh, exTiling.getEdgeShape i = some sh ∧
          s1.edges[i]? = some (createDefaultEdge exTiling (max 0 2) i) ∧
          (sh = EdgeShape.I → createDefaultEdge exTiling (max 0 2) i = [⟨0, 0⟩, ⟨1, 0⟩]) ∧
          (sh = EdgeShape.J → createDefaultEdge exTiling (max 0 2) i =
            [⟨0, 0⟩, ⟨0.35, 0.35 * max 0 2⟩, ⟨0.65, 0.5 * (0.35 * max 0 2)⟩, ⟨1, 0⟩]) ∧
          (sh = EdgeShape.S → createDefaultEdge exTiling (max 0 2) i =
            [⟨0, 0⟩, ⟨0.33, 0.35 * max 0 2⟩, ⟨0.67, -(0.35 * max 0 2)⟩, ⟨1, 0⟩]) ∧
          (sh = EdgeShape.U → createDefaultEdge exTiling (max 0 2) i =
            [⟨0, 0⟩, ⟨0.33, 0.35 * max 0 2⟩, ⟨0.67, 0.35 * max 0 2⟩, ⟨1, 0⟩]) ∧
          createDefaultEdge exTiling (max 0 2) i =
            (createDefaultEdge exTiling 1 i).map
              fun p => ({ x := p.x, y := max 0 2 * p.y } : Pt ℚ)) ∧
      (∀ es, (setCurveAmount { exEdited with edges := es } 2).map (fun s2 => s2.edges) =
        some s1.edges)) ∧
    (List.range 4).map (createDefaultEdge exTiling64 2) =
      [[⟨0, 0⟩, ⟨0.33, 0.7⟩, ⟨0.67, 0.7⟩, ⟨1, 0⟩], [⟨0, 0⟩, ⟨0.33, 0.7⟩, ⟨0.67, -0.7⟩, ⟨1, 0⟩],
        [⟨0, 0⟩, ⟨0.35, 0.7⟩, ⟨0.65, 0.35⟩, ⟨1, 0⟩], [⟨0, 0⟩, ⟨1, 0⟩]] := by
  obtain ⟨s1, h1, hrest⟩ := setCurveAmount_resets exEdited exTiling 2 rfl (by decide)
  have he : (setCurveAmount exEdited 2).map (fun s2 => s2.edges) =
      some [[⟨0, 0⟩, ⟨0.33, 0.7⟩, ⟨0.67, 0.7⟩, ⟨1, 0⟩],
        [⟨0, 0⟩, ⟨0.33, 0.7⟩, ⟨0.67, -0.7⟩, ⟨1, 0⟩],
        [⟨0, 0⟩, ⟨0.35, 0.7⟩, ⟨0.65, 0.35⟩, ⟨1, 0⟩], [⟨0, 0⟩, ⟨1, 0⟩]] := by
    decide!
  rw [h1] at he
  simp only [Option.map_some', Option.some.injEq] at he
  exact ⟨rfl, by decide, ⟨s1, h1, he, hrest⟩, by decide!⟩

end CurveAmountTheorems

/-! ## Fitting the outline into the viewport -/

section ViewportTheorems

variable {K : Type} [LinearOrderedField K]

/-- One step of the bounding-box loop of `calcEditorTransform`. -/
theorem bbox_foldl_spec (l : List (Pt K)) (b : K × K × K × K) :
    let r := l.foldl
      (fun b v => (min b.1 v.x, max b.2.1 v.x, min b.2.2.1 v.y, max b.2.2.2 v.y)) b
    (r.1 ≤ b.1 ∧ b.2.1 ≤ r.2.1 ∧ r.2.2.1 ≤ b.2.2.1 ∧ b.2.2.2 ≤ r.2.2.2) ∧
    (∀ p ∈ l, r.1 ≤ p.x ∧ p.x ≤ r.2.1 ∧ r.2.2.1 ≤ p.y ∧ p.y ≤ r.2.2.2) ∧
    (r.1 = b.1 ∨ ∃ p ∈ l, p.x = r.1) ∧ (r.2.1 = b.2.1 ∨ ∃ p ∈ l, p.x = r.2.1) ∧
    (r.2.2.1 = b.2.2.1 ∨ ∃ p ∈ l, p.y = r.2.2.1) ∧
    (r.2.2.2 = b.2.2.2 ∨ ∃ p ∈ l, p.y = r.2.2.2) := by
  induction l generalizing b with
  | nil => simp
  | cons v rest ih =>
    simp only [List.foldl_cons]
    obtain ⟨⟨h1, h2, h3, h4⟩, hall, hx0, hx1, hy0, hy1⟩ :=
      ih (min b.1 v.x, max b.2.1 v.x, min b.2.2.1 v.y, max b.2.2.2 v.y)
    simp only [] at h1 h2 h3 h4 hall hx0 hx1 hy0 hy1
    refine ⟨⟨?_, ?_, ?_, ?_⟩, ?_, ?_, ?_, ?_, ?_⟩
    · exact le_trans h1 (min_le_left _ _)
    · exact le_trans (le_max_left _ _) h2
    · exact le_trans h3 (min_le_left _ _)
    · exact le_trans (le_max_left _ _) h4
    · intro p hp
      rcases List.mem_cons.mp hp with rfl | hp
      · exact ⟨le_trans h1 (min_le_right _ _), le_trans (le_max_right _ _) h2,
          le_trans h3 (min_le_right _ _), le_trans (le_max_right _ _) h4⟩
      · exact hall p hp
    · rcases hx0 with h | ⟨p, hp, h⟩
      · rcases min_choice b.1 v.x with hm | hm
        · left; rw [h, hm]
        · right; exact ⟨v, List.mem_cons_self _ _, by rw [h, hm]⟩
      · right; exact ⟨p, List.mem_cons_of_mem _ hp, h⟩
    · rcases hx1 with h | ⟨p, hp, h⟩
      · rcases max_choice b.2.1 v.x with hm | hm
        · left; rw [h, hm]
        · right; exact ⟨v, List.mem_cons_self _ _, by rw [h, hm]⟩
      · right; exact ⟨p, List.mem_cons_of_mem _ hp, h⟩
    · rcases hy0 with h | ⟨p, hp, h⟩
      · rcases min_choice b.2.2.1 v.y with hm | hm
        · left; rw [h, hm]
        · right; exact ⟨v, List.mem_cons_self _ _, by rw [h, hm]⟩
      · right; exact ⟨p, List.mem_cons_of_mem _ hp, h⟩
    · rcases hy1 with h | ⟨p, hp, h⟩
      · rcases max_choice b.2.2.2 v.y with hm | hm
        · left; rw [h, hm]
        · right; exact ⟨v, List.mem_cons_self _ _, by rw [h, hm]⟩
      · right; exact ⟨p, List.mem_cons_of_mem _ hp, h⟩

/-- The box computed by `calcEditorTransform` contains the outline. -/
theorem boundingBox_contains (shp : List (Pt K)) (xmin xmax ymin ymax : K)
    (hb : boundingBox shp = (xmin, xmax, ymin, ymax)) :
    ∀ p ∈ shp, xmin ≤ p.x ∧ p.x ≤ xmax ∧ ymin ≤ p.y ∧ p.y ≤ ymax := by
  have h := (bbox_foldl_spec shp (10000000, -10000000, 10000000, -10000000)).2.1
  simp only [] at h
  unfold boundingBox at hb
  rw [hb] at h
  exact h

/-- The box computed by `calcEditorTransform` is tight when the outline is
not empty and lies within `[-1e7, 1e7]`. -/
theorem boundingBox_attained (shp : List (Pt K)) (xmin xmax ymin ymax : K)
    (hb : boundingBox shp = (xmin, xmax, ymin, ymax)) (hne : shp ≠ [])
    (hrange : ∀ p ∈ shp, -10000000 ≤ p.x ∧ p.x ≤ 10000000 ∧ -10000000 ≤ p.y ∧ p.y ≤ 10000000) :
    (∃ p ∈ shp, p.x = xmin) ∧ (∃ p ∈ shp, p.x = xmax) ∧
    (∃ p ∈ shp, p.y = ymin) ∧ (∃ p ∈ shp, p.y = ymax) := by
  obtain ⟨q, hq⟩ := List.exists_mem_of_ne_nil shp hne
  have hc := boundingBox_contains shp xmin xmax ymin ymax hb q hq
  have hr := hrange q hq
  obtain ⟨_, _, hx0, hx1, hy0, hy1⟩ :=
    bbox_foldl_spec shp (10000000, -10000000, 10000000, -10000000)
  simp only [] at hx0 hx1 hy0 hy1
  unfold boundingBox at hb
  rw [hb] at hx0 hx1 hy0 hy1
  simp only [] at hx0 hx1 hy0 hy1
  refine ⟨?_, ?_, ?_, ?_⟩
  · rcases hx0 with h | h
    · exact ⟨q, hq, le_antisymm (by rw [h]; exact hr.2.1) hc.1⟩
    · exact h
  · rcases hx1 with h | h
    · exact ⟨q, hq, le_antisymm hc.2.1 (by rw [h]; exact hr.1)⟩
    · exact h
  · rcases hy0 with h | h
    · exact ⟨q, hq, le_antisymm (by rw [h]; exact hr.2.2.2) hc.2.2.1⟩
    · exact h
  · rcases hy1 with h | h
    · exact ⟨q, hq, le_antisymm hc.2.2.2 (by rw [h]; exact hr.2.2.1)⟩
    · exact h

theorem calcEditorTransform_apply (s : EditableTiling K) (xmin xmax ymin ymax : K)
    (hb : boundingBox s.tile_shape = (xmin, xmax, ymin, ymax)) (p : Pt K) :
    mulPt (calcEditorTransform s).editor_T p =
      ⟨s.edit_w / 2 +
          min ((s.edit_w - 50) / (xmax - xmin)) ((s.edit_h - 50) / (ymax - ymin)) *
            (p.x - (xmin + xmax) / 2),
        s.edit_h / 2 -
          min ((s.edit_w - 50) / (xmax - xmin)) ((s.edit_h - 50) / (ymax - ymin)) *
            (p.y - (ymin + ymax) / 2)⟩ := by
  simp only [calcEditorTransform, hb, mulPt, mulMat, Pt.mk.injEq]
  constructor
  · norm_num
    ring
  · norm_num
    ring

theorem fit_scale_bounds (w h xmin xmax ymin ymax : K)
    (hx : xmin < xmax) (hy : ymin < ymax) (hw : 50 ≤ w) (hh : 50 ≤ h) :
    0 ≤ min ((w - 50) / (xmax - xmin)) ((h - 50) / (ymax - ymin)) ∧
    min ((w - 50) / (xmax - xmin)) ((h - 50) / (ymax - ymin)) * (xmax - xmin) ≤ w - 50 ∧
    min ((w - 50) / (xmax - xmin)) ((h - 50) / (ymax - ymin)) * (ymax - ymin) ≤ h - 50 := by
  have hX : 0 < xmax - xmin := by linarith
  have hY : 0 < ymax - ymin := by linarith
  refine ⟨le_min (div_nonneg (by linarith) hX.le) (div_nonneg (by linarith) hY.le), ?_, ?_⟩
  · calc min ((w - 50) / (xmax - xmin)) ((h - 50) / (ymax - ymin)) * (xmax - xmin)
        ≤ (w - 50) / (xmax - xmin) * (xmax - xmin) :=
          mul_le_mul_of_nonneg_right (min_le_left _ _) hX.le
      _ = w - 50 := div_mul_cancel₀ _ hX.ne'
  · calc min ((w - 50) / (xmax - xmin)) ((h - 50) / (ymax - ymin)) * (ymax - ymin)
        ≤ (h - 50) / (ymax - ymin) * (ymax - ymin) :=
          mul_le_mul_of_nonneg_right (min_le_right _ _) hY.le
      _ = h - 50 := div_mul_cancel₀ _ hY.ne'

/-- C8. Viewport fit: for a non-empty outline with coordinates in
`[-1e7, 1e7]` whose bounding box `(xmin, xmax, ymin, ymax)` has `xmax > xmin`
and `ymax > ymin`, and for `edit_w >= 50` and `edit_h >= 50`, the box is the
tight box of the outline and the transform computed by `calcEditorTransform`
maps `(x,y)` to `(edit_w/2 + s (x - cx), edit_h/2 - s (y - cy))` with
`s = min((edit_w-50)/(xmax-xmin), (edit_h-50)/(ymax-ymin))` and `(cx,cy)` the
centre of the box; it maps the centre of the box to the centre of the
viewport and every outline point into `[25, edit_w-25] x [25, edit_h-25]`. -/
theorem calcEditorTransform_fits (s : EditableTiling K) (xmin xmax ymin ymax : K)
    (hb : boundingBox s.tile_shape = (xmin, xmax, ymin, ymax))
    (hne : s.tile_shape ≠ [])
    (hrange : ∀ p ∈ s.tile_shape,
      -10000000 ≤ p.x ∧ p.x ≤ 10000000 ∧ -10000000 ≤ p.y ∧ p.y ≤ 10000000)
    (hx : xmin < xmax) (hy : ymin < ymax) (hw : 50 ≤ s.edit_w) (hh : 50 ≤ s.edit_h) :
    ((∀ p ∈ s.tile_shape, xmin ≤ p.x ∧ p.x ≤ xmax ∧ ymin ≤ p.y ∧ p.y ≤ ymax) ∧
      (∃ p ∈ s.tile_shape, p.x = xmin) ∧ (∃ p ∈ s.tile_shape, p.x = xmax) ∧
      (∃ p ∈ s.tile_shape, p.y = ymin) ∧ (∃ p ∈ s.tile_shape, p.y = ymax)) ∧
    (∀ p : Pt K, mulPt (calcEditorTransform s).editor_T p =
      ⟨s.edit_w / 2 +
          min ((s.edit_w - 50) / (xmax - xmin)) ((s.edit_h - 50) / (ymax - ymin)) *
            (p.x - (xmin + xmax) / 2),
        s.edit_h / 2 -
          min ((s.edit_w - 50) / (xmax - xmin)) ((s.edit_h - 50) / (ymax - ymin)) *
            (p.y - (ymin + ymax) / 2)⟩) ∧
    mulPt (calcEditorTransform s).editor_T ⟨(xmin + xmax) / 2, (ymin + ymax) / 2⟩ =
      ⟨s.edit_w / 2, s.edit_h / 2⟩ ∧
    (∀ p ∈ s.tile_shape,
      25 ≤ (mulPt (calcEditorTransform s).editor_T p).x ∧
      (mulPt (calcEditorTransform s).editor_T p).x ≤ s.edit_w - 25 ∧
      25 ≤ (mulPt (calcEditorTransform s).editor_T p).y ∧
      (mulPt (calcEditorTransform s).editor_T p).y ≤ s.edit_h - 25) := by
  have hcont := boundingBox_contains s.tile_shape xmin xmax ymin ymax hb
  have happ := calcEditorTransform_apply s xmin xmax ymin ymax hb
  obtain ⟨hs0, hsX, hsY⟩ := fit_scale_bounds s.edit_w s.edit_h xmin xmax ymin ymax hx hy hw hh
  refine ⟨⟨hcont, boundingBox_attained s.tile_shape xmin xmax ymin ymax hb hne hrange⟩,
    happ, ?_, ?_⟩
  · rw [happ]
    simp
  · intro p hp
    obtain ⟨h1, h2, h3, h4⟩ := hcont p hp
    rw [happ]
    simp only []
    have e1 := mul_nonneg hs0 (sub_nonneg.mpr h1)
    have e2 := mul_nonneg hs0 (sub_nonneg.mpr h2)
    have e3 := mul_nonneg hs0 (sub_nonneg.mpr h3)
    have e4 := mul_nonneg hs0 (sub_nonneg.mpr h4)
    refine ⟨?_, ?_, ?_, ?_⟩ <;> nlinarith

set_option maxRecDepth 100000 in
/-- The unit square as outline in a viewport of 250 by 250. -/
theorem calcEditorTransform_fits_witness :
    (boundingBox ([⟨0, 0⟩, ⟨1, 0⟩, ⟨1, 1⟩, ⟨0, 1⟩] : List (Pt ℚ)) = (0, 1, 0, 1)) ∧
    ((0 : ℚ) < 1) ∧ ((50 : ℚ) ≤ 250) ∧
    (∀ p ∈ ([⟨0, 0⟩, ⟨1, 0⟩, ⟨1, 1⟩, ⟨0, 1⟩] : List (Pt ℚ)),
      25 ≤ (mulPt (calcEditorTransform
        { (EditableTiling.new 250 250 20 : EditableTiling ℚ) with
          tile_shape := [⟨0, 0⟩, ⟨1, 0⟩, ⟨1, 1⟩, ⟨0, 1⟩] }).editor_T p).x ∧
      (mulPt (calcEditorTransform
        { (EditableTiling.new 250 250 20 : EditableTiling ℚ) with
          tile_shape := [⟨0, 0⟩, ⟨1, 0⟩, ⟨1, 1⟩, ⟨0, 1⟩] }).editor_T p).x ≤ 250 - 25 ∧
      25 ≤ (mulPt (calcEditorTransform
        { (EditableTiling.new 250 250 20 : EditableTiling ℚ) with
          tile_shape := [⟨0, 0⟩, ⟨1, 0⟩, ⟨1, 1⟩, ⟨0, 1⟩] }).editor_T p).y ∧
      (mulPt (calcEditorTransform
        { (EditableTiling.new 250 250 20 : EditableTiling ℚ) with
          tile_shape := [⟨0, 0⟩, ⟨1, 0⟩, ⟨1, 1⟩, ⟨0, 1⟩] }).editor_T p).y ≤ 250 - 25) :=
  ⟨by with_unfolding_all decide, by norm_num, by norm_num,
    (calcEditorTransform_fits
      { (EditableTiling.new 250 250 20 : EditableTiling ℚ) with
        tile_shape := [⟨0, 0⟩, ⟨1, 0⟩, ⟨1, 1⟩, ⟨0, 1⟩] }
      0 1 0 1 (by with_unfolding_all decide) (by simp)
      (by with_unfolding_all decide) (by norm_num) (by norm_num)
      (by norm_num [EditableTiling.new]) (by norm_num [EditableTiling.new])).2.2.2⟩

end ViewportTheorems

/-! ## The effect of `startEdit` -/

section StartEditTheorems

variable {K : Type} [LinearOrderedField K]

/-- Where the scan of one occurrence can end: at an index of the scanned
range, a delete below the last index, the mirror constraint exactly at the
last index of a first occurrence of a `U` edge. -/
theorem scanEdge_spec (phys_unit : K) (T : Xform K) (pt : Pt K) (do_del : Bool)
    (shp : EdgeShape) (second : Bool) (n : Nat) (rest : List (Pt K)) (idx : Nat) (P : Pt K) :
    match scanEdge phys_unit T pt do_del shp second n idx P rest with
    | Scan.pick i uc => idx ≤ i ∧ i < idx + rest.length ∧ (uc = true ↔ i = n - 1) ∧
        (uc = true → shp = EdgeShape.U ∧ second = false) ∧ (uc = false → do_del = false)
    | Scan.del i => idx ≤ i ∧ i < idx + rest.length ∧ i ≠ n - 1 ∧ do_del = true
    | Scan.ins i => idx ≤ i ∧ i < idx + rest.length
    | Scan.brk => True
    | Scan.done => True := by
  induction rest generalizing idx P with
  | nil => simp [scanEdge]
  | cons q rest ih =>
    simp only [scanEdge]
    split_ifs with h1 h2 h3 h4 h5
    · simp [h2, h3]
    · simp
    · simp [h2, h4]
    · simp [h2, h4]
    · simp
    · have := ih (idx + 1) (mulPt T q)
      revert this
      generalize scanEdge phys_unit T pt do_del shp second n (idx + 1) (mulPt T q) rest = r
      intro this
      cases r <;> simp only [List.length_cons] at this ⊢
      · exact ⟨by omega, by omega, this.2.2⟩
      · exact ⟨by omega, by omega, this.2.2⟩
      · exact ⟨by omega, by omega⟩

theorem startEffect_cons (i : Part K) (rest : List (Part K)) (pt : Pt K) (do_del : Bool)
    (s s1 : EditableTiling K) (b u0 : Bool) (hu0 : u0 = s.u_constrain ∨ u0 = false)
    (h : StartEffect { s with u_constrain := u0 } pt do_del rest s1 b) :
    StartEffect s pt do_del (i :: rest) s1 b := by
  cases h with
  | miss u hu =>
    refine StartEffect.miss u ?_
    rcases hu with hu | hu
    · rcases hu0 with h0 | h0
      · left; rw [hu, ← h0]
      · right; rw [hu]; exact h0
    · right; exact hu
  | del j ej idx s2 hi hI hej h1 h2 hdel hs =>
    exact StartEffect.del j ej idx s1 (List.mem_cons_of_mem _ hi) hI hej h1 h2 hdel hs
  | pick j ej idx uc hi hI hej h1 h2 huc hU hdel =>
    exact StartEffect.pick j ej idx uc (List.mem_cons_of_mem _ hi) hI hej h1 h2 huc hU hdel
  | ins j ej idx u s2 hi hI hej h1 h2 hu hs =>
    refine StartEffect.ins j ej idx u s1 (List.mem_cons_of_mem _ hi) hI hej h1 h2 ?_ hs
    rcases hu with hu | hu
    · rcases hu0 with h0 | h0
      · left; rw [hu, ← h0]
      · right; rw [hu]; exact h0
    · right; exact hu

/-- Every call of the loop of `startEdit` that returns has one of the four
effects of `StartEffect`. -/
theorem startEditLoop_effect (pt : Pt K) (do_del : Bool) (parts : List (Part K))
    (s s1 : EditableTiling K) (b : Bool)
    (h : startEditLoop s pt do_del parts = some (s1, b)) :
    StartEffect s pt do_del parts s1 b := by
  induction parts generalizing s with
  | nil =>
    simp only [startEditLoop, Option.some.injEq, Prod.mk.injEq] at h
    obtain ⟨rfl, rfl⟩ := h
    exact StartEffect.miss s.u_constrain (Or.inl rfl)
  | cons i rest ih =>
    unfold startEditLoop at h
    split_ifs at h with hI
    · exact startEffect_cons i rest pt do_del s s1 b s.u_constrain (Or.inl rfl) (ih s h)
    · split at h
      · cases h
      · cases h
      · next p0 tl hej =>
        have hspec := scanEdge_spec s.phys_unit (mulMat s.editor_T i.T) pt do_del i.shape
          i.second (p0 :: tl).length tl 1 (mulPt (mulMat s.editor_T i.T) p0)
        simp only [] at h
        split at h
        · exact startEffect_cons i rest pt do_del s s1 b s.u_constrain (Or.inl rfl) (ih s h)
        · exact startEffect_cons i rest pt do_del s s1 b false (Or.inr rfl) (ih _ h)
        · next idx hscan =>
          rw [hscan] at hspec
          simp only [List.length_cons] at hspec
          obtain ⟨s2, hs2, heq⟩ := Option.map_eq_some'.mp h
          simp only [Prod.mk.injEq] at heq
          obtain ⟨rfl, rfl⟩ := heq
          exact StartEffect.del i (p0 :: tl) idx s2 (List.mem_cons_self _ _) hI hej hspec.1
            (by simp only [List.length_cons]; omega) hspec.2.2.2 hs2
        · next idx uc hscan =>
          rw [hscan] at hspec
          simp only [List.length_cons] at hspec
          simp only [Option.some.injEq, Prod.mk.injEq] at h
          obtain ⟨rfl, rfl⟩ := h
          exact StartEffect.pick i (p0 :: tl) idx uc (List.mem_cons_self _ _) hI hej hspec.1
            (by simp only [List.length_cons]; omega)
            (by rw [hspec.2.2.1]; simp only [List.length_cons]; omega)
            hspec.2.2.2.1 hspec.2.2.2.2
        · next idx hscan =>
          rw [hscan] at hspec
          simp only [List.length_cons] at hspec
          obtain ⟨s2, hs2, heq⟩ := Option.map_eq_some'.mp h
          simp only [Prod.mk.injEq] at heq
          obtain ⟨rfl, rfl⟩ := heq
          exact StartEffect.ins i (p0 :: tl) idx s.u_constrain s2 (List.mem_cons_self _ _) hI
            hej hspec.1 (by simp only [List.length_cons]; omega) (Or.inl rfl) hs2

/-- Every call `startEdit( pt, do_del )` that returns has one of the four
effects of `StartEffect` over the occurrences `parts()` of the tiling. -/
theorem startEdit_effect (s s1 : EditableTiling K) (pt : Pt K) (do_del b : Bool)
    (h : startEdit s pt do_del = some (s1, b)) :
    ∃ t, s.tiling = some t ∧ StartEffect s pt do_del t.parts s1 b := by
  unfold startEdit at h
  split at h
  · cases h
  · next t ht => exact ⟨t, ht, startEditLoop_effect pt do_del t.parts s s1 b h⟩

end StartEditTheorems

/-! ## Invariants of the reachable states -/

section InvariantTheorems

variable {K : Type} [LinearOrderedField K]

theorem runOps_induction (P : EditableTiling K → Prop) (allowed : Op K → Prop)
    (hstep : ∀ s op s1, P s → allowed op → runOp s op = some s1 → P s1)
    (ops : List (Op K)) (s0 s : EditableTiling K) (h0 : P s0)
    (hall : ∀ op ∈ ops, allowed op) (hrun : runOps s0 ops = some s) : P s := by
  induction ops generalizing s0 with
  | nil =>
    simp only [runOps, Option.some.injEq] at hrun
    exact hrun ▸ h0
  | cons op rest ih =>
    simp only [runOps] at hrun
    obtain ⟨s1, h1, h2⟩ := Option.bind_eq_some.mp hrun
    exact ih s1 (hstep s0 op s1 h0 (hall op (List.mem_cons_self _ _)) h1)
      (fun o ho => hall o (List.mem_cons_of_mem _ ho)) h2

theorem reachable_induction (P : EditableTiling K → Prop) (edits : Bool)
    (hinit : ∀ (ew eh phys_unit amount : K) (t : IsohedralTiling K)
      (s_pre s0 : EditableTiling K),
      setCurveAmount (EditableTiling.new ew eh phys_unit) amount = some s_pre →
      setType s_pre t = some s0 → P s0)
    (hstep : ∀ s op s1, P s → (edits = true → isEditOp op = true) →
      runOp s op = some s1 → P s1)
    (s : EditableTiling K) (h : Reachable edits s) : P s := by
  obtain ⟨ew, eh, pu, a, t, s_pre, s0, ops, hpre, h0, hall, hrun⟩ := h
  exact runOps_induction P (fun op => edits = true → isEditOp op = true) hstep ops s0 s
    (hinit ew eh pu a t s_pre s0 hpre h0) (fun op hop he => hall he op hop) hrun

theorem setType_fields (s s0 : EditableTiling K) (t : IsohedralTiling K)
    (h : setType s t = some s0) :
    s0.tiling = some t ∧ s0.drag = s.drag ∧
    s0.edges = (List.range t.numEdgeShapes).map (createDefaultEdge t s.curveAmount) ∧
    tileShape t s0.edges = some s0.tile_shape := by
  unfold setType at h
  obtain ⟨s1, h1, rfl⟩ := Option.map_eq_some'.mp h
  have hf := cacheTileShape_fields _ _ h1
  have hc := calcEditorTransform_fields s1
  have hedges : s1.edges =
      (List.range t.numEdgeShapes).map (createDefaultEdge t s.curveAmount) := by
    rw [hf.1]
    simp [buildDefaultEdges]
  have ht : s1.tiling = some t := by
    rw [hf.2.1]
    simp [buildDefaultEdges]
  refine ⟨by rw [hc.2.1, ht], ?_, by rw [hc.1, hedges], ?_⟩
  · rw [hc.2.2.2.2.1, hf.2.2.2.2.1]
    simp [buildDefaultEdges]
  · rw [hc.1, hc.2.2.2.2.2.2.2]
    have := cacheTileShape_outline _ s1 t (by simp [buildDefaultEdges]) h1
    rw [← hf.1] at this
    exact this

theorem createDefaultEdge_ok (t : IsohedralTiling K) (c : K) (idx : Nat) :
    (createDefaultEdge t c idx).head? = some ⟨0, 0⟩ ∧
    (createDefaultEdge t c idx).getLast? = some ⟨1, 0⟩ ∧
    2 ≤ (createDefaultEdge t c idx).length := by
  unfold createDefaultEdge
  simp only [makePoint]
  split_ifs <;> simp

theorem head?_set_of_pos {α : Type} (l : List α) (i : Nat) (x : α) (hi : 1 ≤ i) :
    (l.set i x).head? = l.head? := by
  cases l with
  | nil => rfl
  | cons a tl =>
    obtain ⟨k, rfl⟩ : ∃ k, i = k + 1 := ⟨i - 1, by omega⟩
    rfl

theorem head?_insertIdx_of_pos {α : Type} (l : List α) (i : Nat) (x : α) (hi : 1 ≤ i)
    (hl : l ≠ []) : (l.insertIdx i x).head? = l.head? := by
  cases l with
  | nil => exact absurd rfl hl
  | cons a tl =>
    obtain ⟨k, rfl⟩ : ∃ k, i = k + 1 := ⟨i - 1, by omega⟩
    rfl

theorem head?_eraseIdx_of_pos {α : Type} (l : List α) (i : Nat) (hi : 1 ≤ i) :
    (l.eraseIdx i).head? = l.head? := by
  cases l with
  | nil => rfl
  | cons a tl =>
    obtain ⟨k, rfl⟩ : ∃ k, i = k + 1 := ⟨i - 1, by omega⟩
    rfl

theorem head?_append_of_ne_nil {α : Type} (l l2 : List α) (hl : l ≠ []) :
    (l ++ l2).head? = l.head? := by
  cases l with
  | nil => exact absurd rfl hl
  | cons a tl => rfl

theorem ne_nil_of_two_le {α : Type} (l : List α) (h : 2 ≤ l.length) : l ≠ [] := by
  intro hl
  rw [hl] at h
  simp at h

theorem getLast?_set_of_lt {α : Type} (l : List α) (i : Nat) (x : α) (hi : i + 1 < l.length) :
    (l.set i x).getLast? = l.getLast? := by
  rw [List.getLast?_eq_getElem?, List.getLast?_eq_getElem?, List.length_set, List.getElem?_set]
  rw [if_neg (by omega)]

theorem getLast?_eraseIdx_of_lt {α : Type} (l : List α) (i : Nat) (hi : i + 1 < l.length) :
    (l.eraseIdx i).getLast? = l.getLast? := by
  have hlen : (l.eraseIdx i).length = l.length - 1 := by
    rw [List.length_eraseIdx, if_pos (by omega)]
  rw [List.getLast?_eq_getElem?, List.getLast?_eq_getElem?, hlen, List.getElem?_eraseIdx,
    if_neg (by omega)]
  congr 1
  omega

theorem getLast?_cons_of_ne_nil {α : Type} (a : α) (l : List α) (hl : l ≠ []) :
    (a :: l).getLast? = l.getLast? := by
  cases l with
  | nil => exact absurd rfl hl
  | cons b tl => exact List.getLast?_cons_cons

theorem getLast?_insertIdx_of_lt {α : Type} (l : List α) (i : Nat) (x : α)
    (hi : i < l.length) : (l.insertIdx i x).getLast? = l.getLast? := by
  induction l generalizing i with
  | nil => simp at hi
  | cons a tl ih =>
    cases i with
    | zero => exact List.getLast?_cons_cons
    | succ k =>
      have hk : k < tl.length := by simpa using hi
      have htl : tl ≠ [] := by
        intro h
        rw [h] at hk
        simp at hk
      rw [List.insertIdx_succ_cons, getLast?_cons_of_ne_nil _ _ htl, ← ih k hk]
      apply getLast?_cons_of_ne_nil
      intro h
      have := congrArg List.length h
      rw [List.length_insertIdx _ _ hk.le] at this
      simp at this

/-- The first sample of an edge is its first stored point and the last
sample its last stored point, in both directions of sampling. -/
theorem sampleEdgePoints_ends (e : List (Pt K)) :
    (sampleEdgePoints e false).head? = e.head? ∧
    (sampleEdgePoints e false).getLast? = e.getLast? ∧
    (sampleEdgePoints e true).head? = e.getLast? ∧
    (sampleEdgePoints e true).getLast? = e.head? := by
  have key : (sampleEdgePoints e false).head? = e.head? ∧
      (sampleEdgePoints e false).getLast? = e.getLast? := by
    unfold sampleEdgePoints
    split
    · simp only [sampleCubic, range_seventeen, List.map_cons, List.map_nil,
        Bool.false_eq_true, if_false, cubicPoint]
      constructor
      · simp
      · simp only [List.getLast?_cons_cons, List.getLast?_singleton, Option.some.injEq,
          Pt.mk.injEq]
        norm_num
    · simp
  rw [sampleEdgePoints_true, List.head?_reverse, List.getLast?_reverse]
  exact ⟨key.1, key.2, key.2, key.1⟩

theorem forall_mem_set {α : Type} (P : α → Prop) (l : List α) (n : Nat) (b : α)
    (hl : ∀ a ∈ l, P a) (hb : P b) : ∀ a ∈ l.set n b, P a := by
  intro a ha
  rcases List.mem_or_eq_of_mem_set ha with h | h
  · exact hl a h
  · exact h ▸ hb

theorem edgesOk_of_cache (s s1 : EditableTiling K) (h : cacheTileShape s = some s1)
    (hok : EdgesOk s) : EdgesOk s1 := by
  have hf := cacheTileShape_fields s s1 h
  unfold EdgesOk
  rw [hf.1, hf.2.2.2.2.1]
  exact hok

theorem edgesOk_of_startEffect (s s1 : EditableTiling K) (pt : Pt K) (do_del b : Bool)
    (parts : List (Part K)) (heff : StartEffect s pt do_del parts s1 b) (hok : EdgesOk s) :
    EdgesOk s1 := by
  cases heff with
  | miss u hu => exact hok
  | del i ej idx s2 hi hI hej h1 h2 hdel hs =>
    apply edgesOk_of_cache _ _ hs
    refine ⟨?_, hok.2⟩
    apply forall_mem_set _ _ _ _ hok.1
    have hej' := hok.1 ej (List.getElem?_mem hej)
    refine ⟨by rw [head?_eraseIdx_of_pos _ _ h1]; exact hej'.1, ?_⟩
    rw [List.length_eraseIdx, if_pos (by omega)]
    omega
  | pick i ej idx uc hi hI hej h1 h2 huc hU hdel =>
    refine ⟨hok.1, ?_⟩
    intro d hd
    simp only [Option.some.injEq] at hd
    rw [← hd]
    exact h1
  | ins i ej idx u s2 hi hI hej h1 h2 hu hs =>
    apply edgesOk_of_cache _ _ hs
    constructor
    · apply forall_mem_set _ _ _ _ hok.1
      have hej' := hok.1 ej (List.getElem?_mem hej)
      refine ⟨?_, ?_⟩
      · rw [head?_insertIdx_of_pos _ _ _ h1 (ne_nil_of_two_le _ hej'.2)]
        exact hej'.1
      · rw [List.length_insertIdx _ _ h2.le]
        omega
    · intro d hd
      simp only [Option.some.injEq] at hd
      rw [← hd]
      exact h1

/-- What a call `moveEdit( pt )` that returns did: it wrote the point `npt`
at the recorded target, inside the edge or right after its end, and rebuilt
the outline. -/
theorem moveEdit_effect (s s1 : EditableTiling K) (pt : Pt K)
    (h : moveEdit s pt = some s1) :
    ∃ d ej, s.drag = some d ∧ s.edges[d.drag_edge_shape]? = some ej ∧
      d.drag_vertex ≤ ej.length ∧
      cacheTileShape
        { s with
          delete_timer :=
            if sqrtGt (ptdistSq pt d.down_motion) 10 then false else s.delete_timer,
          edges := s.edges.set d.drag_edge_shape
            (if d.drag_vertex < ej.length then
              ej.set d.drag_vertex
                (if s.u_constrain then { x := 1, y := (mulPt d.drag_T pt).y }
                 else mulPt d.drag_T pt)
             else
              ej ++ [if s.u_constrain then { x := 1, y := (mulPt d.drag_T pt).y }
                     else mulPt d.drag_T pt]) } = some s1 := by
  unfold moveEdit at h
  split at h
  · cases h
  · next d hd =>
    simp only [] at h
    split at h
    · cases h
    · next ej hej =>
      refine ⟨d, ej, hd, hej, ?_⟩
      by_cases h1 : d.drag_vertex < ej.length
      · rw [if_pos h1] at h
        rw [if_pos h1]
        exact ⟨h1.le, h⟩
      · rw [if_neg h1] at h
        rw [if_neg h1]
        by_cases h2 : d.drag_vertex = ej.length
        · rw [if_pos h2] at h
          exact ⟨h2.le, h⟩
        · rw [if_neg h2] at h
          cases h

theorem edgesOk_of_moveEdit (s s1 : EditableTiling K) (pt : Pt K)
    (h : moveEdit s pt = some s1) (hok : EdgesOk s) : EdgesOk s1 := by
  obtain ⟨d, ej, hd, hej, hle, hc⟩ := moveEdit_effect s s1 pt h
  have hv := hok.2 d hd
  have hej' := hok.1 ej (List.getElem?_mem hej)
  apply edgesOk_of_cache _ _ hc
  refine ⟨?_, hok.2⟩
  apply forall_mem_set _ _ _ _ hok.1
  split_ifs
  · exact ⟨by rw [head?_set_of_pos _ _ _ hv]; exact hej'.1,
      by rw [List.length_set]; exact hej'.2⟩
  · exact ⟨by rw [head?_set_of_pos _ _ _ hv]; exact hej'.1,
      by rw [List.length_set]; exact hej'.2⟩
  · refine ⟨?_, ?_⟩
    · rw [head?_append_of_ne_nil _ _ (ne_nil_of_two_le _ hej'.2)]
      exact hej'.1
    · rw [List.length_append]
      omega
  · refine ⟨?_, ?_⟩
    · rw [head?_append_of_ne_nil _ _ (ne_nil_of_two_le _ hej'.2)]
      exact hej'.1
    · rw [List.length_append]
      omega

theorem edgesOk_of_defaults (s s1 : EditableTiling K)
    (h : cacheTileShape (buildDefaultEdges s) = some s1)
    (hd : ∀ d, s.drag = some d → 1 ≤ d.drag_vertex) : EdgesOk (calcEditorTransform s1) := by
  have hf := cacheTileShape_fields _ _ h
  have hc := calcEditorTransform_fields s1
  unfold EdgesOk
  rw [hc.1, hc.2.2.2.2.1, hf.1, hf.2.2.2.2.1]
  constructor
  · intro e he
    unfold buildDefaultEdges at he
    split at he
    · simp at he
    · simp only [List.mem_map] at he
      obtain ⟨i, _, rfl⟩ := he
      exact ⟨(createDefaultEdge_ok _ _ i).1, (createDefaultEdge_ok _ _ i).2.2⟩
  · intro d hd'
    apply hd d
    rw [← hd']
    unfold buildDefaultEdges
    split <;> rfl

theorem edgesOk_init (ew eh phys_unit amount : K) (t : IsohedralTiling K)
    (s_pre s0 : EditableTiling K)
    (hpre : setCurveAmount (EditableTiling.new ew eh phys_unit) amount = some s_pre)
    (h : setType s_pre t = some s0) : EdgesOk s0 := by
  unfold setType at h
  obtain ⟨s1, h1, rfl⟩ := Option.map_eq_some'.mp h
  apply edgesOk_of_defaults _ _ h1
  intro d hd
  simp only [setCurveAmount, EditableTiling.new, Option.some.injEq] at hpre
  rw [← hpre] at hd
  cases hd

theorem edgesOk_step (s s1 : EditableTiling K) (op : Op K) (hok : EdgesOk s)
    (hrun : runOp s op = some s1) : EdgesOk s1 := by
  cases op with
  | startEdit pt do_del =>
    simp only [runOp] at hrun
    obtain ⟨⟨s2, b⟩, h2, rfl⟩ := Option.map_eq_some'.mp hrun
    obtain ⟨t, _, heff⟩ := startEdit_effect s s2 pt do_del b h2
    exact edgesOk_of_startEffect s s2 pt do_del b t.parts heff hok
  | moveEdit pt => exact edgesOk_of_moveEdit s s1 pt hrun hok
  | finishEdit =>
    simp only [runOp, Option.some.injEq] at hrun
    rw [← hrun]
    exact hok
  | setCurveAmount a =>
    simp only [runOp] at hrun
    unfold setCurveAmount at hrun
    simp only [] at hrun
    split at hrun
    · simp only [Option.some.injEq] at hrun
      rw [← hrun]
      exact hok
    · obtain ⟨s2, h2, rfl⟩ := Option.map_eq_some'.mp hrun
      exact edgesOk_of_defaults _ _ h2 hok.2
  | setParams vs =>
    simp only [runOp] at hrun
    unfold setParams at hrun
    split at hrun
    · cases hrun
    · exact edgesOk_of_cache _ _ hrun hok

/-- In every reachable state every stored edge starts at `(0,0)` and has at
least two points, and a recorded drag target is never index 0. -/
theorem reachable_edgesOk (edits : Bool) (s : EditableTiling K) (h : Reachable edits s) :
    EdgesOk s :=
  reachable_induction EdgesOk edits edgesOk_init
    (fun s op s1 hok _ hrun => edgesOk_step s s1 op hok hrun) s h

end InvariantTheorems

/-! ## Cache consistency -/

section CacheConsistency

variable {K : Type} [LinearOrderedField K]

theorem cacheOk_of_cache (s s1 : EditableTiling K) (t : IsohedralTiling K)
    (ht : s.tiling = some t) (h : cacheTileShape s = some s1) : CacheOk s1 := by
  have hf := cacheTileShape_fields s s1 h
  refine ⟨t, by rw [hf.2.1, ht], ?_⟩
  rw [hf.1]
  exact cacheTileShape_outline s s1 t ht h

theorem cacheOk_of_calc (s : EditableTiling K) (h : CacheOk s) :
    CacheOk (calcEditorTransform s) := by
  obtain ⟨t, ht, hs⟩ := h
  have hc := calcEditorTransform_fields s
  refine ⟨t, by rw [hc.2.1, ht], ?_⟩
  unfold getTileShape at hs ⊢
  rw [hc.1, hc.2.2.2.2.2.2.2]
  exact hs

theorem cacheOk_of_startEffect (s s1 : EditableTiling K) (pt : Pt K) (do_del b : Bool)
    (parts : List (Part K)) (heff : StartEffect s pt do_del parts s1 b) (hok : CacheOk s) :
    CacheOk s1 := by
  obtain ⟨t, ht, hs⟩ := hok
  cases heff with
  | miss u hu => exact ⟨t, ht, hs⟩
  | del i ej idx s2 hi hI hej h1 h2 hdel hc =>
    refine cacheOk_of_cache _ _ t ?_ hc
    exact ht
  | pick i ej idx uc hi hI hej h1 h2 huc hU hdel => exact ⟨t, ht, hs⟩
  | ins i ej idx u s2 hi hI hej h1 h2 hu hc =>
    refine cacheOk_of_cache _ _ t ?_ hc
    exact ht

theorem cacheOk_step (s s1 : EditableTiling K) (op : Op K) (hok : CacheOk s)
    (hrun : runOp s op = some s1) : CacheOk s1 := by
  cases op with
  | startEdit pt do_del =>
    simp only [runOp] at hrun
    obtain ⟨⟨s2, b⟩, h2, rfl⟩ := Option.map_eq_some'.mp hrun
    obtain ⟨t, _, heff⟩ := startEdit_effect s s2 pt do_del b h2
    exact cacheOk_of_startEffect s s2 pt do_del b t.parts heff hok
  | moveEdit pt =>
    obtain ⟨t, ht, _⟩ := hok
    obtain ⟨d, ej, _, _, _, hc⟩ := moveEdit_effect s s1 pt hrun
    refine cacheOk_of_cache _ _ t ?_ hc
    exact ht
  | finishEdit =>
    simp only [runOp, Option.some.injEq] at hrun
    rw [← hrun]
    exact hok
  | setCurveAmount a =>
    obtain ⟨t, ht, _⟩ := hok
    simp only [runOp] at hrun
    unfold setCurveAmount at hrun
    simp only [] at hrun
    split at hrun
    · next hnone => rw [ht] at hnone; cases hnone
    · obtain ⟨s2, h2, rfl⟩ := Option.map_eq_some'.mp hrun
      apply cacheOk_of_calc
      apply cacheOk_of_cache _ _ t _ h2
      unfold buildDefaultEdges
      simp only [ht]
  | setParams vs =>
    simp only [runOp] at hrun
    unfold setParams at hrun
    split at hrun
    · cases hrun
    · next t ht => exact cacheOk_of_cache _ _ (t.setParameters vs) rfl hrun

theorem cacheOk_init (ew eh phys_unit amount : K) (t : IsohedralTiling K)
    (s_pre s0 : EditableTiling K)
    (_hpre : setCurveAmount (EditableTiling.new ew eh phys_unit) amount = some s_pre)
    (h : setType s_pre t = some s0) : CacheOk s0 := by
  have hf := setType_fields _ _ _ h
  exact ⟨t, hf.1, hf.2.2.2⟩

theorem tileShapeLoop_later (edges : List (List (Pt K))) (segs : List (Seg K))
    (acc : List (Pt K)) :
    tileShapeLoop edges segs false acc =
      (laterOccurrences edges segs).map fun l => acc ++ l := by
  induction segs generalizing acc with
  | nil => simp [tileShapeLoop, laterOccurrences]
  | cons seg rest ih =>
    simp only [tileShapeLoop, laterOccurrences, occurrenceOutline]
    cases edges[seg.id]? with
    | none => rfl
    | some e =>
      simp only [Bool.false_eq_true, if_false, Option.map_some', Option.some_bind]
      rw [ih]
      cases laterOccurrences edges rest with
      | none => rfl
      | some l => simp [List.map_drop]

/-- The loop of `cacheTileShape` computes the outline that the specification
describes. -/
theorem tileShape_eq_outlineSpec (t : IsohedralTiling K) (edges : List (List (Pt K))) :
    tileShape t edges = outlineSpec edges t.shape := by
  unfold tileShape
  cases t.shape with
  | nil => rfl
  | cons seg rest =>
    simp only [tileShapeLoop, outlineSpec, occurrenceOutline]
    cases edges[seg.id]? with
    | none => rfl
    | some e =>
      simp only [if_true, Option.map_some', Option.some_bind, List.nil_append]
      rw [tileShapeLoop_later]

/-- C4, as amended. Cache consistency: in every state reachable from `setType`
by calls of `setCurveAmount`, `setParams`, `startEdit`, `moveEdit` and
`finishEdit` each of which returns (none throws, and no `moveEdit` writes
beyond the end of its edge), the cached outline returned by `getTileShape()` is the outline that
`cacheTileShape` computes from the current edges and the current list
`shape()` of the tiling, which is: for each occurrence in order, the samples
of `edges[seg.id]` taken with `seg.rev` and mapped through `seg.T`, without
the first sample for every occurrence but the first. -/
theorem cache_consistent (s : EditableTiling K) (h : Reachable false s) :
    ∃ t, s.tiling = some t ∧ tileShape t s.edges = some (getTileShape s) ∧
      outlineSpec s.edges t.shape = some (getTileShape s) := by
  obtain ⟨t, ht, hs⟩ := reachable_induction CacheOk false cacheOk_init
    (fun s op s1 hok _ hrun => cacheOk_step s s1 op hok hrun) s h
  exact ⟨t, ht, hs, by rw [← tileShape_eq_outlineSpec]; exact hs⟩

end CacheConsistency


/-! ## The endpoints of the edges -/

section EndpointTheorems

variable {K : Type} [LinearOrderedField K]

theorem map_set_of_eq {α β : Type} (f : α → β) (l : List α) (n : Nat) (a b : α)
    (ha : l[n]? = some a) (hf : f b = f a) : (l.set n b).map f = l.map f := by
  apply List.ext_getElem?
  intro j
  rw [List.getElem?_map, List.getElem?_map, List.getElem?_set]
  by_cases hj : n = j
  · subst hj
    rw [if_pos rfl, ha]
    have hlt : n < l.length := (List.getElem?_eq_some.mp ha).1
    rw [if_pos hlt]
    simp [hf]
  · rw [if_neg hj]

theorem lastSamples_of_cache (s s1 : EditableTiling K) (h : cacheTileShape s = some s1) :
    lastSamples s1 = lastSamples s := by
  unfold lastSamples
  rw [(cacheTileShape_fields s s1 h).1]

theorem lastSamples_set (s : EditableTiling K) (n : Nat) (e e1 : List (Pt K))
    (he : s.edges[n]? = some e) (hlast : e1.getLast? = e.getLast?) :
    (s.edges.set n e1).map (fun e => (sampleEdgePoints e false).getLast?) = lastSamples s := by
  unfold lastSamples
  apply map_set_of_eq _ _ _ _ _ he
  rw [(sampleEdgePoints_ends e1).2.1, (sampleEdgePoints_ends e).2.1, hlast]

theorem lastSamples_of_startEffect (s s1 : EditableTiling K) (pt : Pt K) (do_del b : Bool)
    (parts : List (Part K)) (heff : StartEffect s pt do_del parts s1 b) :
    lastSamples s1 = lastSamples s := by
  cases heff with
  | miss u hu => rfl
  | del i ej idx s2 hi hI hej h1 h2 hdel hc =>
    rw [lastSamples_of_cache _ _ hc]
    exact lastSamples_set s i.id ej _ hej (getLast?_eraseIdx_of_lt _ _ h2)
  | pick i ej idx uc hi hI hej h1 h2 huc hU hdel => rfl
  | ins i ej idx u s2 hi hI hej h1 h2 hu hc =>
    rw [lastSamples_of_cache _ _ hc]
    exact lastSamples_set s i.id ej _ hej (getLast?_insertIdx_of_lt _ _ _ h2)

theorem lastSamples_of_moveEdit (s s1 : EditableTiling K) (pt : Pt K)
    (h : moveEdit s pt = some s1) (hnot : ¬ movesLast s (Op.moveEdit pt)) :
    lastSamples s1 = lastSamples s := by
  obtain ⟨d, ej, hd, hej, hle, hc⟩ := moveEdit_effect s s1 pt h
  have hlt : d.drag_vertex + 1 < ej.length := by
    by_contra hcon
    exact hnot ⟨d, ej, hd, hej, not_lt.mp hcon⟩
  rw [lastSamples_of_cache _ _ hc]
  apply lastSamples_set s _ ej _ hej
  rw [if_pos (by omega)]
  exact getLast?_set_of_lt _ _ _ hlt

theorem getLast?_set_last {α : Type} (l : List α) (i : Nat) (x : α) (hi : i + 1 = l.length) :
    (l.set i x).getLast? = some x := by
  rw [List.getLast?_eq_getElem?, List.length_set]
  have : l.length - 1 = i := by omega
  rw [this]
  exact List.getElem?_set_self (by omega)

/-- A mirror-constrained `moveEdit` on the last index of an edge stores
`(1, y)` there, `y` being the second coordinate of the pointer mapped through
`drag_T`. -/
theorem moveEdit_constrained_last (s s1 : EditableTiling K) (pt : Pt K) (d : Drag K)
    (ej : List (Pt K)) (h : moveEdit s pt = some s1) (hu : s.u_constrain = true)
    (hd : s.drag = some d) (hej : s.edges[d.drag_edge_shape]? = some ej)
    (hlast : d.drag_vertex + 1 = ej.length) :
    ∃ e1, s1.edges[d.drag_edge_shape]? = some e1 ∧
      (sampleEdgePoints e1 false).getLast? = some ⟨1, (mulPt d.drag_T pt).y⟩ := by
  obtain ⟨d2, ej2, hd2, hej2, _, hc⟩ := moveEdit_effect s s1 pt h
  rw [hd] at hd2
  cases hd2
  rw [hej] at hej2
  cases hej2
  rw [(cacheTileShape_fields _ _ hc).1, if_pos (by omega), if_pos hu]
  refine ⟨_, List.getElem?_set_self (List.getElem?_eq_some.mp hej).1, ?_⟩
  rw [(sampleEdgePoints_ends _).2.1]
  exact getLast?_set_last _ _ _ hlast

/-- C2, as amended. In every state reachable from `setType` by calls of
`startEdit` (inserting, deleting or picking), `moveEdit` and `finishEdit`
each of which returns (none throws, and no `moveEdit` writes beyond the end of
its edge), the first point of `sampleEdgePoints( edge, false )`, which is the last point
of `sampleEdgePoints( edge, true )`, is exactly `(0,0)` for every edge.  The
last point of `sampleEdgePoints( edge, false )` is exactly `(1,0)` in the
state produced by `setType`, and it is left as it is by every `startEdit`, by
`finishEdit` and by every `moveEdit` whose recorded target is below the last
index of its edge; a mirror-constrained `moveEdit` on the last index of an
edge replaces it by `(1, y)`, `y` following the pointer. -/
theorem endpoints_of_reachable (s : EditableTiling K) (h : Reachable true s) :
    (∀ e ∈ s.edges,
      (sampleEdgePoints e false).head? = some ⟨0, 0⟩ ∧
      (sampleEdgePoints e true).getLast? = some ⟨0, 0⟩) ∧
    ((∃ (s_pre : EditableTiling K) (t : IsohedralTiling K), setType s_pre t = some s) →
      ∀ e ∈ s.edges,
        (sampleEdgePoints e false).getLast? = some ⟨1, 0⟩ ∧
        (sampleEdgePoints e true).head? = some ⟨1, 0⟩) ∧
    (∀ (op : Op K) (s1 : EditableTiling K), isEditOp op = true → runOp s op = some s1 →
      ¬ movesLast s op → lastSamples s1 = lastSamples s) ∧
    (∀ (pt : Pt K) (s1 : EditableTiling K) (d : Drag K) (ej : List (Pt K)),
      moveEdit s pt = some s1 → s.u_constrain = true → s.drag = some d →
      s.edges[d.drag_edge_shape]? = some ej → d.drag_vertex + 1 = ej.length →
      ∃ e1, s1.edges[d.drag_edge_shape]? = some e1 ∧
        (sampleEdgePoints e1 false).getLast? = some ⟨1, (mulPt d.drag_T pt).y⟩) := by
  have hok := reachable_edgesOk true s h
  refine ⟨?_, ?_, ?_, fun pt s1 d ej hm hu hd hej hl =>
    moveEdit_constrained_last s s1 pt d ej hm hu hd hej hl⟩
  · intro e he
    rw [(sampleEdgePoints_ends e).1, (sampleEdgePoints_ends e).2.2.2]
    exact ⟨(hok.1 e he).1, (hok.1 e he).1⟩
  · rintro ⟨s_pre, t, h0⟩ e he
    rw [(setType_fields _ _ _ h0).2.2.1, List.mem_map] at he
    obtain ⟨i, _, rfl⟩ := he
    rw [(sampleEdgePoints_ends _).2.1, (sampleEdgePoints_ends _).2.2.1]
    exact ⟨(createDefaultEdge_ok t _ i).2.1, (createDefaultEdge_ok t _ i).2.1⟩
  · intro op s1 hop hrun hnot
    cases op with
    | startEdit pt do_del =>
      simp only [runOp] at hrun
      obtain ⟨⟨s2, b⟩, h2, rfl⟩ := Option.map_eq_some'.mp hrun
      obtain ⟨t, _, heff⟩ := startEdit_effect s s2 pt do_del b h2
      exact lastSamples_of_startEffect s s2 pt do_del b t.parts heff
    | moveEdit pt => exact lastSamples_of_moveEdit s s1 pt hrun hnot
    | finishEdit =>
      simp only [runOp, Option.some.injEq] at hrun
      rw [← hrun]
      rfl
    | setCurveAmount a => simp [isEditOp] at hop
    | setParams vs => simp [isEditOp] at hop

end EndpointTheorems

section ExampleTheorems

theorem reachable_exRun (edits : Bool) (ops : List (Op ℚ))
    (hops : edits = true → ∀ op ∈ ops, isEditOp op = true) (s : EditableTiling ℚ)
    (h : exRun ops = some s) : Reachable edits s := by
  unfold exRun at h
  obtain ⟨s0, h0, hrun⟩ := Option.bind_eq_some.mp h
  refine ⟨250, 250, 20, 0, exTiling, EditableTiling.new 250 250 20, s0, ops, ?_, h0, hops, hrun⟩
  simp [setCurveAmount, EditableTiling.new]

set_option maxRecDepth 100000 in
/-- C2 fails as stated. On the example square, pressing on the end of the `U`
edge (index 3, the stored point `(1,0)`) starts a mirror-constrained drag, and
moving the pointer to `(225,125)` stores `(1, 1/2)` there: the last point of
`sampleEdgePoints( edge, false )` and the first of
`sampleEdgePoints( edge, true )` are `(1, 1/2)`, not `(1,0)`. -/
theorem endpoints_counterexample :
    ∃ s : EditableTiling ℚ,
      exRun [Op.startEdit ⟨225, 225⟩ false, Op.moveEdit ⟨225, 125⟩] = some s ∧
      Reachable true s ∧
      ∃ e, s.edges[0]? = some e ∧
        (sampleEdgePoints e false).getLast? = some ⟨1, 1 / 2⟩ ∧
        (sampleEdgePoints e true).head? = some ⟨1, 1 / 2⟩ ∧
        (sampleEdgePoints e false).getLast? ≠ some ⟨1, 0⟩ := by
  have hrun : (exRun [Op.startEdit ⟨225, 225⟩ false, Op.moveEdit ⟨225, 125⟩]).map
      (fun s => s.edges[0]?) = some (some [⟨0, 0⟩, ⟨0.33, 0⟩, ⟨0.67, 0⟩, ⟨1, 1 / 2⟩]) := by
    with_unfolding_all decide
  obtain ⟨s, hs, he⟩ := Option.map_eq_some'.mp hrun
  refine ⟨s, hs, reachable_exRun true _ (by decide) s hs, _, he, ?_, ?_, ?_⟩
  · with_unfolding_all decide
  · with_unfolding_all decide
  · with_unfolding_all decide

set_option maxRecDepth 100000 in
/-- The example editor after a segment hit on the `S` edge, a move and a
release. -/
theorem endpoints_of_reachable_witness :
    ∃ s : EditableTiling ℚ,
      exRun [Op.startEdit ⟨225, 125⟩ false, Op.moveEdit ⟨200, 125⟩, Op.finishEdit] = some s ∧
      ((∀ e ∈ s.edges,
          (sampleEdgePoints e false).head? = some ⟨0, 0⟩ ∧
          (sampleEdgePoints e true).getLast? = some ⟨0, 0⟩) ∧
        ((∃ (s_pre : EditableTiling ℚ) (t : IsohedralTiling ℚ), setType s_pre t = some s) →
          ∀ e ∈ s.edges,
            (sampleEdgePoints e false).getLast? = some ⟨1, 0⟩ ∧
            (sampleEdgePoints e true).head? = some ⟨1, 0⟩) ∧
        (∀ (op : Op ℚ) (s1 : EditableTiling ℚ), isEditOp op = true → runOp s op = some s1 →
          ¬ movesLast s op → lastSamples s1 = lastSamples s) ∧
        (∀ (pt : Pt ℚ) (s1 : EditableTiling ℚ) (d : Drag ℚ) (ej : List (Pt ℚ)),
          moveEdit s pt = some s1 → s.u_constrain = true → s.drag = some d →
          s.edges[d.drag_edge_shape]? = some ej → d.drag_vertex + 1 = ej.length →
          ∃ e1, s1.edges[d.drag_edge_shape]? = some e1 ∧
            (sampleEdgePoints e1 false).getLast? = some ⟨1, (mulPt d.drag_T pt).y⟩)) := by
  have hsome : (exRun [Op.startEdit ⟨225, 125⟩ false, Op.moveEdit ⟨200, 125⟩,
      Op.finishEdit]).isSome = true := by
    with_unfolding_all decide
  obtain ⟨s, hs⟩ := Option.isSome_iff_exists.mp hsome
  exact ⟨s, hs, endpoints_of_reachable s (reachable_exRun true _ (by decide) s hs)⟩

end ExampleTheorems


/-! ## The number of stored points of an edge -/

section CountTheorems

variable {K : Type} [LinearOrderedField K]

theorem getElem?_set_cases {α : Type} (l : List α) (n i : Nat) (a b : α)
    (hi : l[i]? = some a) :
    (l.set n b)[i]? = some a ∨ (n = i ∧ (l.set n b)[i]? = some b) := by
  rw [List.getElem?_set]
  by_cases h : n = i
  · right
    refine ⟨h, ?_⟩
    rw [if_pos h, if_pos]
    rw [h]
    exact (List.getElem?_eq_some.mp hi).1
  · left
    rw [if_neg h]
    exact hi

/-- A call of `startEdit` changes the number of points of an edge by at most
one. -/
theorem startEffect_length (s s1 : EditableTiling K) (pt : Pt K) (do_del b : Bool)
    (parts : List (Part K)) (heff : StartEffect s pt do_del parts s1 b)
    (i : Nat) (e : List (Pt K)) (he : s.edges[i]? = some e) :
    ∃ e1, s1.edges[i]? = some e1 ∧
      (e1 = e ∨ e1.length = e.length + 1 ∨ e1.length + 1 = e.length) := by
  cases heff with
  | miss u hu => exact ⟨e, he, Or.inl rfl⟩
  | pick j ej idx uc hi hI hej h1 h2 huc hU hdel => exact ⟨e, he, Or.inl rfl⟩
  | del j ej idx s2 hi hI hej h1 h2 hdel hc =>
    rw [(cacheTileShape_fields _ _ hc).1]
    rcases getElem?_set_cases s.edges j.id i e (ej.eraseIdx idx) he with h | ⟨hji, h⟩
    · exact ⟨e, h, Or.inl rfl⟩
    · refine ⟨_, h, Or.inr (Or.inr ?_)⟩
      rw [hji, he] at hej
      cases hej
      rw [List.length_eraseIdx, if_pos (by omega)]
      omega
  | ins j ej idx u s2 hi hI hej h1 h2 hu hc =>
    rw [(cacheTileShape_fields _ _ hc).1]
    rcases getElem?_set_cases s.edges j.id i e
      (ej.insertIdx idx (mulPt (inv (mulMat s.editor_T j.T)) pt)) he with h | ⟨hji, h⟩
    · exact ⟨e, h, Or.inl rfl⟩
    · refine ⟨_, h, Or.inr (Or.inl ?_)⟩
      rw [hji, he] at hej
      cases hej
      rw [List.length_insertIdx _ _ h2.le]

/-- C3, as amended. For every `S` and `U` edge the number of stored interior
control points (the stored points other than the two endpoints) is exactly 2
in the state produced by `buildDefaultEdges`.  A call of `startEdit` changes
the number of points of an edge by at most one (a segment hit inserts a
point, an explicit delete removes one, also on an `S` or `U` edge);
`finishEdit` changes no edge, and a `moveEdit` whose recorded target is a
stored index keeps the number of points of every edge. -/
theorem interior_points_of_symmetric_edge (t : IsohedralTiling K) (i : Nat)
    (h : t.getEdgeShape i = some EdgeShape.S ∨ t.getEdgeShape i = some EdgeShape.U) :
    (∀ (s : EditableTiling K), s.tiling = some t →
      ∃ e, (buildDefaultEdges s).edges[i]? = some e ∧ e.length - 2 = 2) ∧
    (∀ (s s1 : EditableTiling K) (pt : Pt K) (do_del b : Bool) (e : List (Pt K)),
      startEdit s pt do_del = some (s1, b) → s.edges[i]? = some e →
      ∃ e1, s1.edges[i]? = some e1 ∧
        (e1 = e ∨ e1.length = e.length + 1 ∨ e1.length + 1 = e.length)) ∧
    (∀ s : EditableTiling K, (finishEdit s).edges = s.edges) ∧
    (∀ (s s1 : EditableTiling K) (pt : Pt K) (e : List (Pt K)),
      moveEdit s pt = some s1 → s.edges[i]? = some e →
      (∀ d ej, s.drag = some d → s.edges[d.drag_edge_shape]? = some ej →
        d.drag_vertex < ej.length) →
      ∃ e1, s1.edges[i]? = some e1 ∧ e1.length = e.length) := by
  refine ⟨?_, ?_, fun s => rfl, ?_⟩
  · intro s hs
    have hi : i < t.numEdgeShapes := by
      unfold IsohedralTiling.getEdgeShape at h
      unfold IsohedralTiling.numEdgeShapes
      rcases h with h | h <;> exact (List.getElem?_eq_some.mp h).1
    refine ⟨createDefaultEdge t s.curveAmount i, ?_, ?_⟩
    · simp [buildDefaultEdges, hs, List.getElem?_map, List.getElem?_range hi]
    · rcases h with h | h
      · rw [createDefaultEdge_S t _ i h]
        rfl
      · rw [createDefaultEdge_U t _ i h]
        rfl
  · intro s s1 pt do_del b e hstart he
    obtain ⟨t1, _, heff⟩ := startEdit_effect s s1 pt do_del b hstart
    exact startEffect_length s s1 pt do_del b t1.parts heff i e he
  · intro s s1 pt e hmove he hin
    obtain ⟨d, ej, hd, hej, hle, hc⟩ := moveEdit_effect s s1 pt hmove
    rw [(cacheTileShape_fields _ _ hc).1]
    rw [if_pos (hin d ej hd hej)]
    rcases getElem?_set_cases s.edges d.drag_edge_shape i e _ he with h1 | ⟨hji, h1⟩
    · exact ⟨e, h1, rfl⟩
    · refine ⟨_, h1, ?_⟩
      rw [hji, he] at hej
      cases hej
      rw [List.length_set]

/-- The `S` edge, edge 1, of the example classifier. -/
theorem interior_points_of_symmetric_edge_witness :
    (exTiling.getEdgeShape 1 = some EdgeShape.S ∨ exTiling.getEdgeShape 1 = some EdgeShape.U) ∧
    ((∀ (s : EditableTiling ℚ), s.tiling = some exTiling →
        ∃ e, (buildDefaultEdges s).edges[1]? = some e ∧ e.length - 2 = 2) ∧
      (∀ (s s1 : EditableTiling ℚ) (pt : Pt ℚ) (do_del b : Bool) (e : List (Pt ℚ)),
        startEdit s pt do_del = some (s1, b) → s.edges[1]? = some e →
        ∃ e1, s1.edges[1]? = some e1 ∧
          (e1 = e ∨ e1.length = e.length + 1 ∨ e1.length + 1 = e.length)) ∧
      (∀ s : EditableTiling ℚ, (finishEdit s).edges = s.edges) ∧
      (∀ (s s1 : EditableTiling ℚ) (pt : Pt ℚ) (e : List (Pt ℚ)),
        moveEdit s pt = some s1 → s.edges[1]? = some e →
        (∀ d ej, s.drag = some d → s.edges[d.drag_edge_shape]? = some ej →
          d.drag_vertex < ej.length) →
        ∃ e1, s1.edges[1]? = some e1 ∧ e1.length = e.length)) :=
  ⟨Or.inl rfl, interior_points_of_symmetric_edge exTiling 1 (Or.inl rfl)⟩

set_option maxRecDepth 100000 in
/-- C3 fails as stated. On the example square the `S` edge (edge 1) holds two
interior control points, not one, in the state produced by `setType`, and a
press on its middle segment inserts a third. -/
theorem interior_points_counterexample :
    exTiling.getEdgeShape 1 = some EdgeShape.S ∧
    (∃ s : EditableTiling ℚ, exRun [] = some s ∧ Reachable true s ∧
      ∃ e, s.edges[1]? = some e ∧ e.length - 2 = 2) ∧
    (∃ s : EditableTiling ℚ, exRun [Op.startEdit ⟨225, 125⟩ false] = some s ∧
      Reachable true s ∧ ∃ e, s.edges[1]? = some e ∧ e.length - 2 = 3) := by
  refine ⟨rfl, ?_, ?_⟩
  · have hrun : (exRun []).map (fun s => s.edges[1]?.map List.length) = some (some 4) := by
      with_unfolding_all decide
    obtain ⟨s, hs, he⟩ := Option.map_eq_some'.mp hrun
    obtain ⟨e, he1, he2⟩ := Option.map_eq_some'.mp he
    exact ⟨s, hs, reachable_exRun true _ (by decide) s hs, e, he1, by rw [he2]⟩
  · have hrun : (exRun [Op.startEdit ⟨225, 125⟩ false]).map
        (fun s => s.edges[1]?.map List.length) = some (some 5) := by
      with_unfolding_all decide
    obtain ⟨s, hs, he⟩ := Option.map_eq_some'.mp hrun
    obtain ⟨e, he1, he2⟩ := Option.map_eq_some'.mp he
    exact ⟨s, hs, reachable_exRun true _ (by decide) s hs, e, he1, by rw [he2]⟩

end CountTheorems


/-! ## The symmetry of the stored points -/

section SymmetryTheorems

variable {K : Type} [LinearOrderedField K]

theorem createDefaultEdge_pointSymmetric (t : IsohedralTiling K) (c : K) (i : Nat)
    (h : t.getEdgeShape i = some EdgeShape.S) : PointSymmetric (createDefaultEdge t c i) := by
  rw [createDefaultEdge_S t c i h]
  simp only [PointSymmetric, halfTurn, List.reverse_cons, List.reverse_nil, List.nil_append,
    List.cons_append, List.map_cons, List.map_nil, List.cons.injEq, Pt.mk.injEq, and_true]
  norm_num

theorem createDefaultEdge_mirrorSymmetric (t : IsohedralTiling K) (c : K) (i : Nat)
    (h : t.getEdgeShape i = some EdgeShape.U) : MirrorSymmetric (createDefaultEdge t c i) := by
  rw [createDefaultEdge_U t c i h]
  simp only [MirrorSymmetric, mirror, List.reverse_cons, List.reverse_nil, List.nil_append,
    List.cons_append, List.map_cons, List.map_nil, List.cons.injEq, Pt.mk.injEq, and_true]
  norm_num

theorem runOps_finishEdit_edges (n : Nat) (s0 s : EditableTiling K)
    (h : runOps s0 (List.replicate n Op.finishEdit) = some s) : s.edges = s0.edges := by
  induction n generalizing s0 with
  | zero =>
    simp only [List.replicate, runOps, Option.some.injEq] at h
    rw [← h]
  | succ k ih =>
    simp only [List.replicate, runOps, runOp, Option.some_bind] at h
    rw [ih _ h]
    rfl

/-- The default `S` and `U` edges in double precision: the control points as
the literals of the source give them, whatever the curve amount. -/
theorem createDefaultEdge_doubles (t : IsohedralTiling F64) (c : F64) (i : Nat) :
    (t.getEdgeShape i = some EdgeShape.S →
      createDefaultEdge t c i = [⟨0, 0⟩, ⟨0.33, 0.35 * c⟩, ⟨0.67, -(0.35 * c)⟩, ⟨1, 0⟩]) ∧
    (t.getEdgeShape i = some EdgeShape.U →
      createDefaultEdge t c i = [⟨0, 0⟩, ⟨0.33, 0.35 * c⟩, ⟨0.67, 0.35 * c⟩, ⟨1, 0⟩]) := by
  constructor <;> intro h <;> simp [createDefaultEdge, h, makePoint]

set_option maxRecDepth 100000 in
/-- The abscissae of the interior control points of the default `S` and `U`
edges in double precision: `0.33 + 0.67` is 1, while `1 - 0.33` is
`0.6699999999999999`, one unit in the last place below the stored `0.67`, and
`1 - 0.67` is `0.32999999999999996`, one unit below the stored `0.33`; the
end points map onto each other exactly. -/
theorem default_abscissae_doubles :
    (0.33 : F64) + 0.67 = 1 ∧
    (1 : F64) - 0.33 = 0.6699999999999999 ∧ (1 : F64) - 0.33 ≠ 0.67 ∧
    (1 : F64) - 0.67 = 0.32999999999999996 ∧ (1 : F64) - 0.67 ≠ 0.33 ∧
    (1 : F64) - 0 = 1 ∧ (1 : F64) - 1 = 0 ∧ -(0 : F64) = 0 := by
  decide!

/-- C5, as amended. In the state produced by `setType` (on an editor of any
curve amount) and after any number of `finishEdit` calls, every `S` edge is
stored as `(0,0), (0.33, amp), (0.67, -amp), (1,0)` and every `U` edge as
`(0,0), (0.33, amp), (0.67, amp), (1,0)`, with `amp = 0.35 * curveAmount`.
In exact arithmetic the `S` sequence is unchanged by reversing it and mapping
each point `(x,y)` to `(1-x,-y)`, and the `U` sequence by reversing it and
mapping each point `(x,y)` to `(1-x,y)`.  In double precision the default
edges hold the same literals; the end points and the y-coordinates map onto
each other exactly and `0.33 + 0.67` is 1, but `1 - 0.33` is
`0.6699999999999999` and `1 - 0.67` is `0.32999999999999996`, each one unit
in the last place away from the stored `0.67` and `0.33`. -/
theorem default_edges_symmetric (s_pre s0 s : EditableTiling K) (t : IsohedralTiling K)
    (n : Nat) (h0 : setType s_pre t = some s0)
    (hrun : runOps s0 (List.replicate n Op.finishEdit) = some s)
    (i : Nat) (e : List (Pt K)) (he : s.edges[i]? = some e) :
    ((t.getEdgeShape i = some EdgeShape.S →
        e = [⟨0, 0⟩, ⟨0.33, 0.35 * s_pre.curveAmount⟩, ⟨0.67, -(0.35 * s_pre.curveAmount)⟩,
          ⟨1, 0⟩] ∧ PointSymmetric e) ∧
      (t.getEdgeShape i = some EdgeShape.U →
        e = [⟨0, 0⟩, ⟨0.33, 0.35 * s_pre.curveAmount⟩, ⟨0.67, 0.35 * s_pre.curveAmount⟩,
          ⟨1, 0⟩] ∧ MirrorSymmetric e)) ∧
    (∀ (t64 : IsohedralTiling F64) (c : F64) (j : Nat),
      (t64.getEdgeShape j = some EdgeShape.S →
        createDefaultEdge t64 c j =
          [⟨0, 0⟩, ⟨0.33, 0.35 * c⟩, ⟨0.67, -(0.35 * c)⟩, ⟨1, 0⟩]) ∧
      (t64.getEdgeShape j = some EdgeShape.U →
        createDefaultEdge t64 c j =
          [⟨0, 0⟩, ⟨0.33, 0.35 * c⟩, ⟨0.67, 0.35 * c⟩, ⟨1, 0⟩])) ∧
    ((0.33 : F64) + 0.67 = 1 ∧
      (1 : F64) - 0.33 = 0.6699999999999999 ∧ (1 : F64) - 0.33 ≠ 0.67 ∧
      (1 : F64) - 0.67 = 0.32999999999999996 ∧ (1 : F64) - 0.67 ≠ 0.33 ∧
      (1 : F64) - 0 = 1 ∧ (1 : F64) - 1 = 0 ∧ -(0 : F64) = 0) := by
  refine ⟨?_, createDefaultEdge_doubles, default_abscissae_doubles⟩
  rw [runOps_finishEdit_edges n s0 s hrun, (setType_fields _ _ _ h0).2.2.1,
    List.getElem?_map] at he
  obtain ⟨j, hj, rfl⟩ := Option.map_eq_some'.mp he
  have hji : j = i := by
    have := List.getElem?_eq_some.mp hj
    obtain ⟨hlt, hval⟩ := this
    rw [List.getElem_range] at hval
    exact hval.symm
  subst hji
  exact ⟨fun h => ⟨createDefaultEdge_S t _ j h, createDefaultEdge_pointSymmetric t _ j h⟩,
    fun h => ⟨createDefaultEdge_U t _ j h, createDefaultEdge_mirrorSymmetric t _ j h⟩⟩

set_option maxRecDepth 100000 in
/-- The `S` edge of the example classifier after `setType` at curve amount 1
and two `finishEdit` calls, in exact arithmetic. -/
theorem default_edges_symmetric_witness :
    ∃ s0 s : EditableTiling ℚ,
      setType { (EditableTiling.new 250 250 20 : EditableTiling ℚ) with curveAmount := 1 }
        exTiling = some s0 ∧
      runOps s0 (List.replicate 2 Op.finishEdit) = some s ∧
      s.edges[1]? = some [⟨0, 0⟩, ⟨0.33, 0.35⟩, ⟨0.67, -0.35⟩, ⟨1, 0⟩] ∧
      exTiling.getEdgeShape 1 = some EdgeShape.S ∧
      ([⟨0, 0⟩, ⟨0.33, 0.35⟩, ⟨0.67, -0.35⟩, ⟨1, 0⟩] : List (Pt ℚ)) =
        [⟨0, 0⟩, ⟨0.33, 0.35 * 1⟩, ⟨0.67, -(0.35 * 1)⟩, ⟨1, 0⟩] ∧
      PointSymmetric ([⟨0, 0⟩, ⟨0.33, 0.35⟩, ⟨0.67, -0.35⟩, ⟨1, 0⟩] : List (Pt ℚ)) ∧
      createDefaultEdge exTiling64 1 1 = [⟨0, 0⟩, ⟨0.33, 0.35⟩, ⟨0.67, -0.35⟩, ⟨1, 0⟩] := by
  have hsome : ((setType
      { (EditableTiling.new 250 250 20 : EditableTiling ℚ) with curveAmount := 1 }
      exTiling).map (fun s0 => s0.edges[1]?)) =
      some (some [⟨0, 0⟩, ⟨0.33, 0.35⟩, ⟨0.67, -0.35⟩, ⟨1, 0⟩]) := by
    decide!
  obtain ⟨s0, h0, he⟩ := Option.map_eq_some'.mp hsome
  have hrun : runOps s0 (List.replicate 2 Op.finishEdit) =
      some (finishEdit (finishEdit s0)) := rfl
  have he2 : (finishEdit (finishEdit s0)).edges[1]? =
      some [⟨0, 0⟩, ⟨0.33, 0.35⟩, ⟨0.67, -0.35⟩, ⟨1, 0⟩] := he
  have hthm := default_edges_symmetric _ s0 _ exTiling 2 h0 hrun 1 _ he2
  exact ⟨s0, finishEdit (finishEdit s0), h0, hrun, he2, rfl, (hthm.1.1 rfl).1, (hthm.1.1 rfl).2,
    by decide!⟩

set_option maxRecDepth 100000 in
/-- C5 fails as stated. On the example square, pressing on the first interior
control point of the `S` edge (edge 1) and moving the pointer to `(205,159)`
stores `(0.33, 0.1)` there and leaves the other interior point at `(0.67, 0)`:
the stored sequence is no longer its own image under reversal and
`(x,y) ↦ (1-x,-y)`. -/
theorem symmetry_counterexample :
    exTiling.getEdgeShape 1 = some EdgeShape.S ∧
    ∃ s : EditableTiling ℚ,
      exRun [Op.startEdit ⟨225, 159⟩ false, Op.moveEdit ⟨205, 159⟩] = some s ∧
      Reachable true s ∧
      s.edges[1]? = some [⟨0, 0⟩, ⟨0.33, 0.1⟩, ⟨0.67, 0⟩, ⟨1, 0⟩] ∧
      ¬ PointSymmetric ([⟨0, 0⟩, ⟨0.33, 0.1⟩, ⟨0.67, 0⟩, ⟨1, 0⟩] : List (Pt ℚ)) := by
  refine ⟨rfl, ?_⟩
  have hrun : (exRun [Op.startEdit ⟨225, 159⟩ false, Op.moveEdit ⟨205, 159⟩]).map
      (fun s => s.edges[1]?) = some (some [⟨0, 0⟩, ⟨0.33, 0.1⟩, ⟨0.67, 0⟩, ⟨1, 0⟩]) := by
    with_unfolding_all decide
  obtain ⟨s, hs, he⟩ := Option.map_eq_some'.mp hrun
  refine ⟨s, hs, reachable_exRun true _ (by decide) s hs, he, ?_⟩
  unfold PointSymmetric
  with_unfolding_all decide

end SymmetryTheorems

section CacheWitness

set_option maxRecDepth 100000 in
/-- The example editor after `setCurveAmount( 1 )`, `setParams( [] )`, a
segment hit on the `S` edge, a move and a release. -/
theorem cache_consistent_witness :
    ∃ s : EditableTiling ℚ,
      exRun [Op.setCurveAmount 1, Op.setParams [], Op.startEdit ⟨225, 125⟩ false,
        Op.moveEdit ⟨200, 125⟩, Op.finishEdit] = some s ∧
      ∃ t, s.tiling = some t ∧ tileShape t s.edges = some (getTileShape s) ∧
        outlineSpec s.edges t.shape = some (getTileShape s) := by
  have hsome : (exRun [Op.setCurveAmount 1, Op.setParams [], Op.startEdit ⟨225, 125⟩ false,
      Op.moveEdit ⟨200, 125⟩, Op.finishEdit]).isSome = true := by
    with_unfolding_all decide
  obtain ⟨s, hs⟩ := Option.isSome_iff_exists.mp hsome
  exact ⟨s, hs, cache_consistent s (reachable_exRun false _ (by decide) s hs)⟩

end CacheWitness


/-! ## The occurrence that `startEdit` stops at -/

section OccurrenceTheorems

variable {K : Type} [LinearOrderedField K]

/-- The scan of an occurrence does not read `u_constrain`. -/
theorem partScan_u_constrain (s : EditableTiling K) (u : Bool) (pt : Pt K) (do_del : Bool)
    (i : Part K) : partScan { s with u_constrain := u } pt do_del i = partScan s pt do_del i :=
  rfl

theorem passes_u_constrain (s : EditableTiling K) (u : Bool) (pt : Pt K) (do_del : Bool)
    (i : Part K) : passes { s with u_constrain := u } pt do_del i ↔ passes s pt do_del i :=
  Iff.rfl

/-- The loop of `startEdit` at an occurrence whose scan is `r`. -/
theorem startEditLoop_cons (s : EditableTiling K) (pt : Pt K) (do_del : Bool) (i : Part K)
    (rest : List (Part K)) (r : Scan) (h : partScan s pt do_del i = some r) :
    startEditLoop s pt do_del (i :: rest) =
      match r with
      | Scan.done => startEditLoop s pt do_del rest
      | Scan.brk => startEditLoop { s with u_constrain := false } pt do_del rest
      | Scan.del idx =>
        (cacheTileShape
          { s with u_constrain := false,
                   edges := s.edges.set i.id ((s.edges[i.id]?.getD []).eraseIdx idx) }).map
          fun s1 => (s1, false)
      | Scan.pick idx uc =>
        some ({ s with
          u_constrain := uc,
          drag := some { drag_edge_shape := i.id, drag_vertex := idx,
                         drag_T := inv (mulMat s.editor_T i.T), down_motion := pt },
          delete_timer := if uc then s.delete_timer else true }, true)
      | Scan.ins idx =>
        (cacheTileShape
          { s with
            drag := some { drag_edge_shape := i.id, drag_vertex := idx,
                           drag_T := inv (mulMat s.editor_T i.T), down_motion := pt },
            edges := s.edges.set i.id
              ((s.edges[i.id]?.getD []).insertIdx idx
                (mulPt (inv (mulMat s.editor_T i.T)) pt)) }).map
          fun s1 => (s1, true) := by
  unfold partScan at h
  rw [startEditLoop]
  by_cases hI : i.shape = EdgeShape.I
  · rw [if_pos hI] at h
    rw [if_pos hI]
    cases h
    rfl
  · rw [if_neg hI] at h
    rw [if_neg hI]
    cases hej : s.edges[i.id]? with
    | none => rw [hej] at h; cases h
    | some ej =>
      cases ej with
      | nil => rw [hej] at h; cases h
      | cons p0 tl =>
        rw [hej] at h
        simp only [Option.some.injEq] at h
        simp only [h, Option.getD_some]
        cases r <;> rfl

/-- The loop of `startEdit` goes past the occurrences that it passes: it
continues with the following ones, `u_constrain` cleared or not. -/
theorem startEditLoop_append (pt : Pt K) (do_del : Bool) (pre rest : List (Part K))
    (s : EditableTiling K) (hpre : ∀ j ∈ pre, passes s pt do_del j) :
    ∃ u, (u = s.u_constrain ∨ u = false) ∧
      startEditLoop s pt do_del (pre ++ rest) =
        startEditLoop { s with u_constrain := u } pt do_del rest := by
  induction pre generalizing s with
  | nil => exact ⟨s.u_constrain, Or.inl rfl, rfl⟩
  | cons j pre ih =>
    have hj := hpre j (List.mem_cons_self _ _)
    have hrest : ∀ k ∈ pre, passes s pt do_del k :=
      fun k hk => hpre k (List.mem_cons_of_mem _ hk)
    rcases hj with hj | hj
    · obtain ⟨u, hu, he⟩ := ih s hrest
      refine ⟨u, hu, ?_⟩
      rw [List.cons_append, startEditLoop_cons s pt do_del j _ _ hj]
      exact he
    · obtain ⟨u, hu, he⟩ := ih { s with u_constrain := false } hrest
      refine ⟨u, ?_, ?_⟩
      · rcases hu with hu | hu
        · right; exact hu
        · right; exact hu
      · rw [List.cons_append, startEditLoop_cons s pt do_del j _ _ hj]
        exact he

/-- A scan that finds no hit in the points `l1` goes on with the points after
them. -/
theorem scanEdge_append_done (phys_unit : K) (T : Xform K) (pt : Pt K) (do_del : Bool)
    (shp : EdgeShape) (second : Bool) (n : Nat) (l1 l2 : List (Pt K)) (idx : Nat) (P : Pt K)
    (h : scanEdge phys_unit T pt do_del shp second n idx P l1 = Scan.done) :
    scanEdge phys_unit T pt do_del shp second n idx P (l1 ++ l2) =
      scanEdge phys_unit T pt do_del shp second n (idx + l1.length)
        ((l1.getLast?.map (mulPt T)).getD P) l2 := by
  induction l1 generalizing idx P with
  | nil => rfl
  | cons q l1 ih =>
    simp only [scanEdge] at h
    simp only [List.cons_append, scanEdge]
    split_ifs at h with h1 h2 h3 h4 h5
    rw [if_neg h1, if_neg h5]
    have hstep := ih (idx + 1) (mulPt T q) h
    have hidx : idx + 1 + l1.length = idx + (q :: l1).length := by
      simp only [List.length_cons]; omega
    rw [hidx] at hstep
    have hP : (l1.getLast?.map (mulPt T)).getD (mulPt T q) =
        ((q :: l1).getLast?.map (mulPt T)).getD P := by
      cases l1 with
      | nil => rfl
      | cons q2 l3 => rw [List.getLast?_cons_cons]; rfl
    rw [hP] at hstep
    exact hstep

/-- The vertex test at the head of the scanned points. -/
theorem scanEdge_vertex (phys_unit : K) (T : Xform K) (pt : Pt K) (do_del : Bool)
    (shp : EdgeShape) (second : Bool) (n : Nat) (q : Pt K) (rest : List (Pt K)) (idx : Nat)
    (P : Pt K) (h : sqrtLt (ptdistSq (mulPt T q) pt) (0.5 * phys_unit)) :
    scanEdge phys_unit T pt do_del shp second n idx P (q :: rest) =
      if idx = n - 1 then
        if shp = EdgeShape.U ∧ second = false then Scan.pick idx true else Scan.brk
      else if do_del then Scan.del idx
      else Scan.pick idx false := by
  simp only [scanEdge]
  rw [if_pos h]

/-- A point is within every positive radius of itself. -/
theorem sqrtLt_self (p : Pt K) (r : K) (hr : 0 < r) : sqrtLt (ptdistSq p p) r := by
  refine ⟨hr, ?_⟩
  have : ptdistSq p p = 0 := by simp [ptdistSq, sub, dot]
  rw [this]
  exact mul_pos hr hr

theorem take_append_getElem_drop {α : Type} (l : List α) (k : Nat) (q : α)
    (h : l[k]? = some q) : l.take k ++ q :: l.drop (k + 1) = l := by
  obtain ⟨hlt, hq⟩ := List.getElem?_eq_some.mp h
  rw [← hq, List.getElem_cons_drop, List.take_append_drop]

/-- A scan that ends with a hit was made on an edge that is not an `I` edge
and has a first point. -/
theorem partScan_hit (s : EditableTiling K) (pt : Pt K) (do_del : Bool) (i : Part K)
    (r : Scan) (h : partScan s pt do_del i = some r) (hr : r ≠ Scan.done) :
    i.shape ≠ EdgeShape.I ∧ ∃ p0 tl, s.edges[i.id]? = some (p0 :: tl) ∧
      r = scanEdge s.phys_unit (mulMat s.editor_T i.T) pt do_del i.shape i.second
        (p0 :: tl).length 1 (mulPt (mulMat s.editor_T i.T) p0) tl := by
  unfold partScan at h
  by_cases hI : i.shape = EdgeShape.I
  · rw [if_pos hI] at h
    cases h
    exact absurd rfl hr
  · rw [if_neg hI] at h
    refine ⟨hI, ?_⟩
    cases hej : s.edges[i.id]? with
    | none => rw [hej] at h; cases h
    | some ej =>
      cases ej with
      | nil => rw [hej] at h; cases h
      | cons p0 tl =>
        rw [hej] at h
        simp only [Option.some.injEq] at h
        exact ⟨p0, tl, rfl, h.symm⟩

theorem getElem?_set_self_of_some {α : Type} (l : List α) (n : Nat) (a b : α)
    (h : l[n]? = some a) : (l.set n b)[n]? = some b :=
  List.getElem?_set_self (List.getElem?_eq_some.mp h).1

theorem getElem?_set_of_ne {α : Type} (l : List α) (n j : Nat) (b : α) (h : j ≠ n) :
    (l.set n b)[j]? = l[j]? :=
  List.getElem?_set_ne (fun e => h e.symm)

/-- C11. Segment-hit insertion: when `startEdit( pt )` ends in the
segment-hit branch for the segment ending at index `idx` of the edge `id` of
an occurrence (the occurrences before it are passed, the scan of this one
ends with `Scan.ins idx`), the call returns `true`, the new sequence of edge
`id` is the old one with exactly one point inserted at position `idx` (one
point more, and removing the point at `idx` gives the old sequence back),
every other edge is unchanged, and the recorded drag target is `(id, idx)`,
the inserted point. -/
theorem segment_hit_inserts (s : EditableTiling K) (t : IsohedralTiling K) (pt : Pt K)
    (do_del : Bool) (pre rest : List (Part K)) (i : Part K) (ej : List (Pt K)) (idx : Nat)
    (ht : s.tiling = some t) (hparts : t.parts = pre ++ i :: rest)
    (hpre : ∀ j ∈ pre, passes s pt do_del j)
    (hscan : partScan s pt do_del i = some (Scan.ins idx))
    (hej : s.edges[i.id]? = some ej)
    (hshape : ∀ seg ∈ t.shape, seg.id < s.edges.length) :
    ∃ s1, startEdit s pt do_del = some (s1, true) ∧
      s1.edges[i.id]? =
        some (ej.insertIdx idx (mulPt (inv (mulMat s.editor_T i.T)) pt)) ∧
      (ej.insertIdx idx (mulPt (inv (mulMat s.editor_T i.T)) pt)).length = ej.length + 1 ∧
      (ej.insertIdx idx (mulPt (inv (mulMat s.editor_T i.T)) pt)).eraseIdx idx = ej ∧
      (ej.insertIdx idx (mulPt (inv (mulMat s.editor_T i.T)) pt))[idx]? =
        some (mulPt (inv (mulMat s.editor_T i.T)) pt) ∧
      s1.edges.length = s.edges.length ∧
      (∀ j, j ≠ i.id → s1.edges[j]? = s.edges[j]?) ∧
      s1.drag = some { drag_edge_shape := i.id, drag_vertex := idx,
                       drag_T := inv (mulMat s.editor_T i.T), down_motion := pt } := by
  obtain ⟨_, p0, tl, hej2, hr⟩ := partScan_hit s pt do_del i _ hscan (by simp)
  rw [hej] at hej2
  cases hej2
  have hspec := scanEdge_spec s.phys_unit (mulMat s.editor_T i.T) pt do_del i.shape i.second
    (p0 :: tl).length tl 1 (mulPt (mulMat s.editor_T i.T) p0)
  rw [← hr] at hspec
  simp only [] at hspec
  have hidx : idx ≤ (p0 :: tl).length := by
    simp only [List.length_cons]; omega
  obtain ⟨u, hu, hloop⟩ := startEditLoop_append pt do_del pre (i :: rest) s hpre
  have hscan2 : partScan { s with u_constrain := u } pt do_del i = some (Scan.ins idx) := hscan
  rw [startEditLoop_cons _ pt do_del i rest _ hscan2] at hloop
  simp only [] at hloop
  obtain ⟨s1, hs1⟩ := cacheTileShape_isSome
    { s with
      u_constrain := u,
      drag := some { drag_edge_shape := i.id, drag_vertex := idx,
                     drag_T := inv (mulMat s.editor_T i.T), down_motion := pt },
      edges := s.edges.set i.id
        ((s.edges[i.id]?.getD []).insertIdx idx
          (mulPt (inv (mulMat s.editor_T i.T)) pt)) } t ht
    (by simp only [List.length_set]; exact hshape)
  have hf := cacheTileShape_fields _ _ hs1
  refine ⟨s1, ?_, ?_, List.length_insertIdx _ _ hidx, List.eraseIdx_insertIdx _ _, ?_, ?_, ?_, ?_⟩
  · unfold startEdit
    rw [ht]
    simp only []
    rw [hparts, hloop, hs1]
    rfl
  · rw [hf.1]
    simp only [hej, Option.getD_some]
    exact getElem?_set_self_of_some _ _ _ _ hej
  · rw [List.getElem?_eq_some]
    exact ⟨by rw [List.length_insertIdx _ _ hidx]; omega, List.getElem_insertIdx_self _ _ _ hidx⟩
  · rw [hf.1]
    simp only [List.length_set]
  · intro j hj
    rw [hf.1]
    exact getElem?_set_of_ne _ _ _ _ hj
  · rw [hf.2.2.2.2.1]

/-- C16. Explicit delete: when `startEdit( pt, true )` reaches a vertex hit on
a non-terminal index `idx` of the edge `id` of an occurrence (the occurrences
before it are passed, the scan of this one ends with `Scan.del idx`), the
call returns `false`, `idx` is neither the first nor the last index, the new
sequence of edge `id` is the old one with exactly the point at `idx` removed
(first and last point kept), every other edge is unchanged, the cached
outline is the one rebuilt from the new edges, and no drag starts: the drag
fields and the deletion timer are left as they were. -/
theorem explicit_delete_removes (s : EditableTiling K) (t : IsohedralTiling K) (pt : Pt K)
    (pre rest : List (Part K)) (i : Part K) (ej : List (Pt K)) (idx : Nat)
    (ht : s.tiling = some t) (hparts : t.parts = pre ++ i :: rest)
    (hpre : ∀ j ∈ pre, passes s pt true j)
    (hscan : partScan s pt true i = some (Scan.del idx))
    (hej : s.edges[i.id]? = some ej)
    (hshape : ∀ seg ∈ t.shape, seg.id < s.edges.length) :
    ∃ s1, startEdit s pt true = some (s1, false) ∧
      (1 ≤ idx ∧ idx + 1 < ej.length) ∧
      s1.edges[i.id]? = some (ej.eraseIdx idx) ∧
      (ej.eraseIdx idx).length + 1 = ej.length ∧
      (ej.eraseIdx idx).head? = ej.head? ∧ (ej.eraseIdx idx).getLast? = ej.getLast? ∧
      s1.edges.length = s.edges.length ∧
      (∀ j, j ≠ i.id → s1.edges[j]? = s.edges[j]?) ∧
      tileShape t s1.edges = some (getTileShape s1) ∧
      s1.drag = s.drag ∧ s1.delete_timer = s.delete_timer := by
  obtain ⟨_, p0, tl, hej2, hr⟩ := partScan_hit s pt true i _ hscan (by simp)
  rw [hej] at hej2
  cases hej2
  have hspec := scanEdge_spec s.phys_unit (mulMat s.editor_T i.T) pt true i.shape i.second
    (p0 :: tl).length tl 1 (mulPt (mulMat s.editor_T i.T) p0)
  rw [← hr] at hspec
  simp only [] at hspec
  have hidx : 1 ≤ idx ∧ idx + 1 < (p0 :: tl).length := by
    simp only [List.length_cons] at hspec ⊢
    omega
  obtain ⟨u, hu, hloop⟩ := startEditLoop_append pt true pre (i :: rest) s hpre
  have hscan2 : partScan { s with u_constrain := u } pt true i = some (Scan.del idx) := hscan
  rw [startEditLoop_cons _ pt true i rest _ hscan2] at hloop
  simp only [] at hloop
  obtain ⟨s1, hs1⟩ := cacheTileShape_isSome
    { s with
      u_constrain := false,
      edges := s.edges.set i.id ((s.edges[i.id]?.getD []).eraseIdx idx) } t ht
    (by simp only [List.length_set]; exact hshape)
  have hf := cacheTileShape_fields _ _ hs1
  have hout := cacheTileShape_outline _ s1 t (by exact ht) hs1
  refine ⟨s1, ?_, hidx, ?_, ?_, head?_eraseIdx_of_pos _ _ hidx.1,
    getLast?_eraseIdx_of_lt _ _ hidx.2, ?_, ?_, ?_, ?_, ?_⟩
  · unfold startEdit
    rw [ht]
    simp only []
    rw [hparts, hloop]
    exact congrArg (Option.map fun s1 => (s1, false)) hs1
  · rw [hf.1]
    simp only [hej, Option.getD_some]
    exact getElem?_set_self_of_some _ _ _ _ hej
  · rw [List.length_eraseIdx, if_pos (by omega)]
    omega
  · rw [hf.1]
    simp only [List.length_set]
  · intro j hj
    rw [hf.1]
    exact getElem?_set_of_ne _ _ _ _ hj
  · rw [hf.1]
    exact hout
  · rw [hf.2.2.2.2.1]
  · rw [hf.2.2.2.2.2.1]

theorem startEdit_eq_loop (s : EditableTiling K) (t : IsohedralTiling K) (pt : Pt K)
    (do_del : Bool) (ht : s.tiling = some t) :
    startEdit s pt do_del = startEditLoop s pt do_del t.parts := by
  unfold startEdit
  rw [ht]

/-- The result of `startEdit` when the occurrences before `i` are passed and
the scan of `i` ends with a vertex hit that starts a drag. -/
theorem startEdit_pick (s : EditableTiling K) (t : IsohedralTiling K) (pt : Pt K)
    (do_del : Bool) (pre rest : List (Part K)) (i : Part K) (idx : Nat) (uc : Bool)
    (ht : s.tiling = some t) (hparts : t.parts = pre ++ i :: rest)
    (hpre : ∀ j ∈ pre, passes s pt do_del j)
    (hscan : partScan s pt do_del i = some (Scan.pick idx uc)) :
    startEdit s pt do_del =
      some ({ s with
        u_constrain := uc,
        drag := some { drag_edge_shape := i.id, drag_vertex := idx,
                       drag_T := inv (mulMat s.editor_T i.T), down_motion := pt },
        delete_timer := if uc then s.delete_timer else true }, true) := by
  obtain ⟨u, hu, hloop⟩ := startEditLoop_append pt do_del pre (i :: rest) s hpre
  have hscan2 : partScan { s with u_constrain := u } pt do_del i =
      some (Scan.pick idx uc) := hscan
  rw [startEditLoop_cons _ pt do_del i rest _ hscan2] at hloop
  simp only [] at hloop
  rw [startEdit_eq_loop s t pt do_del ht, hparts, hloop]

/-- The scan of an occurrence whose points before index `k` give no hit and
whose point `k` is within the pick radius. -/
theorem partScan_vertex (s : EditableTiling K) (pt : Pt K) (do_del : Bool) (i : Part K)
    (p0 q : Pt K) (tl : List (Pt K)) (k : Nat)
    (hI : i.shape ≠ EdgeShape.I) (hej : s.edges[i.id]? = some (p0 :: tl))
    (hk : 1 ≤ k) (hq : (p0 :: tl)[k]? = some q)
    (hnear : sqrtLt (ptdistSq (mulPt (mulMat s.editor_T i.T) q) pt) (0.5 * s.phys_unit))
    (hbefore : scanEdge s.phys_unit (mulMat s.editor_T i.T) pt do_del i.shape i.second
      (p0 :: tl).length 1 (mulPt (mulMat s.editor_T i.T) p0) (tl.take (k - 1)) = Scan.done) :
    partScan s pt do_del i = some
      (if k = (p0 :: tl).length - 1 then
        if i.shape = EdgeShape.U ∧ i.second = false then Scan.pick k true else Scan.brk
      else if do_del then Scan.del k
      else Scan.pick k false) := by
  obtain ⟨m, rfl⟩ : ∃ m, k = m + 1 := ⟨k - 1, by omega⟩
  have hq2 : tl[m]? = some q := by simpa using hq
  have hm : m < tl.length := (List.getElem?_eq_some.mp hq2).1
  have hsplit := take_append_getElem_drop tl m q hq2
  simp only [Nat.add_sub_cancel] at hbefore
  unfold partScan
  rw [if_neg hI, hej]
  simp only [Option.some.injEq]
  have h1 := scanEdge_append_done s.phys_unit (mulMat s.editor_T i.T) pt do_del i.shape
    i.second (p0 :: tl).length (tl.take m) (q :: tl.drop (m + 1)) 1
    (mulPt (mulMat s.editor_T i.T) p0) hbefore
  rw [hsplit] at h1
  have hlen : 1 + (tl.take m).length = m + 1 := by
    rw [List.length_take, min_eq_left hm.le]
    omega
  rw [h1, scanEdge_vertex _ _ _ _ _ _ _ _ _ _ _ hnear, hlen]

/-- C13, as amended. Hit-test determinism: for a configuration with
`phys_unit > 0` and an interior control point at index `k` of a non-`I` edge
of an occurrence, if `pt` is exactly the image of that control point under
`mul( editor_T, i.T )`, and the scan reaches it (the occurrences before this
one are passed and the indices before `k` of this one give no hit), then
`startEdit( pt )` returns `true` with drag target `(id, k)` and changes no
edge: at index `k` the control point is selected, not the segment that ends
there. -/
theorem vertex_hit_selects (s : EditableTiling K) (t : IsohedralTiling K)
    (pre rest : List (Part K)) (i : Part K) (p0 q : Pt K) (tl : List (Pt K)) (k : Nat)
    (ht : s.tiling = some t) (hparts : t.parts = pre ++ i :: rest)
    (hpu : 0 < s.phys_unit) (hI : i.shape ≠ EdgeShape.I)
    (hej : s.edges[i.id]? = some (p0 :: tl))
    (hk1 : 1 ≤ k) (hk2 : k + 1 < (p0 :: tl).length) (hq : (p0 :: tl)[k]? = some q)
    (hpre : ∀ j ∈ pre, passes s (mulPt (mulMat s.editor_T i.T) q) false j)
    (hbefore : scanEdge s.phys_unit (mulMat s.editor_T i.T) (mulPt (mulMat s.editor_T i.T) q)
      false i.shape i.second (p0 :: tl).length 1 (mulPt (mulMat s.editor_T i.T) p0)
      (tl.take (k - 1)) = Scan.done) :
    ∃ s1, startEdit s (mulPt (mulMat s.editor_T i.T) q) false = some (s1, true) ∧
      s1.drag = some { drag_edge_shape := i.id, drag_vertex := k,
                       drag_T := inv (mulMat s.editor_T i.T),
                       down_motion := mulPt (mulMat s.editor_T i.T) q } ∧
      s1.edges = s.edges ∧ s1.u_constrain = false := by
  have hnear : sqrtLt (ptdistSq (mulPt (mulMat s.editor_T i.T) q)
      (mulPt (mulMat s.editor_T i.T) q)) (0.5 * s.phys_unit) :=
    sqrtLt_self _ _ (by positivity)
  have hscan := partScan_vertex s _ false i p0 q tl k hI hej hk1 hq hnear hbefore
  rw [if_neg (by omega)] at hscan
  simp only [Bool.false_eq_true, if_false] at hscan
  exact ⟨_, startEdit_pick s t _ false pre rest i k false ht hparts hpre hscan, rfl, rfl, rfl⟩

/-- C15, as amended. Terminal-point rejection: if the press point is within
the pick radius of the transformed last stored point of an occurrence that is
not a first occurrence of a `U` edge, and the scan found no hit before
reaching that point, then the scan of this occurrence ends with the `break`:
`u_constrain` is cleared and `startEdit` goes on with the occurrences that
follow.  If all of those are passed it returns `false`, no edge is modified
and no drag target is recorded. -/
theorem terminal_hit_breaks (s : EditableTiling K) (t : IsohedralTiling K) (pt : Pt K)
    (do_del : Bool) (pre rest : List (Part K)) (i : Part K) (p0 q : Pt K) (tl : List (Pt K))
    (ht : s.tiling = some t) (hparts : t.parts = pre ++ i :: rest)
    (hpre : ∀ j ∈ pre, passes s pt do_del j)
    (hI : i.shape ≠ EdgeShape.I) (hej : s.edges[i.id]? = some (p0 :: tl))
    (hq : tl.getLast? = some q)
    (hnear : sqrtLt (ptdistSq (mulPt (mulMat s.editor_T i.T) q) pt) (0.5 * s.phys_unit))
    (hnotU : ¬ (i.shape = EdgeShape.U ∧ i.second = false))
    (hbefore : scanEdge s.phys_unit (mulMat s.editor_T i.T) pt do_del i.shape i.second
      (p0 :: tl).length 1 (mulPt (mulMat s.editor_T i.T) p0) tl.dropLast = Scan.done) :
    partScan s pt do_del i = some Scan.brk ∧
    startEdit s pt do_del = startEditLoop { s with u_constrain := false } pt do_del rest ∧
    ((∀ j ∈ rest, passes s pt do_del j) →
      startEdit s pt do_del = some ({ s with u_constrain := false }, false)) := by
  have htl : tl ≠ [] := by
    intro h
    rw [h] at hq
    cases hq
  have hlen : tl.length - 1 + 1 = tl.length := by
    have := List.length_pos.mpr htl
    omega
  have hq2 : (p0 :: tl)[tl.length]? = some q := by
    rw [List.getLast?_eq_getElem?] at hq
    rw [← hlen, List.getElem?_cons_succ]
    exact hq
  have htake : tl.take (tl.length - 1) = tl.dropLast := (List.dropLast_eq_take tl).symm
  have hscan := partScan_vertex s pt do_del i p0 q tl tl.length hI hej
    (List.length_pos.mpr htl) hq2 hnear (by rw [htake]; exact hbefore)
  rw [if_pos (by simp), if_neg hnotU] at hscan
  obtain ⟨u, hu, hloop⟩ := startEditLoop_append pt do_del pre (i :: rest) s hpre
  have hscan2 : partScan { s with u_constrain := u } pt do_del i = some Scan.brk := hscan
  rw [startEditLoop_cons _ pt do_del i rest _ hscan2] at hloop
  simp only [] at hloop
  have hstart : startEdit s pt do_del =
      startEditLoop { s with u_constrain := false } pt do_del rest := by
    rw [startEdit_eq_loop s t pt do_del ht, hparts, hloop]
  refine ⟨hscan, hstart, ?_⟩
  intro hrest
  obtain ⟨u2, hu2, hloop2⟩ := startEditLoop_append pt do_del rest []
    { s with u_constrain := false } hrest
  rw [List.append_nil] at hloop2
  rw [hstart, hloop2]
  have : u2 = false := by
    rcases hu2 with h | h <;> exact h
  rw [this]
  rfl

end OccurrenceTheorems

/-! ## Dragging -/

section DragTheorems

variable {K : Type} [LinearOrderedField K]

/-- The result of `moveEdit( pt )` when the recorded target is a stored
index. -/
theorem moveEdit_inside (s : EditableTiling K) (pt : Pt K) (d : Drag K) (ej : List (Pt K))
    (hd : s.drag = some d) (hej : s.edges[d.drag_edge_shape]? = some ej)
    (hv : d.drag_vertex < ej.length) :
    moveEdit s pt =
      cacheTileShape
        { s with
          delete_timer :=
            if sqrtGt (ptdistSq pt d.down_motion) 10 then false else s.delete_timer,
          edges := s.edges.set d.drag_edge_shape
            (ej.set d.drag_vertex
              (if s.u_constrain then { x := 1, y := (mulPt d.drag_T pt).y }
               else mulPt d.drag_T pt)) } := by
  unfold moveEdit
  rw [hd]
  simp only []
  rw [hej]
  simp only []
  rw [if_pos hv]

/-- The state after a `moveEdit( pt )` that returns, when the recorded target
is a stored index: the point written there, the other points and edges, and
the fields of the session. -/
theorem moveEdit_inside_fields (s s1 : EditableTiling K) (pt : Pt K) (d : Drag K)
    (ej : List (Pt K)) (hd : s.drag = some d) (hej : s.edges[d.drag_edge_shape]? = some ej)
    (hv : d.drag_vertex < ej.length) (h : moveEdit s pt = some s1) :
    s1.edges = s.edges.set d.drag_edge_shape
      (ej.set d.drag_vertex
        (if s.u_constrain then { x := 1, y := (mulPt d.drag_T pt).y }
         else mulPt d.drag_T pt)) ∧
    s1.drag = s.drag ∧ s1.u_constrain = s.u_constrain ∧ s1.tiling = s.tiling ∧
    s1.editor_T = s.editor_T ∧ s1.phys_unit = s.phys_unit := by
  rw [moveEdit_inside s pt d ej hd hej hv] at h
  have hf := cacheTileShape_fields _ _ h
  exact ⟨hf.1, hf.2.2.2.2.1, hf.2.2.2.1, hf.2.1, hf.2.2.2.2.2.2.2.1, hf.2.2.2.2.2.2.1⟩

theorem getElem?_set_set {α : Type} (l : List (List α)) (n v : Nat) (e : List α) (x : α)
    (he : l[n]? = some e) (hv : v < e.length) :
    ∃ e1, (l.set n (e.set v x))[n]? = some e1 ∧ e1[v]? = some x ∧
      e1.length = e.length ∧ ∀ j, j ≠ v → e1[j]? = e[j]? := by
  refine ⟨e.set v x, getElem?_set_self_of_some _ _ _ _ he, List.getElem?_set_self hv,
    List.length_set _ _ _, ?_⟩
  intro j hj
  exact getElem?_set_of_ne _ _ _ _ hj

/-- A `moveEdit( pt )` without the mirror constraint on a recorded target
that is a stored index returns, and stores `mul( drag_T, pt )` there. -/
theorem moveEdit_free (s : EditableTiling K) (t : IsohedralTiling K) (d : Drag K)
    (e : List (Pt K)) (pt : Pt K) (ht : s.tiling = some t) (hu : s.u_constrain = false)
    (hd : s.drag = some d) (he : s.edges[d.drag_edge_shape]? = some e)
    (hv : d.drag_vertex < e.length) (hshape : ∀ seg ∈ t.shape, seg.id < s.edges.length) :
    ∃ s1 e1, moveEdit s pt = some s1 ∧ s1.edges[d.drag_edge_shape]? = some e1 ∧
      e1[d.drag_vertex]? = some (mulPt d.drag_T pt) := by
  obtain ⟨s1, hs1⟩ := cacheTileShape_isSome
    { s with
      delete_timer := if sqrtGt (ptdistSq pt d.down_motion) 10 then false else s.delete_timer,
      edges := s.edges.set d.drag_edge_shape
        (e.set d.drag_vertex
          (if s.u_constrain then { x := 1, y := (mulPt d.drag_T pt).y }
           else mulPt d.drag_T pt)) } t ht
    (by simp only [List.length_set]; exact hshape)
  have hm : moveEdit s pt = some s1 := by
    rw [moveEdit_inside s pt d e hd he hv]
    exact hs1
  have hf := moveEdit_inside_fields s s1 pt d e hd he hv hm
  rw [hu] at hf
  simp only [Bool.false_eq_true, if_false] at hf
  obtain ⟨e1, he1, hp, _, _⟩ := getElem?_set_set s.edges d.drag_edge_shape
    d.drag_vertex e (mulPt d.drag_T pt) he hv
  rw [← hf.1] at he1
  exact ⟨s1, e1, hm, he1, hp⟩

set_option maxRecDepth 100000 in
/-- C17, as amended. The dragged point follows the pointer, in exact
arithmetic: a call of `startEdit` that returns `true` (on an editor whose
outline names existing edges) records a drag target on the edge of an
occurrence `i` and the inverse of its surface transform
`T = mul( editor_T, i.T )`; when `det( T )` is not zero and the mirror
constraint is not armed, `moveEdit( pt )` returns and the point it leaves at
`edges[drag_edge_shape][drag_vertex]` maps through `T` to `pt`; and when the
call changed the edges (a segment hit), the point now stored at the drag
target, the inserted one, maps through `T` to the press point.  In double
precision the stored point maps back to the pointer up to rounding: for the
surface transform `[0, -200, 225, -200, 0, 225]` of the `S` edge of the
example square, the pointer `(225,125)` is stored as `(0.5, 0)`, which maps
back to `(225,125)`. -/
theorem dragged_point_follows_pointer (s s1 : EditableTiling K) (t : IsohedralTiling K)
    (pt0 : Pt K) (do_del : Bool) (ht : s.tiling = some t)
    (hshape : ∀ seg ∈ t.shape, seg.id < s.edges.length)
    (hstart : startEdit s pt0 do_del = some (s1, true)) :
    (∃ i ∈ t.parts, ∃ d, s1.drag = some d ∧ d.drag_edge_shape = i.id ∧
      d.drag_T = inv (mulMat s.editor_T i.T) ∧ s1.editor_T = s.editor_T ∧
      (det (mulMat s.editor_T i.T) ≠ 0 →
        (∀ pt, s1.u_constrain = false →
          ∃ s2, moveEdit s1 pt = some s2 ∧
            ∃ e p, s2.edges[d.drag_edge_shape]? = some e ∧ e[d.drag_vertex]? = some p ∧
              mulPt (mulMat s.editor_T i.T) p = pt) ∧
        (s1.edges ≠ s.edges →
          ∃ e p, s1.edges[d.drag_edge_shape]? = some e ∧ e[d.drag_vertex]? = some p ∧
            mulPt (mulMat s.editor_T i.T) p = pt0))) ∧
    (mulMat (⟨200, 0, 25, 0, -200, 225⟩ : Xform F64) ⟨0, -1, 1, 1, 0, 0⟩ =
        ⟨0, -200, 225, -200, 0, 225⟩ ∧
      mulPt (inv (⟨0, -200, 225, -200, 0, 225⟩ : Xform F64)) ⟨225, 125⟩ = ⟨0.5, 0⟩ ∧
      mulPt (⟨0, -200, 225, -200, 0, 225⟩ : Xform F64) ⟨0.5, 0⟩ = ⟨225, 125⟩) := by
  refine ⟨?_, by decide!⟩
  obtain ⟨t1, ht1, heff⟩ := startEdit_effect s s1 pt0 do_del true hstart
  rw [ht] at ht1
  cases ht1
  have hmove : ∀ (s1 : EditableTiling K) (d : Drag K) (T : Xform K) (e1 : List (Pt K)),
      s1.tiling = some t → (∀ seg ∈ t.shape, seg.id < s1.edges.length) →
      s1.drag = some d → d.drag_T = inv T → det T ≠ 0 →
      s1.edges[d.drag_edge_shape]? = some e1 → d.drag_vertex < e1.length →
      ∀ pt, s1.u_constrain = false →
        ∃ s2, moveEdit s1 pt = some s2 ∧
          ∃ e p, s2.edges[d.drag_edge_shape]? = some e ∧ e[d.drag_vertex]? = some p ∧
            mulPt T p = pt := by
    intro s1 d T e1 ht1 hsh hd hT hdet he1 hv pt hu
    obtain ⟨s2, e, hm, he, hp⟩ := moveEdit_free s1 t d e1 pt ht1 hu hd he1 hv hsh
    exact ⟨s2, hm, e, _, he, hp, by rw [hT]; exact mulPt_inv_right T hdet pt⟩
  cases heff with
  | pick i ej idx uc hi hI hej h1 h2 huc hU hdel =>
    refine ⟨i, hi, _, rfl, rfl, rfl, rfl, ?_⟩
    intro hdet
    exact ⟨hmove _ _ (mulMat s.editor_T i.T) ej ht hshape rfl rfl hdet hej h2,
      fun hne => absurd rfl hne⟩
  | ins i ej idx u s2 hi hI hej h1 h2 hu hc =>
    have hf := cacheTileShape_fields _ _ hc
    have hlen : (ej.insertIdx idx (mulPt (inv (mulMat s.editor_T i.T)) pt0)).length =
        ej.length + 1 := List.length_insertIdx _ _ h2.le
    have he1 : s1.edges[i.id]? =
        some (ej.insertIdx idx (mulPt (inv (mulMat s.editor_T i.T)) pt0)) := by
      rw [hf.1]
      exact getElem?_set_self_of_some _ _ _ _ hej
    have ht1 : s1.tiling = some t := by rw [hf.2.1]; exact ht
    have hsh1 : ∀ seg ∈ t.shape, seg.id < s1.edges.length := by
      rw [hf.1]
      simp only [List.length_set]
      exact hshape
    refine ⟨i, hi, _, hf.2.2.2.2.1, rfl, rfl, hf.2.2.2.2.2.2.2.1, ?_⟩
    intro hdet
    refine ⟨hmove s1 _ (mulMat s.editor_T i.T) _ ht1 hsh1 hf.2.2.2.2.1 rfl hdet he1
      (by rw [hlen]; exact Nat.lt_succ_of_lt h2), fun _ => ?_⟩
    refine ⟨_, _, he1, ?_, mulPt_inv_right _ hdet pt0⟩
    rw [List.getElem?_eq_some]
    exact ⟨by rw [hlen]; exact Nat.lt_succ_of_lt h2,
      List.getElem_insertIdx_self _ _ _ h2.le⟩

/-- The state of a mirror-constrained drag of the point `idx` of the edge
`id`: what holds after the `startEdit` that starts it and after each
`moveEdit` that follows. -/
theorem constrained_move_step (s : EditableTiling K) (t : IsohedralTiling K) (d : Drag K)
    (e : List (Pt K)) (pt : Pt K) (ht : s.tiling = some t) (hu : s.u_constrain = true)
    (hd : s.drag = some d) (he : s.edges[d.drag_edge_shape]? = some e)
    (hv : d.drag_vertex < e.length) (hshape : ∀ seg ∈ t.shape, seg.id < s.edges.length) :
    ∃ s1 e1, moveEdit s pt = some s1 ∧ s1.tiling = some t ∧ s1.u_constrain = true ∧
      s1.drag = some d ∧ s1.edges.length = s.edges.length ∧
      s1.edges[d.drag_edge_shape]? = some e1 ∧ e1.length = e.length ∧
      e1[d.drag_vertex]? = some ⟨1, (mulPt d.drag_T pt).y⟩ ∧
      (∀ j, j ≠ d.drag_vertex → e1[j]? = e[j]?) ∧
      (∀ j, j ≠ d.drag_edge_shape → s1.edges[j]? = s.edges[j]?) := by
  obtain ⟨s1, hs1⟩ := cacheTileShape_isSome
    { s with
      delete_timer := if sqrtGt (ptdistSq pt d.down_motion) 10 then false else s.delete_timer,
      edges := s.edges.set d.drag_edge_shape
        (e.set d.drag_vertex
          (if s.u_constrain then { x := 1, y := (mulPt d.drag_T pt).y }
           else mulPt d.drag_T pt)) } t ht
    (by simp only [List.length_set]; exact hshape)
  have hm : moveEdit s pt = some s1 := by
    rw [moveEdit_inside s pt d e hd he hv]
    exact hs1
  have hf := moveEdit_inside_fields s s1 pt d e hd he hv hm
  rw [hu] at hf
  simp only [if_true] at hf
  obtain ⟨e1, he1, hp, hlen, hother⟩ := getElem?_set_set s.edges d.drag_edge_shape
    d.drag_vertex e ⟨1, (mulPt d.drag_T pt).y⟩ he hv
  rw [← hf.1] at he1
  refine ⟨s1, e1, hm, by rw [hf.2.2.2.1, ht], hf.2.2.1, by rw [hf.2.1, hd], ?_, he1, hlen, hp,
    hother, ?_⟩
  · rw [hf.1, List.length_set]
  · intro j hj
    rw [hf.1]
    exact getElem?_set_of_ne _ _ _ _ hj

/-- After one or more `moveEdit` calls of a mirror-constrained drag the
dragged point is `(1, y)` and nothing else has changed. -/
theorem constrained_moves (t : IsohedralTiling K) (d : Drag K) (n : Nat)
    (pts : List (Pt K)) (s : EditableTiling K) (e : List (Pt K)) (pt : Pt K)
    (ht : s.tiling = some t) (hu : s.u_constrain = true)
    (hd : s.drag = some d) (he : s.edges[d.drag_edge_shape]? = some e)
    (hv : d.drag_vertex < e.length) (hn : s.edges.length = n)
    (hshape : ∀ seg ∈ t.shape, seg.id < n) :
    ∃ s2 e2, runOps s ((pt :: pts).map Op.moveEdit) = some s2 ∧
      s2.edges[d.drag_edge_shape]? = some e2 ∧ e2.length = e.length ∧
      (∃ y, e2[d.drag_vertex]? = some ⟨1, y⟩) ∧
      (∀ j, j ≠ d.drag_vertex → e2[j]? = e[j]?) ∧
      (∀ j, j ≠ d.drag_edge_shape → s2.edges[j]? = s.edges[j]?) := by
  induction pts generalizing s e pt with
  | nil =>
    obtain ⟨s1, e1, hm, _, _, _, _, he1, hlen, hp, hother, hedges⟩ :=
      constrained_move_step s t d e pt ht hu hd he hv (by rw [hn]; exact hshape)
    refine ⟨s1, e1, ?_, he1, hlen, ⟨_, hp⟩, hother, hedges⟩
    simp only [List.map_cons, List.map_nil, runOps, runOp, hm, Option.some_bind]
  | cons pt2 pts ih =>
    obtain ⟨s1, e1, hm, ht1, hu1, hd1, hn1, he1, hlen, hp, hother, hedges⟩ :=
      constrained_move_step s t d e pt ht hu hd he hv (by rw [hn]; exact hshape)
    obtain ⟨s2, e2, hrun, he2, hlen2, hp2, hother2, hedges2⟩ :=
      ih s1 e1 pt2 ht1 hu1 hd1 he1 (by rw [hlen]; exact hv) (by rw [hn1]; exact hn)
    refine ⟨s2, e2, ?_, he2, by rw [hlen2, hlen], hp2, ?_, ?_⟩
    · rw [List.map_cons, runOps]
      simp only [runOp, hm, Option.some_bind]
      exact hrun
    · intro j hj
      rw [hother2 j hj, hother j hj]
    · intro j hj
      rw [hedges2 j hj, hedges j hj]

/-- C12. Mirror-constrained drag: when `startEdit` ends with a vertex hit on
the terminal (last stored) point of a `U` edge on its first occurrence (the
occurrences before it are passed, the scan of this one ends with
`Scan.pick idx true`), the call returns `true` and, after every `moveEdit`
of one or more that follow, the dragged point `edges[id][idx]` is `(1, y)`:
its x-coordinate is exactly 1, while the other points of the edge and the
other edges are as they were before the drag. -/
theorem mirror_constrained_drag (s : EditableTiling K) (t : IsohedralTiling K) (pt0 : Pt K)
    (do_del : Bool) (pre rest : List (Part K)) (i : Part K) (ej : List (Pt K)) (idx : Nat)
    (ht : s.tiling = some t) (hparts : t.parts = pre ++ i :: rest)
    (hpre : ∀ j ∈ pre, passes s pt0 do_del j)
    (hscan : partScan s pt0 do_del i = some (Scan.pick idx true))
    (hej : s.edges[i.id]? = some ej)
    (hshape : ∀ seg ∈ t.shape, seg.id < s.edges.length) :
    (i.shape = EdgeShape.U ∧ i.second = false ∧ idx + 1 = ej.length) ∧
    ∃ s1, startEdit s pt0 do_del = some (s1, true) ∧ s1.u_constrain = true ∧
      s1.drag.map (fun d => (d.drag_edge_shape, d.drag_vertex)) = some (i.id, idx) ∧
      ∀ (pt : Pt K) (pts : List (Pt K)),
        ∃ s2 e2, runOps s1 ((pt :: pts).map Op.moveEdit) = some s2 ∧
          s2.edges[i.id]? = some e2 ∧ e2.length = ej.length ∧
          (∃ y, e2[idx]? = some ⟨1, y⟩) ∧
          (∀ j, j ≠ idx → e2[j]? = ej[j]?) ∧
          (∀ j, j ≠ i.id → s2.edges[j]? = s.edges[j]?) := by
  obtain ⟨_, p0, tl, hej2, hr⟩ := partScan_hit s pt0 do_del i _ hscan (by simp)
  rw [hej] at hej2
  cases hej2
  have hspec := scanEdge_spec s.phys_unit (mulMat s.editor_T i.T) pt0 do_del i.shape i.second
    (p0 :: tl).length tl 1 (mulPt (mulMat s.editor_T i.T) p0)
  rw [← hr] at hspec
  simp only [true_iff, forall_const] at hspec
  have hlast : idx + 1 = (p0 :: tl).length := by
    have := hspec.2.2.1
    simp only [List.length_cons] at this ⊢
    omega
  have hstart := startEdit_pick s t pt0 do_del pre rest i idx true ht hparts hpre hscan
  refine ⟨⟨hspec.2.2.2.1.1, hspec.2.2.2.1.2, hlast⟩, _, hstart, rfl, rfl, ?_⟩
  intro pt pts
  exact constrained_moves t
    { drag_edge_shape := i.id, drag_vertex := idx,
      drag_T := inv (mulMat s.editor_T i.T), down_motion := pt0 }
    s.edges.length pts _ (p0 :: tl) pt ht rfl rfl hej
    (show idx < (p0 :: tl).length by omega) rfl hshape

end DragTheorems

/-! ## Calls outside a session -/

section StaleTheorems

variable {K : Type} [LinearOrderedField K]

omit [LinearOrderedField K] in
theorem finishEdit_eq_self (s : EditableTiling K) (hu : s.u_constrain = false)
    (ht : s.delete_timer = false) : finishEdit s = s := by
  cases s
  simp only [finishEdit] at hu ht ⊢
  rw [hu, ht]

theorem setType_session_fields (s s0 : EditableTiling K) (t : IsohedralTiling K)
    (h : setType s t = some s0) :
    s0.u_constrain = s.u_constrain ∧ s0.delete_timer = s.delete_timer := by
  unfold setType at h
  obtain ⟨s1, h1, rfl⟩ := Option.map_eq_some'.mp h
  have hf := cacheTileShape_fields _ _ h1
  have hc := calcEditorTransform_fields s1
  refine ⟨?_, ?_⟩
  · rw [hc.2.2.2.1, hf.2.2.2.1]
    simp [buildDefaultEdges]
  · rw [hc.2.2.2.2.2.1, hf.2.2.2.2.2.1]
    simp [buildDefaultEdges]

/-- C14, as amended. `finishEdit` when no session is active changes no editor
state: it leaves the state produced by `setType` on a new editor as it is,
and a second `finishEdit` changes nothing.  `moveEdit` has no test of an
active session: it throws while no drag target has been recorded, and after
`finishEdit` it still writes the pointer, mapped through the recorded
`drag_T`, at the recorded drag target, and rebuilds the cached outline. -/
theorem stale_session_calls :
    (∀ s : EditableTiling K, finishEdit (finishEdit s) = finishEdit s) ∧
    (∀ (ew eh phys_unit amount : K) (t : IsohedralTiling K) (s_pre s0 : EditableTiling K),
      setCurveAmount (EditableTiling.new ew eh phys_unit) amount = some s_pre →
      setType s_pre t = some s0 → finishEdit s0 = s0) ∧
    (∀ (s : EditableTiling K) (pt : Pt K), s.drag = none → moveEdit s pt = none) ∧
    (∀ (s s1 : EditableTiling K) (t : IsohedralTiling K) (d : Drag K) (ej : List (Pt K))
      (pt : Pt K),
      s.tiling = some t → s.drag = some d → s.edges[d.drag_edge_shape]? = some ej →
      d.drag_vertex < ej.length → moveEdit (finishEdit s) pt = some s1 →
      s1.edges[d.drag_edge_shape]? = some (ej.set d.drag_vertex (mulPt d.drag_T pt)) ∧
      tileShape t s1.edges = some (getTileShape s1)) := by
  refine ⟨fun s => rfl, ?_, ?_, ?_⟩
  · intro ew eh pu a t s_pre s0 hpre h0
    have hf := setType_session_fields s_pre s0 t h0
    simp only [setCurveAmount, EditableTiling.new, Option.some.injEq] at hpre
    rw [← hpre] at hf
    exact finishEdit_eq_self s0 hf.1 hf.2
  · intro s pt hd
    unfold moveEdit
    rw [hd]
  · intro s s1 t d ej pt ht hd hej hv hm
    have hd2 : (finishEdit s).drag = some d := hd
    have hej2 : (finishEdit s).edges[d.drag_edge_shape]? = some ej := hej
    have hf := moveEdit_inside_fields (finishEdit s) s1 pt d ej hd2 hej2 hv hm
    have hu : (finishEdit s).u_constrain = false := rfl
    rw [hu] at hf
    simp only [Bool.false_eq_true, if_false] at hf
    refine ⟨?_, ?_⟩
    · rw [hf.1]
      exact getElem?_set_self_of_some _ _ _ _ hej
    · rw [moveEdit_inside (finishEdit s) pt d ej hd2 hej2 hv] at hm
      have hout := cacheTileShape_outline _ s1 t (by exact ht) hm
      rw [(cacheTileShape_fields _ _ hm).1]
      exact hout

end StaleTheorems

/-! ## Every edge keeps its two endpoints -/

section TwoPointTheorems

variable {K : Type} [LinearOrderedField K]

/-- What a call of `startEdit` does to the stored sequence of an edge:
nothing, an insertion at an index from 1 on, or a removal at an index between
1 and `length - 2`. -/
theorem startEffect_change (s s1 : EditableTiling K) (pt : Pt K) (do_del b : Bool)
    (parts : List (Part K)) (heff : StartEffect s pt do_del parts s1 b)
    (id : Nat) (ej e1 : List (Pt K)) (hej : s.edges[id]? = some ej)
    (he1 : s1.edges[id]? = some e1) :
    e1 = ej ∨ (∃ idx p, 1 ≤ idx ∧ idx < ej.length ∧ e1 = ej.insertIdx idx p) ∨
      (∃ idx, 1 ≤ idx ∧ idx + 2 ≤ ej.length ∧ e1 = ej.eraseIdx idx) := by
  cases heff with
  | miss u hu =>
    left
    rw [hej] at he1
    exact (Option.some.inj he1).symm
  | pick j e idx uc hi hI he h1 h2 huc hU hdel =>
    left
    rw [hej] at he1
    exact (Option.some.inj he1).symm
  | del j e idx s2 hi hI he h1 h2 hdel hc =>
    rw [(cacheTileShape_fields _ _ hc).1] at he1
    rcases getElem?_set_cases s.edges j.id id ej (e.eraseIdx idx) hej with h | ⟨hji, h⟩
    · left
      rw [h] at he1
      exact (Option.some.inj he1).symm
    · right; right
      rw [h] at he1
      rw [hji, hej] at he
      cases he
      exact ⟨idx, h1, by omega, (Option.some.inj he1).symm⟩
  | ins j e idx u s2 hi hI he h1 h2 hu hc =>
    rw [(cacheTileShape_fields _ _ hc).1] at he1
    rcases getElem?_set_cases s.edges j.id id ej
      (e.insertIdx idx (mulPt (inv (mulMat s.editor_T j.T)) pt)) hej with h | ⟨hji, h⟩
    · left
      rw [h] at he1
      exact (Option.some.inj he1).symm
    · right; left
      rw [h] at he1
      rw [hji, hej] at he
      cases he
      exact ⟨idx, _, h1, h2, (Option.some.inj he1).symm⟩

/-- C18. Every stored edge always has at least two points and its first point
is `(0,0)`: this holds for every edge built by `buildDefaultEdges` and in
every state reachable from `setType`, where a recorded drag target is never
index 0.  There a `startEdit` leaves an edge as it is, inserts a point at an
index from 1 on, or removes the point at an index `idx` with
`1 <= idx <= length - 2`; a `moveEdit` leaves an edge as it is or writes at
an index from 1 on; `finishEdit` changes no edge. -/
theorem edges_keep_two_points (edits : Bool) (s : EditableTiling K)
    (h : Reachable edits s) :
    (∀ e ∈ s.edges, 2 ≤ e.length ∧ e.head? = some ⟨0, 0⟩) ∧
    (∀ s0 : EditableTiling K, ∀ e ∈ (buildDefaultEdges s0).edges,
      2 ≤ e.length ∧ e.head? = some ⟨0, 0⟩) ∧
    (∀ d, s.drag = some d → 1 ≤ d.drag_vertex) ∧
    (∀ (pt : Pt K) (do_del b : Bool) (s1 : EditableTiling K) (id : Nat) (ej e1 : List (Pt K)),
      startEdit s pt do_del = some (s1, b) → s.edges[id]? = some ej →
      s1.edges[id]? = some e1 →
      (2 ≤ e1.length ∧ e1.head? = some ⟨0, 0⟩) ∧
      (e1 = ej ∨ (∃ idx p, 1 ≤ idx ∧ idx < ej.length ∧ e1 = ej.insertIdx idx p) ∨
        (∃ idx, 1 ≤ idx ∧ idx + 2 ≤ ej.length ∧ e1 = ej.eraseIdx idx))) ∧
    (∀ (pt : Pt K) (s1 : EditableTiling K) (id : Nat) (ej e1 : List (Pt K)),
      moveEdit s pt = some s1 → s.edges[id]? = some ej → s1.edges[id]? = some e1 →
      (2 ≤ e1.length ∧ e1.head? = some ⟨0, 0⟩) ∧
      (e1 = ej ∨ ∃ idx p, 1 ≤ idx ∧ (e1 = ej.set idx p ∨ e1 = ej ++ [p]))) ∧
    (finishEdit s).edges = s.edges := by
  have hok := reachable_edgesOk edits s h
  refine ⟨fun e he => ⟨(hok.1 e he).2, (hok.1 e he).1⟩, ?_, hok.2, ?_, ?_, rfl⟩
  · intro s0 e he
    unfold buildDefaultEdges at he
    split at he
    · simp at he
    · simp only [List.mem_map] at he
      obtain ⟨i, _, rfl⟩ := he
      exact ⟨(createDefaultEdge_ok _ _ i).2.2, (createDefaultEdge_ok _ _ i).1⟩
  · intro pt do_del b s1 id ej e1 hstart hej he1
    obtain ⟨t, _, heff⟩ := startEdit_effect s s1 pt do_del b hstart
    have hok1 := edgesOk_of_startEffect s s1 pt do_del b t.parts heff hok
    have hmem := hok1.1 e1 (List.getElem?_mem he1)
    exact ⟨⟨hmem.2, hmem.1⟩, startEffect_change s s1 pt do_del b t.parts heff id ej e1 hej he1⟩
  · intro pt s1 id ej e1 hm hej he1
    have hok1 := edgesOk_of_moveEdit s s1 pt hm hok
    have hmem := hok1.1 e1 (List.getElem?_mem he1)
    refine ⟨⟨hmem.2, hmem.1⟩, ?_⟩
    obtain ⟨d, e, hd, he, hle, hc⟩ := moveEdit_effect s s1 pt hm
    have hv := hok.2 d hd
    rw [(cacheTileShape_fields _ _ hc).1] at he1
    rcases getElem?_set_cases s.edges d.drag_edge_shape id ej _ hej with h' | ⟨hji, h'⟩
    · left
      rw [h'] at he1
      exact (Option.some.inj he1).symm
    · right
      rw [h'] at he1
      rw [hji, hej] at he
      cases he
      refine ⟨d.drag_vertex,
        (if s.u_constrain then { x := 1, y := (mulPt d.drag_T pt).y } else mulPt d.drag_T pt),
        hv, ?_⟩
      by_cases hlt : d.drag_vertex < ej.length
      · left
        rw [if_pos hlt] at he1
        exact (Option.some.inj he1).symm
      · right
        rw [if_neg hlt] at he1
        exact (Option.some.inj he1).symm

end TwoPointTheorems


/-! ## The samples of the default symmetric edges -/

section SampleSymmetryTheorems

variable {K : Type} [LinearOrderedField K]

theorem cubicPoint_halfTurn (a t : K) :
    cubicPoint (⟨0, 0⟩ : Pt K) ⟨0.33, 0.35 * a⟩ ⟨0.67, -(0.35 * a)⟩ ⟨1, 0⟩ (1 - t) =
      halfTurn (cubicPoint (⟨0, 0⟩ : Pt K) ⟨0.33, 0.35 * a⟩ ⟨0.67, -(0.35 * a)⟩ ⟨1, 0⟩ t) := by
  simp only [cubicPoint, halfTurn, Pt.mk.injEq]
  constructor
  · norm_num
    ring
  · norm_num
    ring

theorem cubicPoint_mirror (a t : K) :
    cubicPoint (⟨0, 0⟩ : Pt K) ⟨0.33, 0.35 * a⟩ ⟨0.67, 0.35 * a⟩ ⟨1, 0⟩ (1 - t) =
      mirror (cubicPoint (⟨0, 0⟩ : Pt K) ⟨0.33, 0.35 * a⟩ ⟨0.67, 0.35 * a⟩ ⟨1, 0⟩ t) := by
  simp only [cubicPoint, mirror, Pt.mk.injEq]
  constructor
  · norm_num
    ring
  · norm_num
    ring

theorem sampleCubic_getElem? (P0 P1 P2 P3 : Pt K) (k : Nat) (hk : k ≤ 16) :
    (sampleCubic P0 P1 P2 P3 false)[k]? = some (cubicPoint P0 P1 P2 P3 ((k : K) / 16)) := by
  unfold sampleCubic
  rw [List.getElem?_map, List.getElem?_range (by omega)]
  simp

theorem sample_param_reverse (k : Nat) (hk : k ≤ 16) :
    (((16 - k : Nat) : K)) / 16 = 1 - (k : K) / 16 := by
  rw [Nat.cast_sub hk]
  norm_num
  ring

set_option maxRecDepth 100000 in
/-- C19, as amended. In exact arithmetic the default symmetric edges sample
symmetrically, for every curve amount `a`: with `s_0 .. s_16` the 17 points of
`sampleEdgePoints( default edge, false )`, the default `S` edge has
`s_(16-k) = (1 - s_k.x, -s_k.y)` for every `k`, and the default `U` edge has
`s_(16-k) = (1 - s_k.x, s_k.y)` for every `k`.  The doubles the program
computes agree with this up to rounding: for the default `S` and `U` edges at
curve amount 2 they give 17 samples from `(0,0)` to `(1,0)`, with
`s_(16-k).y` exactly `-s_k.y` (`S`) and `s_k.y` (`U`), and with
`s_(16-k).x` at most `2^-53` (`1.1102230246251565e-16`) away from the double
`1 - s_k.x`. -/
theorem default_edges_sample_symmetric (t : IsohedralTiling K) (a : K) (i : Nat) :
    ((t.getEdgeShape i = some EdgeShape.S →
        (sampleEdgePoints (createDefaultEdge t a i) false).length = 17 ∧
        ∀ k, k ≤ 16 →
          (sampleEdgePoints (createDefaultEdge t a i) false)[16 - k]? =
            (sampleEdgePoints (createDefaultEdge t a i) false)[k]?.map
              (halfTurn : Pt K → Pt K)) ∧
      (t.getEdgeShape i = some EdgeShape.U →
        (sampleEdgePoints (createDefaultEdge t a i) false).length = 17 ∧
        ∀ k, k ≤ 16 →
          (sampleEdgePoints (createDefaultEdge t a i) false)[16 - k]? =
            (sampleEdgePoints (createDefaultEdge t a i) false)[k]?.map
              (mirror : Pt K → Pt K))) ∧
    ((sampleEdgePoints (createDefaultEdge exTiling64 2 1) false).length = 17 ∧
      (sampleEdgePoints (createDefaultEdge exTiling64 2 1) false).head? = some ⟨0, 0⟩ ∧
      (sampleEdgePoints (createDefaultEdge exTiling64 2 1) false).getLast? = some ⟨1, 0⟩ ∧
      (∀ pq ∈ (sampleEdgePoints (createDefaultEdge exTiling64 2 1) false).zip
            (sampleEdgePoints (createDefaultEdge exTiling64 2 1) false).reverse,
        pq.2.y = -pq.1.y ∧
        F64.abs (pq.2.x - (1 - pq.1.x)) ≤ 1.1102230246251565e-16) ∧
      (sampleEdgePoints (createDefaultEdge exTiling64 2 0) false).length = 17 ∧
      (sampleEdgePoints (createDefaultEdge exTiling64 2 0) false).head? = some ⟨0, 0⟩ ∧
      (sampleEdgePoints (createDefaultEdge exTiling64 2 0) false).getLast? = some ⟨1, 0⟩ ∧
      (∀ pq ∈ (sampleEdgePoints (createDefaultEdge exTiling64 2 0) false).zip
            (sampleEdgePoints (createDefaultEdge exTiling64 2 0) false).reverse,
        pq.2.y = pq.1.y ∧
        F64.abs (pq.2.x - (1 - pq.1.x)) ≤ 1.1102230246251565e-16)) := by
  refine ⟨⟨?_, ?_⟩, by decide!⟩
  · intro h
    rw [createDefaultEdge_S t a i h]
    simp only [sampleEdgePoints]
    refine ⟨by simp [sampleCubic], ?_⟩
    intro k hk
    rw [sampleCubic_getElem? _ _ _ _ k hk, sampleCubic_getElem? _ _ _ _ (16 - k) (by omega),
      sample_param_reverse k hk, cubicPoint_halfTurn]
    rfl
  · intro h
    rw [createDefaultEdge_U t a i h]
    simp only [sampleEdgePoints]
    refine ⟨by simp [sampleCubic], ?_⟩
    intro k hk
    rw [sampleCubic_getElem? _ _ _ _ k hk, sampleCubic_getElem? _ _ _ _ (16 - k) (by omega),
      sample_param_reverse k hk, cubicPoint_mirror]
    rfl

set_option maxRecDepth 100000 in
/-- The `S` edge (edge 1) and the `U` edge (edge 0) of the example classifier
at curve amount 2, in exact arithmetic. -/
theorem default_edges_sample_symmetric_witness :
    exTiling.getEdgeShape 1 = some EdgeShape.S ∧ exTiling.getEdgeShape 0 = some EdgeShape.U ∧
    ((sampleEdgePoints (createDefaultEdge exTiling 2 1) false).length = 17 ∧
      ∀ k, k ≤ 16 →
        (sampleEdgePoints (createDefaultEdge exTiling 2 1) false)[16 - k]? =
          (sampleEdgePoints (createDefaultEdge exTiling 2 1) false)[k]?.map
            (halfTurn : Pt ℚ → Pt ℚ)) ∧
    ((sampleEdgePoints (createDefaultEdge exTiling 2 0) false).length = 17 ∧
      ∀ k, k ≤ 16 →
        (sampleEdgePoints (createDefaultEdge exTiling 2 0) false)[16 - k]? =
          (sampleEdgePoints (createDefaultEdge exTiling 2 0) false)[k]?.map
            (mirror : Pt ℚ → Pt ℚ)) :=
  ⟨rfl, rfl, (default_edges_sample_symmetric exTiling 2 1).1.1 rfl,
    (default_edges_sample_symmetric exTiling 2 0).1.2 rfl⟩

set_option maxRecDepth 100000 in
/-- C19 fails as stated for the numbers the program computes with. In double
precision, for the default `S` edge and for the default `U` edge at curve
amount 2, `s_(16-k)` is the image of `s_k` exactly for the `k` other than 7,
9, 11, 12, 13, 14 and 15, and is not for these: for the `S` edge `s_7` is
`(0.43719238281250006, 0.06459960937499998)`, the double `1 - s_7.x` is
`0.5628076171874999`, and `s_9.x` is `0.5628076171875`. -/
theorem sample_symmetry_counterexample :
    (∀ k, k ≤ 16 →
      ((sampleEdgePoints (createDefaultEdge exTiling64 2 1) false)[16 - k]? =
        (sampleEdgePoints (createDefaultEdge exTiling64 2 1) false)[k]?.map
          (halfTurn : Pt F64 → Pt F64) ↔
        k ∉ [7, 9, 11, 12, 13, 14, 15])) ∧
    (∀ k, k ≤ 16 →
      ((sampleEdgePoints (createDefaultEdge exTiling64 2 0) false)[16 - k]? =
        (sampleEdgePoints (createDefaultEdge exTiling64 2 0) false)[k]?.map
          (mirror : Pt F64 → Pt F64) ↔
        k ∉ [7, 9, 11, 12, 13, 14, 15])) ∧
    (sampleEdgePoints (createDefaultEdge exTiling64 2 1) false)[7]? =
      some ⟨0.43719238281250006, 0.06459960937499998⟩ ∧
    (sampleEdgePoints (createDefaultEdge exTiling64 2 1) false)[9]? =
      some ⟨0.5628076171875, -0.06459960937499998⟩ ∧
    halfTurn (⟨0.43719238281250006, 0.06459960937499998⟩ : Pt F64) =
      ⟨0.5628076171874999, -0.06459960937499998⟩ ∧
    (0.5628076171874999 : F64) ≠ 0.5628076171875 := by
  decide!

end SampleSymmetryTheorems


/-! ## What a `moveEdit` that throws leaves behind -/

section ThrownTheorems

variable {K : Type} [LinearOrderedField K]

theorem sampleEdgePointsHoles_some (edge : List (Pt K)) (reverse : Bool) :
    sampleEdgePointsHoles (edge.map some) reverse =
      some ((sampleEdgePoints edge reverse).map some) := by
  unfold sampleEdgePointsHoles sampleEdgePoints
  match edge with
  | [] => cases reverse <;> simp
  | [a] => cases reverse <;> simp
  | [a, b] => cases reverse <;> simp
  | [a, b, c] => cases reverse <;> simp
  | [a, b, c, d] => simp
  | a :: b :: c :: d :: e :: rest => cases reverse <;> simp [List.map_reverse]

theorem takeWhile_isSome_map {α : Type} (l : List α) :
    (l.map some).takeWhile Option.isSome = l.map some := by
  induction l with
  | nil => rfl
  | cons a l ih => simp [List.takeWhile, ih]

theorem all_isSome_map {α : Type} (l : List α) :
    (l.map some).all Option.isSome = true := by
  simp

theorem filterMap_map_some {α β : Type} (f : α → β) (l : List α) :
    (l.map some).filterMap (fun p => p.map f) = l.map f := by
  induction l with
  | nil => rfl
  | cons a l ih => simp [List.filterMap_cons, ih]

/-- On edges without holes the loop of `cacheTileShape` throws exactly when
`tileShapeLoop` has no result, and otherwise builds the same outline. -/
theorem tileShapeLoopHoles_some (edges : List (List (Pt K))) (segs : List (Seg K))
    (firstEdge : Bool) (acc : List (Pt K)) :
    (∀ shp, tileShapeLoop edges segs firstEdge acc = some shp →
      tileShapeLoopHoles (edges.map fun e => e.map some) segs firstEdge acc = (shp, false)) ∧
    (tileShapeLoop edges segs firstEdge acc = none →
      (tileShapeLoopHoles (edges.map fun e => e.map some) segs firstEdge acc).2 = true) := by
  induction segs generalizing firstEdge acc with
  | nil =>
    constructor
    · intro shp h
      simp only [tileShapeLoop, Option.some.injEq] at h
      simp [tileShapeLoopHoles, h]
    · intro h
      simp [tileShapeLoop] at h
  | cons seg rest ih =>
    unfold tileShapeLoop tileShapeLoopHoles
    rw [List.getElem?_map]
    cases hedge : edges[seg.id]? with
    | none => simp
    | some edge =>
      simp only [Option.map_some', sampleEdgePointsHoles_some]
      have hkept : (if firstEdge = true then (sampleEdgePoints edge seg.rev).map some
          else ((sampleEdgePoints edge seg.rev).map some).drop 1) =
          (if firstEdge = true then sampleEdgePoints edge seg.rev
            else (sampleEdgePoints edge seg.rev).drop 1).map some := by
        split <;> simp [List.map_drop]
      rw [hkept, takeWhile_isSome_map, filterMap_map_some, all_isSome_map]
      simp only [if_true]
      exact ih false _

theorem map_some_set {α : Type} (l : List (List α)) (n : Nat) (e : List α) :
    (l.map fun e => e.map some).set n (e.map some) = (l.set n e).map fun e => e.map some := by
  rw [List.map_set]

/-- A `moveEdit` that returns in the embedding does not throw: the two
readings of the source agree on which calls return. -/
theorem moveEditThrown_of_returns (s s1 : EditableTiling K) (pt : Pt K)
    (h : moveEdit s pt = some s1) : moveEditThrown s pt = none := by
  unfold moveEdit at h
  unfold moveEditThrown
  cases hd : s.drag with
  | none => rw [hd] at h; cases h
  | some d =>
    rw [hd] at h
    simp only [] at h ⊢
    rw [List.getElem?_map]
    cases hej : s.edges[d.drag_edge_shape]? with
    | none => rw [hej] at h; cases h
    | some ej =>
      rw [hej] at h
      simp only [Option.map_some', List.length_map] at h ⊢
      have key : ∀ (s2 : EditableTiling K), cacheTileShape s2 = some s1 →
          ∀ (ej1 : List (Pt K)) (timer : Bool),
          s2.tiling = s.tiling → s2.edges = s.edges.set d.drag_edge_shape ej1 →
          (match s.tiling with
            | none => (none : Option (Thrown K))
            | some t =>
              match tileShapeLoopHoles
                ((s.edges.map fun e => e.map some).set d.drag_edge_shape (ej1.map some))
                t.shape true [] with
              | (shp, true) =>
                some { edges := (s.edges.map fun e => e.map some).set d.drag_edge_shape
                                  (ej1.map some),
                       tile_shape := shp, delete_timer := timer }
              | (_, false) => none) = none := by
        intro s2 hc ej1 timer h2t h2e
        unfold cacheTileShape at hc
        rw [h2t] at hc
        cases ht : s.tiling with
        | none => rfl
        | some t =>
          simp only [ht, h2e] at hc ⊢
          cases hshp : tileShape t (s.edges.set d.drag_edge_shape ej1) with
          | none => rw [hshp] at hc; cases hc
          | some shp =>
            rw [map_some_set,
              (tileShapeLoopHoles_some (s.edges.set d.drag_edge_shape ej1) t.shape true []).1
                shp hshp]
      by_cases hv : d.drag_vertex < ej.length
      · rw [if_pos hv] at h ⊢
        have := key _ h _
          (if sqrtGt (ptdistSq pt d.down_motion) 10 then false else s.delete_timer) rfl rfl
        rw [List.map_set] at this
        exact this
      · rw [if_neg hv] at h ⊢
        by_cases hv2 : d.drag_vertex = ej.length
        · rw [if_pos hv2] at h
          have := key _ h _
            (if sqrtGt (ptdistSq pt d.down_motion) 10 then false else s.delete_timer) rfl rfl
          rw [List.map_append] at this
          rw [hv2, Nat.sub_self]
          simpa using this
        · rw [if_neg hv2] at h
          cases h

end ThrownTheorems

/-! ## The session properties on the example square -/

section SessionExamples

theorem exAfter_eq (ops : List (Op ℚ)) (s : EditableTiling ℚ) (h : exRun ops = some s) :
    exAfter ops = s := by
  unfold exAfter
  rw [h]
  rfl

theorem reachable_exAfter (edits : Bool) (ops : List (Op ℚ))
    (hops : edits = true → ∀ op ∈ ops, isEditOp op = true)
    (h : (exRun ops).isSome = true) : Reachable edits (exAfter ops) := by
  obtain ⟨s, hs⟩ := Option.isSome_iff_exists.mp h
  rw [exAfter_eq ops s hs]
  exact reachable_exRun edits ops hops s hs

set_option maxRecDepth 100000 in
/-- A press on the middle segment of the `S` edge of the example square, in
the state produced by `setType`. -/
theorem segment_hit_inserts_witness :
    (partScan (exAfter []) ⟨225, 125⟩ false exS = some (Scan.ins 2)) ∧
    (∃ s1, startEdit (exAfter []) ⟨225, 125⟩ false = some (s1, true) ∧
      s1.edges[exS.id]? =
        some (([⟨0, 0⟩, ⟨0.33, 0⟩, ⟨0.67, 0⟩, ⟨1, 0⟩] : List (Pt ℚ)).insertIdx 2
          (mulPt (inv (mulMat (exAfter []).editor_T exS.T)) ⟨225, 125⟩)) ∧
      (([⟨0, 0⟩, ⟨0.33, 0⟩, ⟨0.67, 0⟩, ⟨1, 0⟩] : List (Pt ℚ)).insertIdx 2
          (mulPt (inv (mulMat (exAfter []).editor_T exS.T)) ⟨225, 125⟩)).length = 4 + 1 ∧
      (([⟨0, 0⟩, ⟨0.33, 0⟩, ⟨0.67, 0⟩, ⟨1, 0⟩] : List (Pt ℚ)).insertIdx 2
          (mulPt (inv (mulMat (exAfter []).editor_T exS.T)) ⟨225, 125⟩)).eraseIdx 2 =
        [⟨0, 0⟩, ⟨0.33, 0⟩, ⟨0.67, 0⟩, ⟨1, 0⟩] ∧
      (([⟨0, 0⟩, ⟨0.33, 0⟩, ⟨0.67, 0⟩, ⟨1, 0⟩] : List (Pt ℚ)).insertIdx 2
          (mulPt (inv (mulMat (exAfter []).editor_T exS.T)) ⟨225, 125⟩))[2]? =
        some (mulPt (inv (mulMat (exAfter []).editor_T exS.T)) ⟨225, 125⟩) ∧
      s1.edges.length = (exAfter []).edges.length ∧
      (∀ j, j ≠ exS.id → s1.edges[j]? = (exAfter []).edges[j]?) ∧
      s1.drag = some { drag_edge_shape := exS.id, drag_vertex := 2,
                       drag_T := inv (mulMat (exAfter []).editor_T exS.T),
                       down_motion := ⟨225, 125⟩ }) :=
  ⟨by with_unfolding_all decide,
    segment_hit_inserts (exAfter []) exTiling ⟨225, 125⟩ false [exU] [exJ, exI] exS
      [⟨0, 0⟩, ⟨0.33, 0⟩, ⟨0.67, 0⟩, ⟨1, 0⟩] 2 rfl rfl (by with_unfolding_all decide)
      (by with_unfolding_all decide) (by with_unfolding_all decide) (by decide)⟩

set_option maxRecDepth 100000 in
/-- A press with `do_del` on the first interior point of the `S` edge of the
example square, in the state produced by `setType`. -/
theorem explicit_delete_removes_witness :
    (partScan (exAfter []) ⟨225, 159⟩ true exS = some (Scan.del 1)) ∧
    (∃ s1, startEdit (exAfter []) ⟨225, 159⟩ true = some (s1, false) ∧
      (1 ≤ 1 ∧ 1 + 1 < ([⟨0, 0⟩, ⟨0.33, 0⟩, ⟨0.67, 0⟩, ⟨1, 0⟩] : List (Pt ℚ)).length) ∧
      s1.edges[exS.id]? =
        some (([⟨0, 0⟩, ⟨0.33, 0⟩, ⟨0.67, 0⟩, ⟨1, 0⟩] : List (Pt ℚ)).eraseIdx 1) ∧
      (([⟨0, 0⟩, ⟨0.33, 0⟩, ⟨0.67, 0⟩, ⟨1, 0⟩] : List (Pt ℚ)).eraseIdx 1).length + 1 =
        ([⟨0, 0⟩, ⟨0.33, 0⟩, ⟨0.67, 0⟩, ⟨1, 0⟩] : List (Pt ℚ)).length ∧
      (([⟨0, 0⟩, ⟨0.33, 0⟩, ⟨0.67, 0⟩, ⟨1, 0⟩] : List (Pt ℚ)).eraseIdx 1).head? =
        ([⟨0, 0⟩, ⟨0.33, 0⟩, ⟨0.67, 0⟩, ⟨1, 0⟩] : List (Pt ℚ)).head? ∧
      (([⟨0, 0⟩, ⟨0.33, 0⟩, ⟨0.67, 0⟩, ⟨1, 0⟩] : List (Pt ℚ)).eraseIdx 1).getLast? =
        ([⟨0, 0⟩, ⟨0.33, 0⟩, ⟨0.67, 0⟩, ⟨1, 0⟩] : List (Pt ℚ)).getLast? ∧
      s1.edges.length = (exAfter []).edges.length ∧
      (∀ j, j ≠ exS.id → s1.edges[j]? = (exAfter []).edges[j]?) ∧
      tileShape exTiling s1.edges = some (getTileShape s1) ∧
      s1.drag = (exAfter []).drag ∧ s1.delete_timer = (exAfter []).delete_timer) :=
  ⟨by with_unfolding_all decide,
    explicit_delete_removes (exAfter []) exTiling ⟨225, 159⟩ [exU] [exJ, exI] exS
      [⟨0, 0⟩, ⟨0.33, 0⟩, ⟨0.67, 0⟩, ⟨1, 0⟩] 1 rfl rfl (by with_unfolding_all decide)
      (by with_unfolding_all decide) (by with_unfolding_all decide) (by decide)⟩

set_option maxRecDepth 100000 in
/-- A press on the last stored point of the `U` edge of the example square,
in the state produced by `setType`. -/
theorem mirror_constrained_drag_witness :
    (partScan (exAfter []) ⟨225, 225⟩ false exU = some (Scan.pick 3 true)) ∧
    ((exU.shape = EdgeShape.U ∧ exU.second = false ∧
        3 + 1 = ([⟨0, 0⟩, ⟨0.33, 0⟩, ⟨0.67, 0⟩, ⟨1, 0⟩] : List (Pt ℚ)).length) ∧
      ∃ s1, startEdit (exAfter []) ⟨225, 225⟩ false = some (s1, true) ∧
        s1.u_constrain = true ∧
        s1.drag.map (fun d => (d.drag_edge_shape, d.drag_vertex)) = some (exU.id, 3) ∧
        ∀ (pt : Pt ℚ) (pts : List (Pt ℚ)),
          ∃ s2 e2, runOps s1 ((pt :: pts).map Op.moveEdit) = some s2 ∧
            s2.edges[exU.id]? = some e2 ∧
            e2.length = ([⟨0, 0⟩, ⟨0.33, 0⟩, ⟨0.67, 0⟩, ⟨1, 0⟩] : List (Pt ℚ)).length ∧
            (∃ y, e2[3]? = some ⟨1, y⟩) ∧
            (∀ j, j ≠ 3 →
              e2[j]? = ([⟨0, 0⟩, ⟨0.33, 0⟩, ⟨0.67, 0⟩, ⟨1, 0⟩] : List (Pt ℚ))[j]?) ∧
            (∀ j, j ≠ exU.id → s2.edges[j]? = (exAfter []).edges[j]?)) :=
  ⟨by with_unfolding_all decide,
    mirror_constrained_drag (exAfter []) exTiling ⟨225, 225⟩ false [] [exS, exJ, exI] exU
      [⟨0, 0⟩, ⟨0.33, 0⟩, ⟨0.67, 0⟩, ⟨1, 0⟩] 3 rfl rfl (by with_unfolding_all decide)
      (by with_unfolding_all decide) (by with_unfolding_all decide) (by decide)⟩

set_option maxRecDepth 100000 in
/-- The second interior point `(0.67, 0)` of the `U` edge of the example
square, in the state produced by `setType`. -/
theorem vertex_hit_selects_witness :
    ((0 : ℚ) < (exAfter []).phys_unit) ∧
    (scanEdge (exAfter []).phys_unit (mulMat (exAfter []).editor_T exU.T)
      (mulPt (mulMat (exAfter []).editor_T exU.T) ⟨0.67, 0⟩) false exU.shape exU.second
      ((⟨0, 0⟩ : Pt ℚ) :: [⟨0.33, 0⟩, ⟨0.67, 0⟩, ⟨1, 0⟩]).length 1
      (mulPt (mulMat (exAfter []).editor_T exU.T) ⟨0, 0⟩)
      (([⟨0.33, 0⟩, ⟨0.67, 0⟩, ⟨1, 0⟩] : List (Pt ℚ)).take (2 - 1)) = Scan.done) ∧
    (∃ s1, startEdit (exAfter []) (mulPt (mulMat (exAfter []).editor_T exU.T) ⟨0.67, 0⟩)
        false = some (s1, true) ∧
      s1.drag = some { drag_edge_shape := exU.id, drag_vertex := 2,
                       drag_T := inv (mulMat (exAfter []).editor_T exU.T),
                       down_motion := mulPt (mulMat (exAfter []).editor_T exU.T) ⟨0.67, 0⟩ } ∧
      s1.edges = (exAfter []).edges ∧ s1.u_constrain = false) :=
  ⟨by with_unfolding_all decide, by with_unfolding_all decide,
    vertex_hit_selects (exAfter []) exTiling [] [exS, exJ, exI] exU ⟨0, 0⟩ ⟨0.67, 0⟩
      [⟨0.33, 0⟩, ⟨0.67, 0⟩, ⟨1, 0⟩] 2 rfl rfl (by with_unfolding_all decide)
      (by decide) (by with_unfolding_all decide) (by decide) (by decide)
      (by with_unfolding_all decide) (by with_unfolding_all decide)
      (by with_unfolding_all decide)⟩

set_option maxRecDepth 100000 in
/-- C13 fails as stated. On the example square, after a segment hit at
`(105,225)` and a release, the `U` edge holds
`(0,0), (0.4,0), (0.33,0), (0.67,0), (1,0)`.  The interior control point at
index 2, `(0.33,0)`, has the image `(91,225)`; a press exactly there lies on
the segment that ends at index 1, which the scan meets first: `startEdit`
inserts a point (the edge gets 6 points) and records the drag target
`(0, 1)`, not `(0, 2)`. -/
theorem vertex_hit_counterexample :
    Reachable true (exAfter [Op.startEdit ⟨105, 225⟩ false, Op.finishEdit]) ∧
    (0 : ℚ) < (exAfter [Op.startEdit ⟨105, 225⟩ false, Op.finishEdit]).phys_unit ∧
    exU ∈ exTiling.parts ∧ exU.shape ≠ EdgeShape.I ∧
    (exAfter [Op.startEdit ⟨105, 225⟩ false, Op.finishEdit]).edges[exU.id]? =
      some [⟨0, 0⟩, ⟨0.4, 0⟩, ⟨0.33, 0⟩, ⟨0.67, 0⟩, ⟨1, 0⟩] ∧
    mulPt (mulMat (exAfter [Op.startEdit ⟨105, 225⟩ false, Op.finishEdit]).editor_T exU.T)
      ⟨0.33, 0⟩ = ⟨91, 225⟩ ∧
    (startEdit (exAfter [Op.startEdit ⟨105, 225⟩ false, Op.finishEdit]) ⟨91, 225⟩ false).map
      (fun r => (r.2, r.1.drag.map (fun d => (d.drag_edge_shape, d.drag_vertex)),
        r.1.edges[exU.id]?.map List.length)) = some (true, some (0, 1), some 6) := by
  refine ⟨reachable_exAfter true _ (by decide) (by with_unfolding_all decide), ?_, ?_, ?_, ?_,
    ?_, ?_⟩
  · with_unfolding_all decide
  · simp [exTiling, exU, IsohedralTiling.parts]
  · decide
  · with_unfolding_all decide
  · with_unfolding_all decide
  · with_unfolding_all decide

set_option maxRecDepth 100000 in
/-- A press on the last stored point of the `J` edge of the example square,
whose image is `(25,25)`: the only occurrence after it is the `I` edge. -/
theorem terminal_hit_breaks_witness :
    (sqrtLt (ptdistSq (mulPt (mulMat (exAfter []).editor_T exJ.T) ⟨1, 0⟩) ⟨25, 25⟩)
      (0.5 * (exAfter []).phys_unit)) ∧
    (¬ (exJ.shape = EdgeShape.U ∧ exJ.second = false)) ∧
    (partScan (exAfter []) ⟨25, 25⟩ false exJ = some Scan.brk ∧
      startEdit (exAfter []) ⟨25, 25⟩ false =
        startEditLoop { exAfter [] with u_constrain := false } ⟨25, 25⟩ false [exI] ∧
      ((∀ j ∈ [exI], passes (exAfter []) ⟨25, 25⟩ false j) →
        startEdit (exAfter []) ⟨25, 25⟩ false =
          some ({ exAfter [] with u_constrain := false }, false))) :=
  ⟨by with_unfolding_all decide, by decide,
    terminal_hit_breaks (exAfter []) exTiling ⟨25, 25⟩ false [exU, exS] [exI] exJ ⟨0, 0⟩ ⟨1, 0⟩
      [⟨0.35, 0⟩, ⟨0.65, 0⟩, ⟨1, 0⟩] rfl rfl (by with_unfolding_all decide) (by decide)
      (by with_unfolding_all decide) (by decide) (by with_unfolding_all decide) (by decide)
      (by with_unfolding_all decide)⟩

set_option maxRecDepth 100000 in
/-- C15 fails as stated. On the example square in the state produced by
`setType`, the press point `(225,25)` is the image of the last stored point
of the `S` edge, an occurrence that is not a first occurrence of a `U` edge,
and the scan finds no hit before reaching it.  The scan of that occurrence
ends with the `break`, but `startEdit` goes on to the `J` edge, whose first
segment starts at the same corner: it returns `true`, inserts a point into
edge 2 and records the drag target `(2, 1)`. -/
theorem terminal_hit_counterexample :
    exTiling.parts = [exU] ++ exS :: [exJ, exI] ∧
    ¬ (exS.shape = EdgeShape.U ∧ exS.second = false) ∧
    (exAfter []).edges[exS.id]? = some [⟨0, 0⟩, ⟨0.33, 0⟩, ⟨0.67, 0⟩, ⟨1, 0⟩] ∧
    sqrtLt (ptdistSq (mulPt (mulMat (exAfter []).editor_T exS.T) ⟨1, 0⟩) ⟨225, 25⟩)
      (0.5 * (exAfter []).phys_unit) ∧
    (∀ j ∈ [exU], passes (exAfter []) ⟨225, 25⟩ false j) ∧
    scanEdge (exAfter []).phys_unit (mulMat (exAfter []).editor_T exS.T) ⟨225, 25⟩ false
      exS.shape exS.second 4 1 (mulPt (mulMat (exAfter []).editor_T exS.T) ⟨0, 0⟩)
      [⟨0.33, 0⟩, ⟨0.67, 0⟩] = Scan.done ∧
    partScan (exAfter []) ⟨225, 25⟩ false exS = some Scan.brk ∧
    (startEdit (exAfter []) ⟨225, 25⟩ false).map
      (fun r => (r.2, r.1.drag.map (fun d => (d.drag_edge_shape, d.drag_vertex)),
        r.1.edges[exJ.id]?.map List.length)) = some (true, some (2, 1), some 5) := by
  refine ⟨rfl, by decide, ?_, ?_, ?_, ?_, ?_, ?_⟩
  · with_unfolding_all decide
  · with_unfolding_all decide
  · with_unfolding_all decide
  · with_unfolding_all decide
  · with_unfolding_all decide
  · with_unfolding_all decide

set_option maxRecDepth 100000 in
/-- A press on the first interior point of the `S` edge of the example
square, in the state produced by `setType`, in exact arithmetic; the
`moveEdit( (225,125) )` that follows returns and stores `(1/2, 0)`. -/
theorem dragged_point_follows_pointer_witness :
    (exAfter []).tiling = some exTiling ∧
    (∀ seg ∈ exTiling.shape, seg.id < (exAfter []).edges.length) ∧
    ∃ s1, startEdit (exAfter []) ⟨225, 159⟩ false = some (s1, true) ∧
      (∃ s2, moveEdit s1 ⟨225, 125⟩ = some s2 ∧
        s2.edges[1]? = some [⟨0, 0⟩, ⟨1 / 2, 0⟩, ⟨0.67, 0⟩, ⟨1, 0⟩]) ∧
      (∃ i ∈ exTiling.parts, ∃ d, s1.drag = some d ∧ d.drag_edge_shape = i.id ∧
        d.drag_T = inv (mulMat (exAfter []).editor_T i.T) ∧
        s1.editor_T = (exAfter []).editor_T ∧
        (det (mulMat (exAfter []).editor_T i.T) ≠ 0 →
          (∀ pt, s1.u_constrain = false →
            ∃ s2, moveEdit s1 pt = some s2 ∧
              ∃ e p, s2.edges[d.drag_edge_shape]? = some e ∧ e[d.drag_vertex]? = some p ∧
                mulPt (mulMat (exAfter []).editor_T i.T) p = pt) ∧
          (s1.edges ≠ (exAfter []).edges →
            ∃ e p, s1.edges[d.drag_edge_shape]? = some e ∧ e[d.drag_vertex]? = some p ∧
              mulPt (mulMat (exAfter []).editor_T i.T) p = ⟨225, 159⟩))) ∧
      (mulMat (⟨200, 0, 25, 0, -200, 225⟩ : Xform F64) ⟨0, -1, 1, 1, 0, 0⟩ =
          ⟨0, -200, 225, -200, 0, 225⟩ ∧
        mulPt (inv (⟨0, -200, 225, -200, 0, 225⟩ : Xform F64)) ⟨225, 125⟩ = ⟨0.5, 0⟩ ∧
        mulPt (⟨0, -200, 225, -200, 0, 225⟩ : Xform F64) ⟨0.5, 0⟩ = ⟨225, 125⟩) := by
  have ht : (exAfter []).tiling = some exTiling := by with_unfolding_all rfl
  have hsh : ∀ seg ∈ exTiling.shape, seg.id < (exAfter []).edges.length := by decide!
  have hb : ((startEdit (exAfter []) ⟨225, 159⟩ false).bind fun r =>
      (moveEdit r.1 ⟨225, 125⟩).map fun s2 => (r.2, s2.edges[1]?)) =
      some (true, some [⟨0, 0⟩, ⟨1 / 2, 0⟩, ⟨0.67, 0⟩, ⟨1, 0⟩]) := by
    decide!
  obtain ⟨⟨s1, b⟩, hs, hrest⟩ := Option.bind_eq_some.mp hb
  obtain ⟨s2, hm, hpair⟩ := Option.map_eq_some'.mp hrest
  simp only [Prod.mk.injEq] at hpair
  obtain ⟨hbt, he⟩ := hpair
  subst hbt
  obtain ⟨h1, h2⟩ := dragged_point_follows_pointer (exAfter []) s1 exTiling ⟨225, 159⟩ false
    ht hsh hs
  exact ⟨ht, hsh, s1, hs, ⟨s2, hm, he⟩, h1, h2⟩

set_option maxRecDepth 100000 in
/-- C17 fails as stated for the numbers the program computes with. On the
example square the surface transform of the `S` edge is
`[0, -200, 225, -200, 0, 225]`, in exact arithmetic as in doubles (its entries
are integers).  In double precision `inv` of it is
`[0, -0.005, 1.125, -0.005, 0, 1.125]`; for the pointer `(205,159)`,
`moveEdit` stores `mul( drag_T, pt )`, which is
`(0.32999999999999996, 0.10000000000000009)`, and the surface transform maps
that point to `(204.99999999999997, 159)`, not to the pointer. -/
theorem dragged_point_counterexample :
    mulMat (exAfter []).editor_T exS.T = ⟨0, -200, 225, -200, 0, 225⟩ ∧
    mulMat (⟨200, 0, 25, 0, -200, 225⟩ : Xform F64) ⟨0, -1, 1, 1, 0, 0⟩ =
      ⟨0, -200, 225, -200, 0, 225⟩ ∧
    inv (⟨0, -200, 225, -200, 0, 225⟩ : Xform F64) = ⟨0, -0.005, 1.125, -0.005, 0, 1.125⟩ ∧
    mulPt (inv (⟨0, -200, 225, -200, 0, 225⟩ : Xform F64)) ⟨205, 159⟩ =
      ⟨0.32999999999999996, 0.10000000000000009⟩ ∧
    mulPt (⟨0, -200, 225, -200, 0, 225⟩ : Xform F64)
      (mulPt (inv ⟨0, -200, 225, -200, 0, 225⟩) ⟨205, 159⟩) = ⟨204.99999999999997, 159⟩ ∧
    mulPt (⟨0, -200, 225, -200, 0, 225⟩ : Xform F64)
      (mulPt (inv ⟨0, -200, 225, -200, 0, 225⟩) ⟨205, 159⟩) ≠ ⟨205, 159⟩ := by
  decide!

set_option maxRecDepth 100000 in
/-- The example editor after a new curve amount, a segment hit on the `S`
edge, a move, an explicit delete and a release. -/
theorem edges_keep_two_points_witness :
    Reachable false (exAfter [Op.setCurveAmount 1, Op.startEdit ⟨225, 125⟩ false,
      Op.moveEdit ⟨200, 125⟩, Op.startEdit ⟨225, 159⟩ true, Op.finishEdit]) ∧
    ∀ e ∈ (exAfter [Op.setCurveAmount 1, Op.startEdit ⟨225, 125⟩ false,
        Op.moveEdit ⟨200, 125⟩, Op.startEdit ⟨225, 159⟩ true, Op.finishEdit]).edges,
      2 ≤ e.length ∧ e.head? = some ⟨0, 0⟩ :=
  ⟨reachable_exAfter false _ (by decide) (by with_unfolding_all decide),
    (edges_keep_two_points false _
      (reachable_exAfter false _ (by decide) (by with_unfolding_all decide))).1⟩

set_option maxRecDepth 100000 in
/-- C14 fails as stated. On the example square, after a press on the first
interior point of the `S` edge and `finishEdit`, no session is active, yet
`moveEdit( (205,159) )` rewrites that point from `(0.33, 0)` to
`(0.33, 0.1)`; and in the state produced by `setType`, where no press was
ever made, `moveEdit` throws. -/
theorem stale_moveEdit_counterexample :
    Reachable true (exAfter [Op.startEdit ⟨225, 159⟩ false, Op.finishEdit]) ∧
    (exAfter [Op.startEdit ⟨225, 159⟩ false, Op.finishEdit]).edges[1]? =
      some [⟨0, 0⟩, ⟨0.33, 0⟩, ⟨0.67, 0⟩, ⟨1, 0⟩] ∧
    (moveEdit (exAfter [Op.startEdit ⟨225, 159⟩ false, Op.finishEdit]) ⟨205, 159⟩).map
      (fun s1 => s1.edges[1]?) = some (some [⟨0, 0⟩, ⟨0.33, 0.1⟩, ⟨0.67, 0⟩, ⟨1, 0⟩]) ∧
    moveEdit (exAfter []) ⟨205, 159⟩ = none := by
  refine ⟨reachable_exAfter true _ (by decide) (by with_unfolding_all decide), ?_, ?_, rfl⟩
  · with_unfolding_all decide
  · with_unfolding_all decide

set_option maxRecDepth 100000 in
/-- The example editor after a press on the first interior point of the `S`
edge: `moveEdit` after `finishEdit` still writes at the drag target `(1, 1)`. -/
theorem stale_session_calls_witness :
    ∃ s1, moveEdit (finishEdit (exAfter [Op.startEdit ⟨225, 159⟩ false])) ⟨205, 159⟩ =
        some s1 ∧
      s1.edges[1]? =
        some (([⟨0, 0⟩, ⟨0.33, 0⟩, ⟨0.67, 0⟩, ⟨1, 0⟩] : List (Pt ℚ)).set 1
          (mulPt (inv (mulMat (exAfter []).editor_T exS.T)) ⟨205, 159⟩)) ∧
      tileShape exTiling s1.edges = some (getTileShape s1) := by
  have hsome : (moveEdit (finishEdit (exAfter [Op.startEdit ⟨225, 159⟩ false]))
      ⟨205, 159⟩).isSome = true := by
    with_unfolding_all decide
  obtain ⟨s1, hs1⟩ := Option.isSome_iff_exists.mp hsome
  have hd : (exAfter [Op.startEdit ⟨225, 159⟩ false]).drag =
      some { drag_edge_shape := 1, drag_vertex := 1,
             drag_T := inv (mulMat (exAfter []).editor_T exS.T),
             down_motion := ⟨225, 159⟩ } := by
    with_unfolding_all rfl
  have ht : (exAfter [Op.startEdit ⟨225, 159⟩ false]).tiling = some exTiling := by
    with_unfolding_all rfl
  exact ⟨s1, hs1, stale_session_calls.2.2.2
    (exAfter [Op.startEdit ⟨225, 159⟩ false]) s1 exTiling _
    [⟨0, 0⟩, ⟨0.33, 0⟩, ⟨0.67, 0⟩, ⟨1, 0⟩] ⟨205, 159⟩ ht hd
    (by with_unfolding_all decide) (by decide) hs1⟩

set_option maxRecDepth 100000 in
/-- C20: the code at the failing input. On the example square, a press on the
end of the `U` edge arms the mirror constraint; a second press, on the
middle segment of the `S` edge, inserts a point there and records it as the
drag target `(1, 2)` without clearing `u_constrain`.  In the state reached
`u_constrain` is `true` while the drag target is index 2 of the five points
of an `S` edge, and `moveEdit( (200,125) )` stores `(1, 1/8)` there: the x
coordinate is forced to 1 on a point inserted on another edge. -/
theorem mirror_constraint_left_armed :
    Reachable true (exAfter [Op.startEdit ⟨225, 225⟩ false, Op.startEdit ⟨225, 125⟩ false]) ∧
    (exAfter [Op.startEdit ⟨225, 225⟩ false, Op.startEdit ⟨225, 125⟩ false]).u_constrain =
      true ∧
    (exAfter [Op.startEdit ⟨225, 225⟩ false, Op.startEdit ⟨225, 125⟩ false]).drag.map
      (fun d => (d.drag_edge_shape, d.drag_vertex)) = some (1, 2) ∧
    exTiling.getEdgeShape 1 = some EdgeShape.S ∧
    (exAfter [Op.startEdit ⟨225, 225⟩ false, Op.startEdit ⟨225, 125⟩ false]).edges[1]? =
      some [⟨0, 0⟩, ⟨0.33, 0⟩, ⟨0.5, 0⟩, ⟨0.67, 0⟩, ⟨1, 0⟩] ∧
    (moveEdit (exAfter [Op.startEdit ⟨225, 225⟩ false, Op.startEdit ⟨225, 125⟩ false])
      ⟨200, 125⟩).map (fun s1 => s1.edges[1]?) =
      some (some [⟨0, 0⟩, ⟨0.33, 0⟩, ⟨1, 1 / 8⟩, ⟨0.67, 0⟩, ⟨1, 0⟩]) ∧
    mulPt (inv (mulMat (exAfter []).editor_T exS.T)) ⟨200, 125⟩ = ⟨0.5, 1 / 8⟩ := by
  refine ⟨reachable_exAfter true _ (by decide) (by with_unfolding_all decide), ?_, ?_, rfl,
    ?_, ?_, ?_⟩
  · with_unfolding_all decide
  · with_unfolding_all decide
  · with_unfolding_all decide
  · with_unfolding_all decide
  · with_unfolding_all decide

set_option maxRecDepth 100000 in
/-- C4 fails as stated. On the example square, a press on the end of the `U`
edge records the drag target `(0, 3)`; two presses with `do_del` on its
interior points remove them and leave the recorded target as it is, so that
edge 0 is `(0,0), (1,0)`.  The `moveEdit( (225,125) )` that follows stores
`(1, 1/2)` at index 3 of that edge, leaving a hole at index 2, empties
`tile_shape` and throws in `cacheTileShape` (`cubicPoint` reads the hole):
afterwards `getTileShape()` is `[]`, which is not an outline of the edges the
editor now holds, and no outline can be computed from them. -/
theorem cache_counterexample :
    ∃ s : EditableTiling ℚ,
      exRun [Op.startEdit ⟨225, 225⟩ false, Op.startEdit ⟨91, 225⟩ true,
        Op.startEdit ⟨159, 225⟩ true] = some s ∧
      Reachable false s ∧
      s.edges[0]? = some [⟨0, 0⟩, ⟨1, 0⟩] ∧
      s.drag.map (fun d => (d.drag_edge_shape, d.drag_vertex)) = some (0, 3) ∧
      getTileShape s ≠ [] ∧
      moveEdit s ⟨225, 125⟩ = none ∧
      ∃ w, moveEditThrown s ⟨225, 125⟩ = some w ∧
        w.edges[0]? = some [some ⟨0, 0⟩, some ⟨1, 0⟩, none, some ⟨1, 1 / 2⟩] ∧
        w.tile_shape = [] ∧
        tileShapeLoopHoles w.edges exTiling.shape true [] = ([], true) := by
  have hsome : (exRun [Op.startEdit ⟨225, 225⟩ false, Op.startEdit ⟨91, 225⟩ true,
      Op.startEdit ⟨159, 225⟩ true]).isSome = true := by decide!
  obtain ⟨s, hs⟩ := Option.isSome_iff_exists.mp hsome
  have hs2 : exAfter [Op.startEdit ⟨225, 225⟩ false, Op.startEdit ⟨91, 225⟩ true,
      Op.startEdit ⟨159, 225⟩ true] = s := exAfter_eq _ s hs
  have hthrown : (moveEditThrown (exAfter [Op.startEdit ⟨225, 225⟩ false,
      Op.startEdit ⟨91, 225⟩ true, Op.startEdit ⟨159, 225⟩ true]) ⟨225, 125⟩).map
        (fun w => (w.edges[0]?, w.tile_shape,
          tileShapeLoopHoles w.edges exTiling.shape true [])) =
      some (some [some ⟨0, 0⟩, some ⟨1, 0⟩, none, some ⟨1, 1 / 2⟩], [], ([], true)) := by
    decide!
  rw [hs2] at hthrown
  obtain ⟨w, hw, hfields⟩ := Option.map_eq_some'.mp hthrown
  simp only [Prod.mk.injEq] at hfields
  refine ⟨s, hs, reachable_exRun false _ (by simp) s hs, ?_, ?_, ?_, ?_, w, hw, hfields.1,
    hfields.2.1, hfields.2.2⟩
  · rw [← hs2]; decide!
  · rw [← hs2]; decide!
  · rw [← hs2]; decide!
  · rw [← hs2]
    have hnone : (moveEdit (exAfter [Op.startEdit ⟨225, 225⟩ false,
        Op.startEdit ⟨91, 225⟩ true, Op.startEdit ⟨159, 225⟩ true]) ⟨225, 125⟩).isNone =
        true := by decide!
    exact Option.isNone_iff_eq_none.mp hnone

end SessionExamples

end Tactile
